import Mathlib

/-!
Verification of the ladder-lottery generator (`js/ladder.js`), the input
validation in `js/main.js`, and the shareable-URL encoding in `js/share.js`.

The JavaScript source is shallowly embedded: JS numbers that take part in
column arithmetic become `Int` (the tracer compares against
`currentCol - 1`, which can be `-1` in JS), array indices become `Nat`,
and every call to `Math.random()` is replaced by an explicit random-source
parameter (a function), so each theorem quantifies over all possible
random draws.
-/

set_option linter.unusedVariables false

namespace LadderDraw

/-- A horizontal rung, the `{fromColumn, row}` objects of `js/ladder.js`.
It connects columns `fromColumn` and `fromColumn + 1` at height `row`. -/
structure HLine where
  fromColumn : Int
  row : Int
deriving DecidableEq, Repr

/-- CONFIG.MIN_ROWS from `js/ladder.js`. -/
def MIN_ROWS : Nat := 6

/-- CONFIG.ROWS_PER_PARTICIPANT from `js/ladder.js` (the JS value is the
float `3.0`; `numColumns * 3.0` is an exact integer and `Math.round` of it
is the identity, so it is embedded as the integer `3`). -/
def ROWS_PER_PARTICIPANT : Nat := 3

/-- CONFIG.MAX_ROWS from `js/ladder.js`. -/
def MAX_ROWS : Nat := 200

/-- The destructuring swap `[a[i], a[j]] = [a[j], a[i]]` on an array of
numbers: both reads happen before either write. Out-of-range indices keep
the list unchanged, which is never exercised because the shuffle only uses
in-range indices. -/
def swapList (l : List Nat) (i j : Nat) : List Nat :=
  (l.set i (l.getD j 0)).set j (l.getD i 0)

/-- The Fisher–Yates loop of `generateRandomMapping`: for `i` from the
given index down to `1`, swap position `i` with position
`rand i % (i + 1)`.  The JS draw `Math.floor(Math.random() * (i + 1))` is
a number in `[0, i]`; an arbitrary `rand : Nat → Nat` reduced mod `i + 1`
ranges over exactly those values. -/
def shuffleSteps (rand : Nat → Nat) : Nat → List Nat → List Nat
  | 0, l => l
  | i + 1, l => shuffleSteps rand i (swapList l (i + 1) (rand (i + 1) % (i + 2)))

/-- The second loop of `generateRandomMapping`: build the object with
`mapping[shuffled[i]] = i`, embedded as a list indexed by start column. -/
def buildMapping (shuffled : List Nat) (n : Nat) : List Int :=
  (List.range n).foldl (fun m i => m.set (shuffled.getD i 0) (i : Int)) (List.replicate n 0)

/-- `generateRandomMapping` from `js/ladder.js`: shuffle `[0, …, n-1]`
with Fisher–Yates, then invert the shuffled array into the mapping. -/
def generateRandomMapping (n : Nat) (rand : Nat → Nat) : List Int :=
  buildMapping (shuffleSteps rand (n - 1) (List.range n)) n

/-- The Fisher–Yates loop driven by an explicit list of draws: the first
list entry is the draw for the highest index, as `shuffleSteps` consumes
`rand` from `n - 1` downward. -/
def shuffleVec : List Nat → List Nat → List Nat
  | [], l => l
  | j :: rest, l => shuffleVec rest (swapList l (rest.length + 1) (j % (rest.length + 2)))

/-- The draws `rand m, rand (m-1), …, rand 1` as a list. -/
def vecOf (rand : Nat → Nat) : Nat → List Nat
  | 0 => []
  | i + 1 => rand (i + 1) :: vecOf rand i

/-- Read a random source back off a choice vector for a shuffle of `n`
elements: index `i` is stored at position `n - 1 - i`. -/
def choiceFun (n : Nat) (cs : List Nat) : Nat → Nat :=
  fun i => cs.getD (n - 1 - i) 0

/-- All legal Fisher–Yates choice vectors for indices `m, m-1, …, 1`: the
draw for index `i` ranges over `0 … i`.  There are `(m+1)!` of them, all
equally likely under a uniform `Math.random()`. -/
def choiceVecs : Nat → Finset (List Nat)
  | 0 => {[]}
  | m + 1 => Finset.image₂ List.cons (Finset.range (m + 2)) (choiceVecs m)

/-- The loop body of one row of `generateRandomLines`: skip a column pair
already touched in this row, otherwise place a rung when the random draw
succeeds (`Math.random() < CONFIG.LINE_DENSITY` becomes the boolean
`rand row col`). -/
def naturalStep (rand : Nat → Nat → Bool) (row : Nat) (st : Finset Int × List HLine)
    (col : Nat) : Finset Int × List HLine :=
  if (col : Int) ∈ st.1 ∨ ((col : Int) + 1) ∈ st.1 then st
  else if rand row col then
    (insert (col : Int) (insert ((col : Int) + 1) st.1),
     st.2 ++ [⟨(col : Int), (row : Int)⟩])
  else st

/-- One row of `generateRandomLines`: scan columns left to right with a
fresh `usedColumns` set. -/
def naturalRow (rand : Nat → Nat → Bool) (row numColumns : Nat) : List HLine :=
  ((List.range (numColumns - 1)).foldl (naturalStep rand row) (∅, [])).2

/-- `generateRandomLines` from `js/ladder.js`: rows `1` to `numRows - 1`,
each row generated independently (the `usedColumns` set is reset at every
row). -/
def generateRandomLines (numColumns numRows : Nat) (rand : Nat → Nat → Bool) : List HLine :=
  (List.range' 1 (numRows - 1)).flatMap (fun row => naturalRow rand row numColumns)

/-- The inner loop of `calculateMapping`: try the lines of the current row
in order; the first line with `fromColumn = currentCol` moves the column
right, the first with `fromColumn = currentCol - 1` moves it left, and the
loop breaks at the first match. -/
def stepRow : List HLine → Int → Int
  | [], c => c
  | l :: rest, c =>
    if l.fromColumn = c then c + 1
    else if l.fromColumn = c - 1 then c - 1
    else stepRow rest c

/-- The `linesByRow` bucket of a given row: `calculateMapping` groups
lines by their `row` field, keeping insertion order and dropping lines
whose row is outside `0 … numRows - 1` (their bucket does not exist). -/
def rowLines (lines : List HLine) (r : Int) : List HLine :=
  lines.filter (fun l => l.row = r)

/-- Trace one start column through rows `0 … numRows - 1`, as the outer
loop of `calculateMapping` does. -/
def traceFrom (lines : List HLine) (numRows : Nat) (start : Int) : Int :=
  (List.range numRows).foldl (fun c (r : Nat) => stepRow (rowLines lines (r : Int)) c) start

/-- `calculateMapping` from `js/ladder.js`, as the list of end columns
indexed by start column. -/
def calculateMapping (numColumns numRows : Nat) (lines : List HLine) : List Int :=
  (List.range numColumns).map (fun s : Nat => traceFrom lines numRows (s : Int))

/-- Write `v` at a JS-number index: `a[i] = v` with `i` a value taken from
a mapping. A negative index never hits the numeric entries of the array. -/
def setAtI (a : List Int) (i : Int) (v : Int) : List Int :=
  if 0 ≤ i then a.set i.toNat v else a

/-- The `currentPerm` / `targetPerm` construction of
`calculateAdjustmentTranspositions`: `perm[mapping[p]] = p` for every
participant `p`. -/
def buildPosPerm (m : List Int) (n : Nat) : List Int :=
  (List.range n).foldl (fun a p => setAtI a (m.getD p 0) (p : Int)) (List.replicate n 0)

/-- The destructuring swap on the `working` array of
`calculateAdjustmentTranspositions`. -/
def swapEntries (w : List Int) (i j : Nat) : List Int :=
  (w.set i (w.getD j 0)).set j (w.getD i 0)

/-- The bubble `while (currentPos > pos)` loop: swap positions
`currentPos - 1` and `currentPos`, record `currentPos - 1`, decrement.
The second argument is `currentPos`; recursion is structural on it. -/
def bubbleFrom (pos : Nat) : Nat → List Int → List Nat × List Int
  | 0, w => ([], w)
  | cur + 1, w =>
    if pos ≤ cur then
      let r := bubbleFrom pos cur (swapEntries w cur (cur + 1))
      (cur :: r.1, r.2)
    else ([], w)

/-- `calculateAdjustmentTranspositions` from `js/ladder.js`.
`working.indexOf(x)` is embedded with `findIdx?`; the JS `-1` result makes
the while loop a no-op, exactly like the `none` branch. -/
def calculateAdjustmentTranspositions (actualMapping targetMapping : List Int) (n : Nat) :
    List Nat :=
  let currentPerm := buildPosPerm actualMapping n
  let targetPerm := buildPosPerm targetMapping n
  ((List.range n).foldl
    (fun (st : List Nat × List Int) pos =>
      match st.2.findIdx? (fun y => y == targetPerm.getD pos 0) with
      | none => st
      | some currentPos =>
        let r := bubbleFrom pos currentPos st.2
        (st.1 ++ r.1, r.2))
    ([], currentPerm)).1

/-- State of the `addAdjustmentLines` fold: the output line list, the
per-adjustment-row sets of used columns, and the order pointer. -/
structure AdjState where
  result : List HLine
  rows : List (Finset Int)
  minRowIdx : Nat

/-- One iteration of the `for (const col of transpositions)` loop of
`addAdjustmentLines`: scan existing rows from `minRowIdx` for the first
row free at `col` and `col + 1`; place there, or open a new row. -/
def placeTransposition (startRow : Nat) (st : AdjState) (col : Nat) : AdjState :=
  match ((List.range st.rows.length).drop st.minRowIdx).find?
      (fun i => decide ((col : Int) ∉ st.rows.getD i ∅ ∧ ((col : Int) + 1) ∉ st.rows.getD i ∅)) with
  | some i =>
    { result := st.result ++ [⟨(col : Int), ((startRow + i : Nat) : Int)⟩],
      rows := st.rows.set i (insert (col : Int) (insert ((col : Int) + 1) (st.rows.getD i ∅))),
      minRowIdx := i }
  | none =>
    { result := st.result ++ [⟨(col : Int), ((startRow + st.rows.length : Nat) : Int)⟩],
      rows := st.rows ++ [({(col : Int), (col : Int) + 1} : Finset Int)],
      minRowIdx := st.rows.length }

/-- `addAdjustmentLines` from `js/ladder.js`: returns the extended line
list and the updated row count `startRow + max(1, rows.length)`.  The
`numColumns` parameter is unused, as in the source. -/
def addAdjustmentLines (lines : List HLine) (transpositions : List Nat)
    (startRow : Nat) (numColumns : Nat) : List HLine × Nat :=
  let st := transpositions.foldl (placeTransposition startRow) ⟨lines, [], 0⟩
  (st.result, startRow + max 1 st.rows.length)

/-- The per-row usage map of `fillWithDecorativePairs`: the set of columns
touched by some line of the given row. -/
def usedAt (lines : List HLine) (r : Int) : Finset Int :=
  lines.foldl
    (fun s l => if l.row = r then insert l.fromColumn (insert (l.fromColumn + 1) s) else s) ∅

/-- The inner column scan of `fillWithDecorativePairs` for one pair of
consecutive rows `(row, row + 1)`: skip a column pair used in either row,
otherwise place the canceling pair when the draw succeeds
(`Math.random() < CONFIG.FILL_DENSITY` becomes `rand row col`), updating
both usage sets. -/
def fillStep (rand : Nat → Nat → Bool) (row : Nat)
    (st : List HLine × Finset Int × Finset Int) (col : Nat) :
    List HLine × Finset Int × Finset Int :=
  if (col : Int) ∈ st.2.1 ∨ ((col : Int) + 1) ∈ st.2.1 then st
  else if (col : Int) ∈ st.2.2 ∨ ((col : Int) + 1) ∈ st.2.2 then st
  else if rand row col then
    (st.1 ++ [⟨(col : Int), (row : Int)⟩, ⟨(col : Int), ((row : Nat) + 1 : Nat)⟩],
     insert (col : Int) (insert ((col : Int) + 1) st.2.1),
     insert (col : Int) (insert ((col : Int) + 1) st.2.2))
  else st

def fillBlock (rand : Nat → Nat → Bool) (row numColumns : Nat) (u1 u2 : Finset Int) :
    List HLine :=
  ((List.range (numColumns - 1)).foldl (fillStep rand row) ([], u1, u2)).1

/-- The rows visited by the fill loop `for (row = 1; row < numRows - 1;
row += 2)`: the odd rows below `numRows - 1`. -/
def decorRows (numRows : Nat) : List Nat :=
  (List.range numRows).filter (fun r => r % 2 = 1 && r + 1 < numRows)

/-- `fillWithDecorativePairs` from `js/ladder.js`.  Successive blocks read
and write disjoint rows of the usage map, and the map is seeded from the
input lines only, so each block depends only on `usedAt lines row` and
`usedAt lines (row + 1)`. -/
def fillWithDecorativePairs (lines : List HLine) (numRows numColumns : Nat)
    (rand : Nat → Nat → Bool) : List HLine :=
  lines ++ (decorRows numRows).flatMap
    (fun r => fillBlock rand r numColumns (usedAt lines r) (usedAt lines (r + 1)))

/-- The generated ladder structure (`LadderData` in the source). -/
structure LadderData where
  participants : List String
  results : List String
  verticalLines : Nat
  rows : Nat
  horizontalLines : List HLine
  mapping : List Int
deriving Repr

/-- The final `filledLines.sort((a, b) => a.row - b.row || a.fromColumn -
b.fromColumn)` of `generate`: a stable sort by row, then by column. -/
def sortLines (lines : List HLine) : List HLine :=
  lines.mergeSort (fun a b => decide (a.row < b.row ∨ (a.row = b.row ∧ a.fromColumn ≤ b.fromColumn)))

/-- `generate` from `js/ladder.js`.  The three random sources stand for
the distinct `Math.random()` call sites: the Fisher–Yates draws, the
natural-line draws, and the decorative-fill draws. -/
def generate (participants results : List String) (randFy : Nat → Nat)
    (randLines : Nat → Nat → Bool) (randFill : Nat → Nat → Bool) : LadderData :=
  let numColumns := participants.length
  let baseRows := max MIN_ROWS (min MAX_ROWS (numColumns * ROWS_PER_PARTICIPANT))
  let horizontalLines := generateRandomLines numColumns baseRows randLines
  let actualMapping := calculateMapping numColumns baseRows horizontalLines
  let targetMapping := generateRandomMapping numColumns randFy
  let adjustments := calculateAdjustmentTranspositions actualMapping targetMapping numColumns
  let ln := addAdjustmentLines horizontalLines adjustments baseRows numColumns
  let filledLines := fillWithDecorativePairs ln.1 (ln.2 + 1) numColumns randFill
  { participants := participants
    results := results
    verticalLines := numColumns
    rows := ln.2 + 1
    horizontalLines := sortLines filledLines
    mapping := targetMapping }

/-- `getResultForParticipant` from `js/ladder.js`.  The mapping object has
exactly the keys `0 … n - 1`; an absent key gives `undefined`, and
`results[undefined] || ''` is `''`.  The final `|| ''` also turns a
missing result entry into `''` (an empty-string entry is returned either
way). -/
def getResultForParticipant (d : LadderData) (participantIndex : Int) : String :=
  let resultIndex : Option Int :=
    if 0 ≤ participantIndex then d.mapping[participantIndex.toNat]? else none
  match resultIndex with
  | none => ""
  | some ri => if 0 ≤ ri then (d.results[ri.toNat]?).getD "" else ""

/-- `validateInputs` from `js/main.js`.  `new Set(participants).size` is
embedded as `participants.dedup.length`. -/
def validateInputs (participants results : List String) : Option String :=
  if participants.length < 2 then
    some "참여자를 최소 2명 이상 입력해주세요."
  else if results.length < 2 then
    some "결과 항목을 최소 2개 이상 입력해주세요."
  else if participants.length ≠ results.length then
    some ("참여자 수(" ++ toString participants.length ++ "명)와 결과 항목 수("
      ++ toString results.length ++ "개)가 일치해야 합니다.")
  else if participants.length > 100 then
    some "참여자는 최대 100명까지 지원됩니다."
  else if participants.dedup.length ≠ participants.length then
    some "중복된 참여자 이름이 있습니다."
  else
    none

/-- The validation-and-generation core of `handleStart` in `js/main.js`:
show the error and stop when `validateInputs` is non-null, otherwise call
`Ladder.generate`. -/
def handleStart (participants results : List String) (randFy : Nat → Nat)
    (randLines : Nat → Nat → Bool) (randFill : Nat → Nat → Bool) :
    Except String LadderData :=
  match validateInputs participants results with
  | some e => Except.error e
  | none => Except.ok (generate participants results randFy randLines randFill)

/-- Apply the adjacent-column transposition `col ↔ col + 1` to a mapping:
every participant currently ending in column `col` ends in `col + 1` and
vice versa.  This is what one emitted adjustment entry denotes when read
as an extra rung below the ladder. -/
def applySwapVal (c : Nat) (m : List Int) : List Int :=
  m.map (fun v => if v = (c : Int) then (c : Int) + 1 else if v = (c : Int) + 1 then (c : Int) else v)

/-- Apply a list of adjacent transpositions to a mapping in emission
order. -/
def applySwapsVal (ts : List Nat) (m : List Int) : List Int :=
  ts.foldl (fun m c => applySwapVal c m) m

/-- Apply a list of adjacent transpositions to a position-indexed
arrangement (the `working` array) by swapping entries, in order. -/
def applySwapsEntry (ts : List Nat) (w : List Int) : List Int :=
  ts.foldl (fun w c => swapEntries w c (c + 1)) w

/-- The transposition `c ↔ c + 1` acting on positions. -/
def swapIdx (c k : Nat) : Nat :=
  if k = c then c + 1 else if k = c + 1 then c else k

/-- Index of a value in the reference arrangement. -/
def refIdx (ref : List Int) (v : Int) : Nat :=
  ref.indexOf v

/-- The number of pairs of positions of `w` that are ordered differently
than in the reference arrangement `ref` (the Kendall-tau distance from
`ref`): adjacent swaps change it by exactly one, which makes it the exact
minimum number of adjacent transpositions needed. -/
def disorder (ref w : List Int) : Nat :=
  ((Finset.range w.length ×ˢ Finset.range w.length).filter
    (fun ij => ij.1 < ij.2 ∧ refIdx ref (w.getD ij.2 0) < refIdx ref (w.getD ij.1 0))).card

/-- The inversion relation between a mapping `m` (participant → position)
and an arrangement `w` (position → participant): `w[m[p]] = p`. -/
def InvRel (n : Nat) (m w : List Int) : Prop :=
  ∀ p : Nat, p < n → w.getD (m.getD p 0).toNat 0 = (p : Int)

/-- The adjacent transposition `t ↔ t + 1` acting on a single column
value. -/
def applyTrans (t : Nat) (c : Int) : Int :=
  if c = (t : Int) then (t : Int) + 1 else if c = (t : Int) + 1 then (t : Int) else c

/-- Apply a list of adjacent transpositions to one column value, in
order. -/
def applyTransList (ts : List Nat) (c : Int) : Int :=
  ts.foldl (fun c t => applyTrans t c) c

/-- Trace a column through the consecutive rows `startRow`,
`startRow + 1`, …, `startRow + count - 1` of a rung list. -/
def traceRows (lines : List HLine) (startRow count : Nat) (c : Int) : Int :=
  (List.range count).foldl
    (fun c i => stepRow (rowLines lines ((startRow + i : Nat) : Int)) c) c

/-- All columns touched by any rung of a list. -/
def allTouched (L : List HLine) : Finset Int :=
  L.foldl (fun s l => insert l.fromColumn (insert (l.fromColumn + 1) s)) ∅

/-- A row list moves the tracer at column `c` exactly when some rung
matches the tracer's break condition. -/
def hitsRow (L : List HLine) (c : Int) : Prop :=
  ∃ l ∈ L, l.fromColumn = c ∨ l.fromColumn = c - 1

/-- The set of columns touched by a rung: `fromColumn` and
`fromColumn + 1`. -/
def touches (l : HLine) : Finset Int :=
  {l.fromColumn, l.fromColumn + 1}

/-- Two rungs that share a row must touch disjoint column sets (the row
non-overlap invariant of the spec). -/
def TDisj (a b : HLine) : Prop :=
  a.row = b.row → Disjoint (touches a) (touches b)

/-- The row non-overlap invariant for a whole rung list: any two distinct
rungs of the same row touch disjoint column sets. -/
def RowsNonOverlap (ls : List HLine) : Prop :=
  ls.Pairwise TDisj

/-- The list `[0, 1, …, n-1]` as integers, the column universe. -/
def intRange (n : Nat) : List Int :=
  (List.range n).map (fun i : Nat => (i : Int))

/-- The canceling pairs placed by one fill block: for each chosen column a
rung at `(t, row)` and its partner at `(t, row + 1)`, in emission order. -/
def decorPairs (row : Nat) (cols : List Nat) : List HLine :=
  cols.flatMap (fun t : Nat => [⟨(t : Int), (row : Int)⟩, ⟨(t : Int), ((row + 1 : Nat) : Int)⟩])

/-- The rungs of one row of a fill block: one rung per chosen column. -/
def colRungs (r : Int) (cols : List Nat) : List HLine :=
  cols.map (fun t : Nat => (⟨(t : Int), r⟩ : HLine))

/-- Two fill columns far enough apart that their rungs touch disjoint
column pairs. -/
def decorApart (a b : Nat) : Prop :=
  b ≠ a ∧ b ≠ a + 1 ∧ b + 1 ≠ a

/-- Modelled from the spec: the characters `encodeURIComponent` leaves
unescaped (alphanumerics and `- _ . ! ~ ***( )` plus the apostrophe). -/
def isURIUnreserved (c : Char) : Bool :=
  (65 ≤ c.toNat && c.toNat ≤ 90) || (97 ≤ c.toNat && c.toNat ≤ 122) ||
  (48 ≤ c.toNat && c.toNat ≤ 57) ||
  c = '-' || c = '_' || c = '.' || c = '!' || c = '~' || c = '*' ||
  c = Char.ofNat 39 || c = '(' || c = ')'

/-- Modelled from the spec: the UTF-8 bytes of one scalar value. -/
def utf8Bytes (c : Char) : List Nat :=
  let n := c.toNat
  if n < 128 then [n]
  else if n < 2048 then [192 + n / 64, 128 + n % 64]
  else if n < 65536 then [224 + n / 4096, 128 + (n / 64) % 64, 128 + n % 64]
  else [240 + n / 262144, 128 + (n / 4096) % 64, 128 + (n / 64) % 64, 128 + n % 64]

/-- Modelled from the spec: upper-case hex digit, as used by percent
escapes. -/
def hexDigit (n : Nat) : Char :=
  if n < 10 then Char.ofNat (48 + n) else Char.ofNat (55 + n)

/-- Modelled from the spec: lower-case hex digit, as used by the JSON
`\u00XX` escapes. -/
def hexDigitLower (n : Nat) : Char :=
  if n < 10 then Char.ofNat (48 + n) else Char.ofNat (87 + n)

/-- Modelled from the spec: the `%XY` percent escape of one byte. -/
def pctByte (b : Nat) : List Char :=
  ['%', hexDigit (b / 16), hexDigit (b % 16)]

/-- Modelled from the spec: `encodeURIComponent` keeps unreserved
characters and percent-escapes the UTF-8 bytes of everything else. -/
def encodeURIComponent (s : String) : String :=
  String.mk (s.data.flatMap (fun c =>
    if isURIUnreserved c then [c] else (utf8Bytes c).flatMap pctByte))

/-- Modelled from the spec: `JSON.stringify` escaping of one string
character — quote and backslash are backslash-escaped, control characters
use the short escapes or `\u00XX`, everything else is kept literally. -/
def jsonEscapeChar (c : Char) : List Char :=
  if c = Char.ofNat 34 then [Char.ofNat 92, Char.ofNat 34]
  else if c = Char.ofNat 92 then [Char.ofNat 92, Char.ofNat 92]
  else if c = Char.ofNat 8 then [Char.ofNat 92, 'b']
  else if c = Char.ofNat 9 then [Char.ofNat 92, 't']
  else if c = Char.ofNat 10 then [Char.ofNat 92, 'n']
  else if c = Char.ofNat 12 then [Char.ofNat 92, 'f']
  else if c = Char.ofNat 13 then [Char.ofNat 92, 'r']
  else if c.toNat < 32 then
    [Char.ofNat 92, 'u', '0', '0', hexDigitLower (c.toNat / 16), hexDigitLower (c.toNat % 16)]
  else [c]

/-- Modelled from the spec: `JSON.stringify` of one string. -/
def jsonQuote (s : String) : String :=
  String.mk (Char.ofNat 34 :: (s.data.flatMap jsonEscapeChar ++ [Char.ofNat 34]))

/-- Modelled from the spec: `JSON.stringify` of an array of strings. -/
def jsonArray (xs : List String) : String :=
  "[" ++ String.intercalate "," (xs.map jsonQuote) ++ "]"

/-- `JSON.stringify(\x7b p: participants, r: results \x7d)` as built by
`generateShareableURL`: modelled from the spec for this two-field object
(insertion order `p`, `r`, no whitespace). -/
def jsonStringifyPR (p r : List String) : String :=
  "\x7b\"p\":" ++ jsonArray p ++ ",\"r\":" ++ jsonArray r ++ "\x7d"

/-- Modelled from the spec: the base64 alphabet. -/
def b64Alphabet : List Char :=
  "ABCDEFGHIJKLMNOPQRSTUVWXYZabcdefghijklmnopqrstuvwxyz0123456789+/".data

/-- Modelled from the spec: the base64 character of a sextet. -/
def b64Char (n : Nat) : Char := b64Alphabet.getD n 'A'

/-- Modelled from the spec: base64-encode a byte list with `=` padding. -/
def b64Encode : List Nat → List Char
  | [] => []
  | [a] => [b64Char (a / 4), b64Char (a % 4 * 16), '=', '=']
  | [a, b] => [b64Char (a / 4), b64Char (a % 4 * 16 + b / 16), b64Char (b % 16 * 4), '=']
  | a :: b :: c :: rest =>
    b64Char (a / 4) :: b64Char (a % 4 * 16 + b / 16) ::
      b64Char (b % 16 * 4 + c / 64) :: b64Char (c % 64) :: b64Encode rest

/-- Modelled from the spec: `btoa` fails on any character above `U+00FF`
and otherwise base64-encodes the code points as bytes. -/
def btoa (s : String) : Option String :=
  if s.data.all (fun c => c.toNat < 256) then
    some (String.mk (b64Encode (s.data.map Char.toNat)))
  else none

/-- `generateShareableURL` from `js/share.js`, with
`window.location.origin` and `window.location.pathname` as parameters.  A
`btoa` failure lands in the `catch` and returns `null`; a URL longer than
2000 characters returns `null`. -/
def generateShareableURL (origin pathname : String) (d : LadderData) : Option String :=
  match btoa (encodeURIComponent (jsonStringifyPR d.participants d.results)) with
  | none => none
  | some encoded =>
    let url := origin ++ pathname ++ "?data=" ++ encoded
    if url.length > 2000 then none else some url

/-- Modelled from the spec: ASCII whitespace, as stripped by
forgiving-base64. -/
def isAsciiWs (c : Char) : Bool :=
  c.toNat = 9 || c.toNat = 10 || c.toNat = 12 || c.toNat = 13 || c.toNat = 32

/-- Modelled from the spec: the sextet value of a base64 character, `none`
outside the alphabet. -/
def b64Value (c : Char) : Option Nat :=
  if c ∈ b64Alphabet then some (b64Alphabet.indexOf c) else none

/-- Modelled from the spec: turn base64 sextets into bytes, with the
forgiving-base64 leftover handling (12 leftover bits give one byte, 18
give two). -/
def b64DecodeVals : List Nat → List Nat
  | [] => []
  | [_] => []
  | [a, b] => [a * 4 + b / 16]
  | [a, b, c] => [a * 4 + b / 16, b % 16 * 16 + c / 4]
  | a :: b :: c :: d :: rest =>
    (a * 4 + b / 16) :: (b % 16 * 16 + c / 4) :: (c % 4 * 64 + d) :: b64DecodeVals rest

/-- Modelled from the spec: `atob` is forgiving-base64 — strip ASCII
whitespace, strip trailing `=` only when the length is a multiple of four,
fail on a remaining length of 1 mod 4 or any character outside the
alphabet, then decode to a binary string. -/
def atob (s : String) : Option String :=
  let ws := s.data.filter (fun c => !isAsciiWs c)
  let data :=
    if ws.length % 4 = 0 then
      match ws.reverse with
      | c1 :: c2 :: rest =>
        if c1 = '=' then (if c2 = '=' then rest.reverse else (c2 :: rest).reverse) else ws
      | [c1] => if c1 = '=' then [] else ws
      | [] => ws
    else ws
  if data.length % 4 = 1 then none
  else
    match data.mapM b64Value with
    | none => none
    | some vals => some (String.mk ((b64DecodeVals vals).map Char.ofNat))

/-- Modelled from the spec: the query string of a URL — everything after
the first `?` and before any `#` (for the URLs `generateShareableURL`
builds; a URL without `?` has no query). -/
def queryOf (url : String) : Option (List Char) :=
  match url.data.dropWhile (fun c => c ≠ '?') with
  | [] => none
  | _ :: rest => some (rest.takeWhile (fun c => c ≠ '#'))

/-- Modelled from the spec: the value of a hex digit, `none` otherwise. -/
def hexVal (c : Char) : Option Nat :=
  if 48 ≤ c.toNat ∧ c.toNat ≤ 57 then some (c.toNat - 48)
  else if 65 ≤ c.toNat ∧ c.toNat ≤ 70 then some (c.toNat - 55)
  else if 97 ≤ c.toNat ∧ c.toNat ≤ 102 then some (c.toNat - 87)
  else none

/-- Modelled from the spec: `application/x-www-form-urlencoded`
component decoding to bytes — `+` becomes a space, `%XY` becomes a byte,
a malformed `%` stays, other characters contribute their UTF-8 bytes. -/
def formDecodeBytes : List Char → List Nat
  | [] => []
  | '%' :: h1 :: h2 :: rest =>
    (match hexVal h1, hexVal h2 with
     | some v1, some v2 => (v1 * 16 + v2) :: formDecodeBytes rest
     | _, _ => 37 :: formDecodeBytes (h1 :: h2 :: rest))
  | '+' :: rest => 32 :: formDecodeBytes rest
  | c :: rest => utf8Bytes c ++ formDecodeBytes rest

/-- Modelled from the spec: UTF-8 decoding with `U+FFFD` replacement, as
`URLSearchParams` applies to decoded bytes.  The first argument is fuel;
one list element is consumed per step, so the list length suffices. -/
def utf8DecodeRep : Nat → List Nat → List Char
  | 0, _ => []
  | _ + 1, [] => []
  | fuel + 1, b :: rest =>
    if b < 128 then Char.ofNat b :: utf8DecodeRep fuel rest
    else if 194 ≤ b ∧ b ≤ 223 then
      match rest with
      | b2 :: rest2 =>
        if 128 ≤ b2 ∧ b2 ≤ 191 then
          Char.ofNat ((b - 192) * 64 + (b2 - 128)) :: utf8DecodeRep fuel rest2
        else Char.ofNat 65533 :: utf8DecodeRep fuel rest
      | [] => [Char.ofNat 65533]
    else if 224 ≤ b ∧ b ≤ 239 then
      match rest with
      | b2 :: b3 :: rest2 =>
        if (128 ≤ b2 ∧ b2 ≤ 191) ∧ (128 ≤ b3 ∧ b3 ≤ 191) ∧
            (b = 224 → 160 ≤ b2) ∧ (b = 237 → b2 ≤ 159) then
          Char.ofNat ((b - 224) * 4096 + (b2 - 128) * 64 + (b3 - 128))
            :: utf8DecodeRep fuel rest2
        else Char.ofNat 65533 :: utf8DecodeRep fuel rest
      | _ => [Char.ofNat 65533]
    else if 240 ≤ b ∧ b ≤ 244 then
      match rest with
      | b2 :: b3 :: b4 :: rest2 =>
        if (128 ≤ b2 ∧ b2 ≤ 191) ∧ (128 ≤ b3 ∧ b3 ≤ 191) ∧ (128 ≤ b4 ∧ b4 ≤ 191) ∧
            (b = 240 → 144 ≤ b2) ∧ (b = 244 → b2 ≤ 143) then
          Char.ofNat ((b - 240) * 262144 + (b2 - 128) * 4096 + (b3 - 128) * 64 + (b4 - 128))
            :: utf8DecodeRep fuel rest2
        else Char.ofNat 65533 :: utf8DecodeRep fuel rest
      | _ => [Char.ofNat 65533]
    else Char.ofNat 65533 :: utf8DecodeRep fuel rest

/-- Modelled from the spec: replacement UTF-8 decoding of a byte list. -/
def utf8DecodeR (bs : List Nat) : List Char := utf8DecodeRep bs.length bs

/-- Modelled from the spec: the name part of a form-urlencoded pair. -/
def pairName (p : List Char) : List Char := p.takeWhile (fun c => c ≠ '=')

/-- Modelled from the spec: the value part of a form-urlencoded pair (the
empty string when no `=` is present). -/
def pairValue (p : List Char) : List Char :=
  match p.dropWhile (fun c => c ≠ '=') with
  | [] => []
  | _ :: rest => rest

/-- Modelled from the spec: `URLSearchParams.get` — split the query on
`&`, split each pair at the first `=`, form-url-decode names and values,
and return the decoded value of the first pair with the given name. -/
def getParam (query : List Char) (name : List Char) : Option (List Char) :=
  match (query.splitOn '&').find?
      (fun p => utf8DecodeR (formDecodeBytes (pairName p)) == name) with
  | none => none
  | some p => some (utf8DecodeR (formDecodeBytes (pairValue p)))

/-- Modelled from the spec: collect a maximal run of `%XY` escapes into
bytes; `none` when a started escape has malformed hex digits. -/
def pctRun : List Char → Option (List Nat × List Char)
  | '%' :: h1 :: h2 :: rest =>
    (match hexVal h1, hexVal h2 with
     | some v1, some v2 =>
       match pctRun rest with
       | some (bs, rem) => some ((v1 * 16 + v2) :: bs, rem)
       | none => none
     | _, _ => none)
  | l => some ([], l)

/-- Modelled from the spec: strict UTF-8 decoding, failing on any
malformed sequence (the `URIError` of `decodeURIComponent`).  The first
argument is fuel; one list element is consumed per step. -/
def utf8DecodeStrict : Nat → List Nat → Option (List Char)
  | 0, [] => some []
  | 0, _ :: _ => none
  | _ + 1, [] => some []
  | fuel + 1, b :: rest =>
    if b < 128 then (utf8DecodeStrict fuel rest).map (fun cs => Char.ofNat b :: cs)
    else if 194 ≤ b ∧ b ≤ 223 then
      match rest with
      | b2 :: rest2 =>
        if 128 ≤ b2 ∧ b2 ≤ 191 then
          (utf8DecodeStrict fuel rest2).map
            (fun cs => Char.ofNat ((b - 192) * 64 + (b2 - 128)) :: cs)
        else none
      | [] => none
    else if 224 ≤ b ∧ b ≤ 239 then
      match rest with
      | b2 :: b3 :: rest2 =>
        if (128 ≤ b2 ∧ b2 ≤ 191) ∧ (128 ≤ b3 ∧ b3 ≤ 191) ∧
            (b = 224 → 160 ≤ b2) ∧ (b = 237 → b2 ≤ 159) then
          (utf8DecodeStrict fuel rest2).map
            (fun cs => Char.ofNat ((b - 224) * 4096 + (b2 - 128) * 64 + (b3 - 128)) :: cs)
        else none
      | _ => none
    else if 240 ≤ b ∧ b ≤ 244 then
      match rest with
      | b2 :: b3 :: b4 :: rest2 =>
        if (128 ≤ b2 ∧ b2 ≤ 191) ∧ (128 ≤ b3 ∧ b3 ≤ 191) ∧ (128 ≤ b4 ∧ b4 ≤ 191) ∧
            (b = 240 → 144 ≤ b2) ∧ (b = 244 → b2 ≤ 143) then
          (utf8DecodeStrict fuel rest2).map
            (fun cs => Char.ofNat
              ((b - 240) * 262144 + (b2 - 128) * 4096 + (b3 - 128) * 64 + (b4 - 128)) :: cs)
        else none
      | _ => none
    else none

/-- Modelled from the spec: the decoding loop of `decodeURIComponent` —
each maximal `%XY` run must strictly UTF-8 decode; other characters pass
through.  The first argument is fuel; each step consumes at least one
character. -/
def duriAux : Nat → List Char → Option (List Char)
  | 0, [] => some []
  | 0, _ :: _ => none
  | fuel + 1, [] => some []
  | fuel + 1, c :: rest =>
    if c = '%' then
      match pctRun (c :: rest) with
      | some (bs, rem) =>
        if bs = [] then none
        else
          match utf8DecodeStrict bs.length bs with
          | some cs => (duriAux fuel rem).map (fun tail => cs ++ tail)
          | none => none
      | none => none
    else (duriAux fuel rest).map (fun tail => c :: tail)

/-- Modelled from the spec: `decodeURIComponent`, `none` on `URIError`. -/
def decodeURIComponentM (s : String) : Option String :=
  (duriAux s.length s.data).map String.mk

/-- Modelled from the spec: the JSON two-character string escapes. -/
def jsonUnescape (e : Char) : Option Char :=
  if e = Char.ofNat 34 then some (Char.ofNat 34)
  else if e = Char.ofNat 92 then some (Char.ofNat 92)
  else if e = '/' then some '/'
  else if e = 'b' then some (Char.ofNat 8)
  else if e = 'f' then some (Char.ofNat 12)
  else if e = 'n' then some (Char.ofNat 10)
  else if e = 'r' then some (Char.ofNat 13)
  else if e = 't' then some (Char.ofNat 9)
  else none

/-- Modelled from the spec: the body of a JSON string after the opening
quote, returning the decoded characters and the remaining input.  The
first argument is fuel; each step consumes at least one character. -/
def parseStrBody : Nat → List Char → Option (List Char × List Char)
  | 0, _ => none
  | _ + 1, [] => none
  | fuel + 1, c :: rest =>
    if c = Char.ofNat 34 then some ([], rest)
    else if c = Char.ofNat 92 then
      match rest with
      | e :: rest2 =>
        if e = 'u' then
          match rest2 with
          | h1 :: h2 :: h3 :: h4 :: rest3 =>
            (match hexVal h1, hexVal h2, hexVal h3, hexVal h4 with
             | some v1, some v2, some v3, some v4 =>
               (parseStrBody fuel rest3).map (fun pr =>
                 (Char.ofNat (v1 * 4096 + v2 * 256 + v3 * 16 + v4) :: pr.1, pr.2))
             | _, _, _, _ => none)
          | _ => none
        else
          match jsonUnescape e with
          | some e' => (parseStrBody fuel rest2).map (fun pr => (e' :: pr.1, pr.2))
          | none => none
      | [] => none
    else if c.toNat < 32 then none
    else (parseStrBody fuel rest).map (fun pr => (c :: pr.1, pr.2))

/-- Modelled from the spec: one JSON string literal. -/
def parseJsonStr (fuel : Nat) (l : List Char) : Option (String × List Char) :=
  match l with
  | c :: rest =>
    if c = Char.ofNat 34 then (parseStrBody fuel rest).map (fun pr => (String.mk pr.1, pr.2))
    else none
  | [] => none

/-- Modelled from the spec: the `, "…"` continuation of a JSON string
array, up to the closing bracket. -/
def parseArrTail : Nat → List Char → Option (List String × List Char)
  | 0, _ => none
  | fuel + 1, l =>
    match l with
    | c :: rest =>
      if c = ']' then some ([], rest)
      else if c = ',' then
        match parseJsonStr fuel rest with
        | some (s, rem) => (parseArrTail fuel rem).map (fun pr => (s :: pr.1, pr.2))
        | none => none
      else none
    | [] => none

/-- Modelled from the spec: a JSON array of strings. -/
def parseArr (fuel : Nat) (l : List Char) : Option (List String × List Char) :=
  match l with
  | c :: rest =>
    if c = '[' then
      match rest with
      | c2 :: rest2 =>
        if c2 = ']' then some ([], rest2)
        else
          match parseJsonStr fuel rest with
          | some (s, rem) => (parseArrTail fuel rem).map (fun pr => (s :: pr.1, pr.2))
          | none => none
      | [] => none
    else none
  | [] => none

/-- Modelled from the spec: `JSON.parse` restricted to the object grammar
`\x7b"p":[…],"r":[…]\x7d` of string arrays that `generateShareableURL`
emits; anything else is a parse failure. -/
def jsonParsePR (s : String) : Option (List String × List String) :=
  match s.data with
  | c0 :: c1 :: c2 :: c3 :: c4 :: rest =>
    if c0 = Char.ofNat 123 ∧ c1 = Char.ofNat 34 ∧ c2 = 'p' ∧ c3 = Char.ofNat 34 ∧
        c4 = ':' then
      match parseArr s.length rest with
      | some (p, rem) =>
        (match rem with
         | d0 :: d1 :: d2 :: d3 :: d4 :: rest2 =>
           if d0 = ',' ∧ d1 = Char.ofNat 34 ∧ d2 = 'r' ∧ d3 = Char.ofNat 34 ∧
               d4 = ':' then
             match parseArr s.length rest2 with
             | some (r, rem2) =>
               if rem2 = [Char.ofNat 125] then some (p, r) else none
             | none => none
           else none
         | _ => none)
      | none => none
    else none
  | _ => none

/-- `parseShareableURL` from `js/share.js`: read the `data` query
parameter through the `URLSearchParams` form-url-decoding of `new URL`,
reject an absent or empty value, then `atob`, `decodeURIComponent` and
`JSON.parse` the payload; any thrown error lands in the `catch` and
returns `null`.  The result models the returned
`\x7b participants, results \x7d` object. -/
def parseShareableURL (url : String) : Option (List String × List String) :=
  match queryOf url with
  | none => none
  | some q =>
    match getParam q ['d', 'a', 't', 'a'] with
    | none => none
    | some encoded =>
      if encoded = [] then none
      else
        match atob (String.mk encoded) with
        | none => none
        | some bin =>
          match decodeURIComponentM bin with
          | none => none
          | some js => jsonParsePR js

/-- Ladder data whose participant list contains `~`, the input that drives
the shareable-URL round-trip into the `+`-versus-space mismatch. -/
def shareBugLadder : LadderData :=
  { participants := ["A~"]
    results := ["B"]
    verticalLines := 1
    rows := 7
    horizontalLines := []
    mapping := [0] }

/-- Concrete ladder data for the `getResultForParticipant` witness. -/
def sampleLadder : LadderData :=
  { participants := ["A", "B"]
    results := ["X", "Y"]
    verticalLines := 2
    rows := 7
    horizontalLines := []
    mapping := [1, 0] }

/- ---------------------------------------------------------------------
Theorems.
--------------------------------------------------------------------- -/

theorem dedup_length_eq_iff (l : List String) : l.dedup.length = l.length ↔ l.Nodup := by
  constructor
  · intro h
    have hs : l.dedup = l := l.dedup_sublist.eq_of_length h
    exact hs ▸ l.nodup_dedup
  · intro h
    rw [List.dedup_eq_self.mpr h]

theorem naturalRow_inv (rand : Nat → Nat → Bool) (row numColumns : Nat) :
    ∀ (cols : List Nat) (used : Finset Int) (acc : List HLine),
      (∀ l ∈ acc, l.row = (row : Int) ∧ touches l ⊆ used) →
      (∀ c ∈ cols, c < numColumns - 1) →
      acc.Pairwise (fun a b => Disjoint (touches a) (touches b)) →
      (∀ l ∈ acc, 0 ≤ l.fromColumn ∧ l.fromColumn < (numColumns : Int) - 1) →
      (∀ l ∈ (cols.foldl (naturalStep rand row) (used, acc)).2,
          l.row = (row : Int) ∧
          touches l ⊆ (cols.foldl (naturalStep rand row) (used, acc)).1) ∧
      (cols.foldl (naturalStep rand row) (used, acc)).2.Pairwise
          (fun a b => Disjoint (touches a) (touches b)) ∧
      (∀ l ∈ (cols.foldl (naturalStep rand row) (used, acc)).2,
          0 ≤ l.fromColumn ∧ l.fromColumn < (numColumns : Int) - 1) := by
  intro cols
  induction cols with
  | nil =>
    intro used acc h1 _ h3 h4
    exact ⟨h1, h3, h4⟩
  | cons col rest ih =>
    intro used acc h1 h2 h3 h4
    simp only [List.foldl_cons]
    by_cases hmem : (col : Int) ∈ used ∨ ((col : Int) + 1) ∈ used
    · rw [naturalStep, if_pos hmem]
      exact ih used acc h1 (fun c hc => h2 c (List.mem_cons_of_mem _ hc)) h3 h4
    · by_cases hr : rand row col
      · rw [naturalStep, if_neg hmem, if_pos hr]
        apply ih
        · intro l hl
          rcases List.mem_append.mp hl with h | h
          · obtain ⟨ha, hb⟩ := h1 l h
            refine ⟨ha, hb.trans ?_⟩
            intro x hx
            exact Finset.mem_insert_of_mem (Finset.mem_insert_of_mem hx)
          · simp only [List.mem_singleton] at h
            subst h
            refine ⟨rfl, ?_⟩
            intro x hx
            simp only [touches, Finset.mem_insert, Finset.mem_singleton] at hx
            rcases hx with h | h <;> subst h <;> simp
        · intro c hc
          exact h2 c (List.mem_cons_of_mem _ hc)
        · rw [List.pairwise_append]
          refine ⟨h3, List.pairwise_singleton _ _, ?_⟩
          intro a ha b hb
          simp only [List.mem_singleton] at hb
          subst hb
          have hsub := (h1 a ha).2
          rw [Finset.disjoint_right]
          intro x hx hxa
          have hxu := hsub hxa
          simp only [touches, Finset.mem_insert, Finset.mem_singleton] at hx
          rcases hx with h | h <;> subst h
          · exact hmem (Or.inl hxu)
          · exact hmem (Or.inr hxu)
        · intro l hl
          rcases List.mem_append.mp hl with h | h
          · exact h4 l h
          · simp only [List.mem_singleton] at h
            subst h
            have hcol : col < numColumns - 1 := h2 col (List.mem_cons_self _ _)
            exact ⟨Int.ofNat_nonneg col, by simp only; omega⟩
      · rw [naturalStep, if_neg hmem, if_neg hr]
        exact ih used acc h1 (fun c hc => h2 c (List.mem_cons_of_mem _ hc)) h3 h4

theorem mem_generateRandomLines (numColumns numRows : Nat) (rand : Nat → Nat → Bool)
    (l : HLine) (hl : l ∈ generateRandomLines numColumns numRows rand) :
    ∃ row : Nat, 1 ≤ row ∧ row + 1 ≤ numRows ∧ l ∈ naturalRow rand row numColumns := by
  rw [generateRandomLines, List.mem_flatMap] at hl
  obtain ⟨row, hrow, hmem⟩ := hl
  rw [List.mem_range'_1] at hrow
  exact ⟨row, hrow.1, by omega, hmem⟩

theorem naturalRow_spec (rand : Nat → Nat → Bool) (row numColumns : Nat) :
    (∀ l ∈ naturalRow rand row numColumns, l.row = (row : Int) ∧
      0 ≤ l.fromColumn ∧ l.fromColumn < (numColumns : Int) - 1) ∧
    (naturalRow rand row numColumns).Pairwise
      (fun a b => Disjoint (touches a) (touches b)) := by
  have h := naturalRow_inv rand row numColumns (List.range (numColumns - 1)) ∅ []
    (by simp) (fun c hc => List.mem_range.mp hc) (by simp) (by simp)
  exact ⟨fun l hl => ⟨(h.1 l hl).1, h.2.2 l hl⟩, h.2.1⟩

theorem set_getD_self {α : Type} (d : α) (l : List α) (i : Nat) (hi : i < l.length) :
    l.set i (l.getD i d) = l := by
  apply List.ext_getElem?
  intro n
  by_cases h : i = n
  · subst h
    rw [List.getElem?_set_self hi, List.getD_eq_getElem _ _ hi, List.getElem?_eq_getElem hi]
  · rw [List.getElem?_set_ne h]

theorem swap_length {α : Type} (l : List α) (i j : Nat) (a b : α) :
    ((l.set i a).set j b).length = l.length := by
  simp

theorem swap_getD_fst {α : Type} (d : α) (l : List α) (i j : Nat)
    (hi : i < l.length) (hj : j < l.length) :
    ((l.set i (l.getD j d)).set j (l.getD i d)).getD i d = l.getD j d := by
  by_cases h : i = j
  · subst h
    rw [List.getD_eq_getElem?_getD, List.getElem?_set_self (by simpa using hi)]
    rfl
  · rw [List.getD_eq_getElem?_getD, List.getElem?_set_ne (fun he => h he.symm),
      List.getElem?_set_self hi]
    rfl

theorem swap_getD_snd {α : Type} (d : α) (l : List α) (i j : Nat)
    (hj : j < l.length) :
    ((l.set i (l.getD j d)).set j (l.getD i d)).getD j d = l.getD i d := by
  rw [List.getD_eq_getElem?_getD, List.getElem?_set_self (by simpa using hj)]
  rfl

theorem swap_getD_other {α : Type} (d : α) (l : List α) (i j k : Nat)
    (hki : k ≠ i) (hkj : k ≠ j) :
    ((l.set i (l.getD j d)).set j (l.getD i d)).getD k d = l.getD k d := by
  rw [List.getD_eq_getElem?_getD, List.getElem?_set_ne (fun he => hkj he.symm),
    List.getElem?_set_ne (fun he => hki he.symm), ← List.getD_eq_getElem?_getD]

theorem cons_set_perm {α : Type} (d : α) :
    ∀ (t : List α) (j : Nat) (a : α), j < t.length →
      (t.getD j d :: t.set j a).Perm (a :: t) := by
  intro t
  induction t with
  | nil => intro j a h; simp at h
  | cons b s ih =>
    intro j a hj
    match j with
    | 0 => exact List.Perm.swap a b s
    | j' + 1 =>
      have h1 : ((b :: s).getD (j' + 1) d :: (b :: s).set (j' + 1) a) =
          (s.getD j' d :: b :: s.set j' a) := by simp [List.getD_cons_succ]
      rw [h1]
      exact (List.Perm.swap b (s.getD j' d) (s.set j' a)).trans
        (((ih j' a (by simpa using hj)).cons b).trans (List.Perm.swap a b s))

theorem swap_perm_le {α : Type} (d : α) :
    ∀ (i : Nat) (l : List α) (j : Nat), i ≤ j → i < l.length → j < l.length →
      ((l.set i (l.getD j d)).set j (l.getD i d)).Perm l := by
  intro i
  induction i with
  | zero =>
    intro l j _ hi hj
    match l, j with
    | a :: t, 0 => simp
    | a :: t, j' + 1 =>
      have h1 : ((a :: t).set 0 ((a :: t).getD (j' + 1) d)).set (j' + 1) ((a :: t).getD 0 d) =
          (t.getD j' d :: t.set j' a) := by simp [List.getD_cons_succ]
      rw [h1]
      exact cons_set_perm d t j' a (by simpa using hj)
  | succ i' ih =>
    intro l j hij hi hj
    match l, j with
    | a :: t, j'' + 1 =>
      have h1 : ((a :: t).set (i' + 1) ((a :: t).getD (j'' + 1) d)).set (j'' + 1)
            ((a :: t).getD (i' + 1) d) =
          a :: ((t.set i' (t.getD j'' d)).set j'' (t.getD i' d)) := by
        simp [List.getD_cons_succ]
      rw [h1]
      exact (ih t j'' (by omega) (by simpa using hi) (by simpa using hj)).cons a

theorem swap_perm {α : Type} (d : α) (l : List α) (i j : Nat)
    (hi : i < l.length) (hj : j < l.length) :
    ((l.set i (l.getD j d)).set j (l.getD i d)).Perm l := by
  rcases le_or_lt i j with h | h
  · exact swap_perm_le d i l j h hi hj
  · rw [List.set_comm _ _ _ (by omega)]
    exact swap_perm_le d j l i (by omega) hj hi

theorem swapList_perm (l : List Nat) (i j : Nat) (hi : i < l.length) (hj : j < l.length) :
    (swapList l i j).Perm l :=
  swap_perm 0 l i j hi hj

theorem swapList_length (l : List Nat) (i j : Nat) : (swapList l i j).length = l.length := by
  simp [swapList]

theorem nodup_getD_inj {α : Type} (d : α) (l : List α) (h : l.Nodup) {i j : Nat}
    (hi : i < l.length) (hj : j < l.length) (he : l.getD i d = l.getD j d) : i = j := by
  rw [List.getD_eq_getElem _ _ hi, List.getD_eq_getElem _ _ hj] at he
  exact h.getElem_inj_iff.mp he

theorem intRange_length (n : Nat) : (intRange n).length = n := by
  rw [intRange, List.length_map, List.length_range]

theorem intRange_nodup (n : Nat) : (intRange n).Nodup := by
  rw [intRange]
  exact (List.nodup_range n).map (fun a b hab => by exact_mod_cast hab)

theorem mem_intRange (x : Int) (n : Nat) : x ∈ intRange n ↔ ∃ v : Nat, v < n ∧ x = (v : Int) := by
  rw [intRange, List.mem_map]
  constructor
  · rintro ⟨v, hv, he⟩
    exact ⟨v, List.mem_range.mp hv, he.symm⟩
  · rintro ⟨v, hv, he⟩
    exact ⟨v, List.mem_range.mpr hv, he.symm⟩

theorem shuffleVec_length : ∀ (cs l : List Nat), (shuffleVec cs l).length = l.length := by
  intro cs
  induction cs with
  | nil => intro l; rfl
  | cons j rest ih =>
    intro l
    rw [shuffleVec, ih, swapList_length]

theorem vecOf_length (rand : Nat → Nat) : ∀ m, (vecOf rand m).length = m := by
  intro m
  induction m with
  | zero => rfl
  | succ i ih => rw [vecOf, List.length_cons, ih]

theorem shuffleSteps_eq_shuffleVec (rand : Nat → Nat) :
    ∀ (m : Nat) (l : List Nat), shuffleSteps rand m l = shuffleVec (vecOf rand m) l := by
  intro m
  induction m with
  | zero => intro l; rfl
  | succ i ih =>
    intro l
    rw [shuffleSteps, vecOf, shuffleVec, vecOf_length, ih]

theorem vecOf_congr (f g : Nat → Nat) :
    ∀ m, (∀ i, 1 ≤ i → i ≤ m → f i = g i) → vecOf f m = vecOf g m := by
  intro m
  induction m with
  | zero => intro _; rfl
  | succ i ih =>
    intro h
    rw [vecOf, vecOf, h (i + 1) (by omega) (by omega),
      ih (fun k h1 h2 => h k h1 (by omega))]

theorem vecOf_recover :
    ∀ (m : Nat) (cs : List Nat), cs.length = m →
      vecOf (fun i => cs.getD (m - i) 0) m = cs := by
  intro m
  induction m with
  | zero =>
    intro cs h
    rw [List.length_eq_zero] at h
    subst h
    rfl
  | succ m' ih =>
    intro cs h
    match cs with
    | a :: cs' =>
      have hlen : cs'.length = m' := by simpa using h
      rw [vecOf]
      simp only [Nat.sub_self, List.getD_cons_zero]
      have h2 : vecOf (fun i => (a :: cs').getD (m' + 1 - i) 0) m' =
          vecOf (fun i => cs'.getD (m' - i) 0) m' := by
        apply vecOf_congr
        intro i h1i him
        have : m' + 1 - i = (m' - i) + 1 := by omega
        rw [this, List.getD_cons_succ]
      rw [h2, ih cs' hlen]

theorem mem_choiceVecs_succ (m : Nat) (cs : List Nat) :
    cs ∈ choiceVecs (m + 1) ↔
      ∃ j rest, j < m + 2 ∧ rest ∈ choiceVecs m ∧ cs = j :: rest := by
  rw [choiceVecs, Finset.mem_image₂]
  constructor
  · rintro ⟨j, hj, rest, hrest, he⟩
    exact ⟨j, rest, Finset.mem_range.mp hj, hrest, he.symm⟩
  · rintro ⟨j, rest, hj, hrest, he⟩
    exact ⟨j, Finset.mem_range.mpr hj, rest, hrest, he.symm⟩

theorem choiceVecs_length : ∀ (m : Nat) (cs : List Nat), cs ∈ choiceVecs m → cs.length = m := by
  intro m
  induction m with
  | zero =>
    intro cs h
    rw [choiceVecs, Finset.mem_singleton] at h
    subst h
    rfl
  | succ m' ih =>
    intro cs h
    obtain ⟨j, rest, _, hrest, he⟩ := (mem_choiceVecs_succ m' cs).mp h
    subst he
    rw [List.length_cons, ih rest hrest]

theorem choiceVecs_card : ∀ m : Nat, (choiceVecs m).card = Nat.factorial (m + 1) := by
  intro m
  induction m with
  | zero => rfl
  | succ m' ih =>
    have hinj : Function.Injective2 (List.cons (α := Nat)) := by
      intro a a' b b' h
      injection h with h1 h2
      exact ⟨h1, h2⟩
    rw [choiceVecs, Finset.card_image₂ hinj, Finset.card_range, ih]
    rw [Nat.factorial_succ (m' + 1)]

theorem shuffleVec_getD_high :
    ∀ (cs l : List Nat) (k : Nat), cs.length < k →
      (shuffleVec cs l).getD k 0 = l.getD k 0 := by
  intro cs
  induction cs with
  | nil => intro l k _; rfl
  | cons j rest ih =>
    intro l k hk
    rw [List.length_cons] at hk
    rw [shuffleVec, ih _ _ (by omega)]
    exact swap_getD_other 0 l _ _ k (by omega)
      (by have := Nat.mod_lt j (y := rest.length + 2) (by omega); omega)

theorem shuffleVec_perm :
    ∀ (cs l : List Nat), cs.length < l.length → (shuffleVec cs l).Perm l := by
  intro cs
  induction cs with
  | nil => intro l _; exact List.Perm.refl l
  | cons j rest ih =>
    intro l hk
    rw [List.length_cons] at hk
    have hswap : (swapList l (rest.length + 1) (j % (rest.length + 2))).Perm l :=
      swapList_perm l _ _ (by omega)
        (by have := Nat.mod_lt j (y := rest.length + 2) (by omega); omega)
    rw [shuffleVec]
    exact (ih _ (by rw [swapList_length]; omega)).trans hswap

theorem shuffleVec_bijective :
    ∀ (m : Nat) (l q : List Nat), l.Nodup → q.Perm l →
      (∀ k, m < k → q.getD k 0 = l.getD k 0) → m < l.length →
      ∃! cs, cs ∈ choiceVecs m ∧ shuffleVec cs l = q := by
  intro m
  induction m with
  | zero =>
    intro l q hnd hperm hagree hlen
    have hql : q = l := by
      rcases l with _ | ⟨a, t⟩
      · simp at hlen
      rcases q with _ | ⟨b, s⟩
      · have := hperm.length_eq
        simp at this
      have hlens : s.length = t.length := by
        have := hperm.length_eq
        simpa using this
      have hst : s = t := by
        apply List.ext_getElem hlens
        intro i h1 h2
        have := hagree (i + 1) (by omega)
        rw [List.getD_cons_succ, List.getD_cons_succ,
          List.getD_eq_getElem _ _ h1, List.getD_eq_getElem _ _ h2] at this
        exact this
      subst hst
      have hba : b = a := by
        have hc := hperm.count_eq a
        simp only [List.count_cons] at hc
        by_cases hba : b = a
        · exact hba
        · exfalso
          simp [hba] at hc
      subst hba
      rfl
    refine ⟨[], ⟨by rw [choiceVecs]; exact Finset.mem_singleton_self [], by
      rw [shuffleVec, hql]⟩, ?_⟩
    rintro cs ⟨hcs, _⟩
    rw [choiceVecs, Finset.mem_singleton] at hcs
    exact hcs
  | succ m ih =>
    intro l q hnd hperm hagree hlen
    have hqlen : q.length = l.length := hperm.length_eq
    have hxq : q.getD (m + 1) 0 ∈ q := by
      rw [List.getD_eq_getElem _ _ (by omega)]
      exact List.getElem_mem _
    have hxl : q.getD (m + 1) 0 ∈ l := hperm.mem_iff.mp hxq
    obtain ⟨j, hjlen, hjval⟩ := List.getElem_of_mem hxl
    have hjval' : l.getD j 0 = q.getD (m + 1) 0 := by
      rw [List.getD_eq_getElem _ _ hjlen]
      exact hjval
    have hjle : j ≤ m + 1 := by
      by_contra hgt
      push_neg at hgt
      have h1 : q.getD j 0 = l.getD j 0 := hagree j (by omega)
      have hqnd : q.Nodup := hperm.nodup_iff.mpr hnd
      have : j = m + 1 :=
        nodup_getD_inj 0 q hqnd (by omega) (by omega) (by rw [h1, hjval'])
      omega
    set l' := swapList l (m + 1) j with hl'
    have hl'len : l'.length = l.length := swapList_length l _ _
    have hl'perm : l'.Perm l := swapList_perm l _ _ (by omega) hjlen
    have hl'nd : l'.Nodup := hl'perm.nodup_iff.mpr hnd
    have hqperm' : q.Perm l' := hperm.trans hl'perm.symm
    have hagree' : ∀ k, m < k → q.getD k 0 = l'.getD k 0 := by
      intro k hk
      rcases Nat.lt_or_ge k (m + 2) with hk2 | hk2
      · have hkeq : k = m + 1 := by omega
        subst hkeq
        rw [hl', swapList, swap_getD_fst 0 l _ _ (by omega) hjlen, hjval']
      · rw [hl', swapList, swap_getD_other 0 l _ _ k (by omega) (by omega)]
        exact hagree k (by omega)
    obtain ⟨rest, ⟨hrmem, hrval⟩, hruniq⟩ :=
      ih l' q hl'nd hqperm' hagree' (by omega)
    have hrlen : rest.length = m := choiceVecs_length m rest hrmem
    refine ⟨j :: rest, ⟨?_, ?_⟩, ?_⟩
    · exact (mem_choiceVecs_succ m _).mpr ⟨j, rest, by omega, hrmem, rfl⟩
    · rw [shuffleVec, hrlen, Nat.mod_eq_of_lt (by omega)]
      exact hrval
    · rintro cs' ⟨hcs'mem, hcs'val⟩
      obtain ⟨j', rest', hj', hrest', he⟩ := (mem_choiceVecs_succ m cs').mp hcs'mem
      subst he
      have hrlen' : rest'.length = m := choiceVecs_length m rest' hrest'
      rw [shuffleVec, hrlen', Nat.mod_eq_of_lt (by omega)] at hcs'val
      have hj'val : l.getD j' 0 = q.getD (m + 1) 0 := by
        have h1 : (shuffleVec rest' (swapList l (m + 1) j')).getD (m + 1) 0 =
            (swapList l (m + 1) j').getD (m + 1) 0 :=
          shuffleVec_getD_high rest' _ (m + 1) (by omega)
        rw [hcs'val] at h1
        rw [h1, swapList, swap_getD_fst 0 l _ _ (by omega) (by omega)]
      have hj'j : j' = j :=
        nodup_getD_inj 0 l hnd (by omega) hjlen (by rw [hj'val, hjval'])
      subst hj'j
      rw [hruniq rest' ⟨hrest', hcs'val⟩]

theorem buildMapping_foldl_length (s : List Nat) :
    ∀ (L : List Nat) (m : List Int),
      (L.foldl (fun m i => m.set (s.getD i 0) (i : Int)) m).length = m.length := by
  intro L
  induction L with
  | nil => intro m; rfl
  | cons a L' ih =>
    intro m
    rw [List.foldl_cons, ih, List.length_set]

theorem buildMapping_length (s : List Nat) (n : Nat) : (buildMapping s n).length = n := by
  rw [buildMapping, buildMapping_foldl_length, List.length_replicate]

theorem buildMapping_foldl_untouched (s : List Nat) :
    ∀ (L : List Nat) (m : List Int) (p : Nat),
      (∀ k ∈ L, s.getD k 0 ≠ p) →
      (L.foldl (fun m i => m.set (s.getD i 0) (i : Int)) m).getD p 0 = m.getD p 0 := by
  intro L
  induction L with
  | nil => intro m p _; rfl
  | cons a L' ih =>
    intro m p h
    rw [List.foldl_cons, ih _ _ (fun k hk => h k (List.mem_cons_of_mem a hk))]
    rw [List.getD_eq_getElem?_getD, List.getElem?_set_ne (h a (List.mem_cons_self a L')),
      ← List.getD_eq_getElem?_getD]

theorem buildMapping_foldl_key (s : List Nat) :
    ∀ (L : List Nat) (m : List Int) (i : Nat),
      L.Pairwise (fun k1 k2 => s.getD k1 0 ≠ s.getD k2 0) →
      i ∈ L → s.getD i 0 < m.length →
      (L.foldl (fun m i => m.set (s.getD i 0) (i : Int)) m).getD (s.getD i 0) 0 = (i : Int) := by
  intro L
  induction L with
  | nil => intro m i _ hi; simp at hi
  | cons a L' ih =>
    intro m i hpw hi hlt
    rw [List.pairwise_cons] at hpw
    rw [List.foldl_cons]
    rcases List.mem_cons.mp hi with he | hmem
    · subst he
      rw [buildMapping_foldl_untouched s L' _ _ (fun k hk => (hpw.1 k hk).symm)]
      rw [List.getD_eq_getElem?_getD, List.getElem?_set_self hlt]
      rfl
    · exact ih _ i hpw.2 hmem (by rw [List.length_set]; exact hlt)

theorem buildMapping_getD_key (s : List Nat) (n : Nat) (hlen : s.length = n)
    (hnd : s.Nodup) (i : Nat) (hi : i < n) (hkey : s.getD i 0 < n) :
    (buildMapping s n).getD (s.getD i 0) 0 = (i : Int) := by
  rw [buildMapping]
  apply buildMapping_foldl_key
  · rw [List.pairwise_iff_getElem]
    intro a b ha hb hab
    rw [List.length_range] at ha hb
    rw [List.getElem_range, List.getElem_range]
    intro he
    exact absurd (nodup_getD_inj 0 s hnd (by omega) (by omega) he) (by omega)
  · exact List.mem_range.mpr hi
  · rw [List.length_replicate]; exact hkey

theorem perm_range_getD_lt (s : List Nat) (n : Nat) (hperm : s.Perm (List.range n))
    (i : Nat) (hi : i < n) : s.getD i 0 < n := by
  have hlen : s.length = n := by rw [hperm.length_eq, List.length_range]
  have : s.getD i 0 ∈ s := by
    rw [List.getD_eq_getElem _ _ (by omega)]
    exact List.getElem_mem _
  exact List.mem_range.mp (hperm.mem_iff.mp this)

theorem perm_intRange_exists_val (p : List Int) (n : Nat) (hperm : p.Perm (intRange n))
    (pos : Nat) (hpos : pos < p.length) : ∃ v : Nat, v < n ∧ p.getD pos 0 = (v : Int) := by
  have : p.getD pos 0 ∈ p := by
    rw [List.getD_eq_getElem _ _ hpos]
    exact List.getElem_mem _
  exact (mem_intRange _ n).mp (hperm.mem_iff.mp this)

theorem buildMapping_perm (s : List Nat) (n : Nat) (hperm : s.Perm (List.range n)) :
    (buildMapping s n).Perm (intRange n) := by
  have hlen : s.length = n := by rw [hperm.length_eq, List.length_range]
  have hnd : s.Nodup := hperm.nodup_iff.mpr (List.nodup_range n)
  have hblen : (buildMapping s n).length = n := buildMapping_length s n
  have hval : ∀ pos : Nat, pos < n → ∃ i : Nat, i < n ∧ s.getD i 0 = pos ∧
      (buildMapping s n).getD pos 0 = (i : Int) := by
    intro pos hpos
    have hpmem : pos ∈ s := hperm.mem_iff.mpr (List.mem_range.mpr hpos)
    obtain ⟨i, hilen, hival⟩ := List.getElem_of_mem hpmem
    have hgetD : s.getD i 0 = pos := by rw [List.getD_eq_getElem _ _ hilen]; exact hival
    refine ⟨i, by omega, hgetD, ?_⟩
    rw [← hgetD]
    exact buildMapping_getD_key s n hlen hnd i (by omega) (by rw [hgetD]; exact hpos)
  have hnd2 : (buildMapping s n).Nodup := by
    rw [List.nodup_iff_injective_getElem]
    intro a b he
    obtain ⟨ia, hia, hsa, hva⟩ := hval a.1 (by have := a.2; omega)
    obtain ⟨ib, hib, hsb, hvb⟩ := hval b.1 (by have := b.2; omega)
    have ha2 : a.1 < (buildMapping s n).length := a.2
    have hb2 : b.1 < (buildMapping s n).length := b.2
    have hva' : (buildMapping s n)[a.1] = (ia : Int) := by
      rw [← List.getD_eq_getElem (buildMapping s n) 0 ha2]
      exact hva
    have hvb' : (buildMapping s n)[b.1] = (ib : Int) := by
      rw [← List.getD_eq_getElem (buildMapping s n) 0 hb2]
      exact hvb
    have hab : (ia : Int) = (ib : Int) := by rw [← hva', ← hvb']; exact he
    have hiab : ia = ib := by exact_mod_cast hab
    subst hiab
    have : a.1 = b.1 := by rw [← hsa, ← hsb]
    exact Fin.ext this
  have hsub : buildMapping s n ⊆ intRange n := by
    intro x hx
    obtain ⟨pos, hpos, hxval⟩ := List.mem_iff_getElem.mp hx
    obtain ⟨i, hi, _, hv⟩ := hval pos (by omega)
    have hv' : x = (i : Int) := by
      rw [← hxval, ← List.getD_eq_getElem (buildMapping s n) 0 hpos]
      exact hv
    exact (mem_intRange x n).mpr ⟨i, hi, hv'⟩
  have hlen2 : (intRange n).length = n := intRange_length n
  exact (List.subperm_of_subset hnd2 hsub).perm_of_length_le (by omega)

theorem buildMapping_inj (q1 q2 : List Nat) (n : Nat)
    (h1 : q1.Perm (List.range n)) (h2 : q2.Perm (List.range n))
    (he : buildMapping q1 n = buildMapping q2 n) : q1 = q2 := by
  have hlen1 : q1.length = n := by rw [h1.length_eq, List.length_range]
  have hlen2 : q2.length = n := by rw [h2.length_eq, List.length_range]
  have hnd1 : q1.Nodup := h1.nodup_iff.mpr (List.nodup_range n)
  have hmnd : (buildMapping q1 n).Nodup :=
    (buildMapping_perm q1 n h1).nodup_iff.mpr (intRange_nodup n)
  apply List.ext_getElem (by omega)
  intro i hi1 hi2
  have hkey1 := buildMapping_getD_key q1 n hlen1 hnd1 i (by omega)
    (perm_range_getD_lt q1 n h1 i (by omega))
  have hkey2 := buildMapping_getD_key q2 n hlen2 (h2.nodup_iff.mpr (List.nodup_range n))
    i (by omega) (perm_range_getD_lt q2 n h2 i (by omega))
  rw [← he] at hkey2
  have hb1 : q1.getD i 0 < (buildMapping q1 n).length := by
    rw [buildMapping_length]
    exact perm_range_getD_lt q1 n h1 i (by omega)
  have hb2 : q2.getD i 0 < (buildMapping q1 n).length := by
    rw [buildMapping_length]
    exact perm_range_getD_lt q2 n h2 i (by omega)
  have hgd : q1.getD i 0 = q2.getD i 0 :=
    nodup_getD_inj 0 (buildMapping q1 n) hmnd hb1 hb2 (by rw [hkey1, hkey2])
  calc q1[i] = q1.getD i 0 := (List.getD_eq_getElem q1 0 hi1).symm
    _ = q2.getD i 0 := hgd
    _ = q2[i] := List.getD_eq_getElem q2 0 hi2

theorem buildMapping_surj (p : List Int) (n : Nat) (hperm : p.Perm (intRange n)) :
    ∃ s : List Nat, s.Perm (List.range n) ∧ buildMapping s n = p := by
  have hplen : p.length = n := by rw [hperm.length_eq, intRange_length]
  have hpnd : p.Nodup := hperm.nodup_iff.mpr (intRange_nodup n)
  set s : List Nat := (List.range n).map (fun i : Nat => p.indexOf ((i : Int))) with hs
  have hslen : s.length = n := by rw [hs, List.length_map, List.length_range]
  have hsget : ∀ i : Nat, i < n → s.getD i 0 = p.indexOf ((i : Int)) := by
    intro i hi
    rw [List.getD_eq_getElem _ _ (by omega)]
    simp [hs]
  have hidxlt : ∀ i : Nat, i < n → p.indexOf ((i : Int)) < n := by
    intro i hi
    have hmem : (i : Int) ∈ p := hperm.mem_iff.mpr ((mem_intRange _ n).mpr ⟨i, hi, rfl⟩)
    have := List.indexOf_lt_length.mpr hmem
    omega
  have hsval : ∀ i : Nat, i < n → p.getD (p.indexOf ((i : Int))) 0 = (i : Int) := by
    intro i hi
    have hmem : (i : Int) ∈ p := hperm.mem_iff.mpr ((mem_intRange _ n).mpr ⟨i, hi, rfl⟩)
    have hlt := List.indexOf_lt_length.mpr hmem
    rw [List.getD_eq_getElem _ _ hlt]
    exact List.getElem_indexOf hlt
  have hsnd : s.Nodup := by
    rw [List.nodup_iff_injective_getElem]
    intro a b he
    have he' : s[a.1] = s[b.1] := he
    have ha : a.1 < n := by have := a.2; omega
    have hb : b.1 < n := by have := b.2; omega
    have hga : s[a.1] = p.indexOf ((a.1 : Int)) := by
      rw [← List.getD_eq_getElem s 0 a.2]
      exact hsget a.1 ha
    have hgb : s[b.1] = p.indexOf ((b.1 : Int)) := by
      rw [← List.getD_eq_getElem s 0 b.2]
      exact hsget b.1 hb
    have hidx : p.indexOf ((a.1 : Int)) = p.indexOf ((b.1 : Int)) := by
      rw [← hga, ← hgb, he']
    have hva := hsval a.1 ha
    have hvb := hsval b.1 hb
    rw [hidx] at hva
    have : (a.1 : Int) = (b.1 : Int) := hva.symm.trans hvb
    have h12 : a.1 = b.1 := by exact_mod_cast this
    exact Fin.ext h12
  have hsperm : s.Perm (List.range n) := by
    have hsub : s ⊆ List.range n := by
      intro x hx
      obtain ⟨i, hilen, hival⟩ := List.mem_iff_getElem.mp hx
      have hi : i < n := by omega
      have : s[i] = p.indexOf ((i : Int)) := by
        rw [← List.getD_eq_getElem s 0 hilen]
        exact hsget i hi
      rw [List.mem_range, ← hival, this]
      exact hidxlt i hi
    exact (List.subperm_of_subset hsnd hsub).perm_of_length_le (by rw [List.length_range]; omega)
  refine ⟨s, hsperm, ?_⟩
  apply List.ext_getElem (by rw [buildMapping_length, hplen])
  intro pos hpos1 hpos2
  have hposn : pos < n := by rw [buildMapping_length] at hpos1; exact hpos1
  obtain ⟨v, hv, hvval⟩ := perm_intRange_exists_val p n hperm pos (by omega)
  have hkey : s.getD v 0 = pos := by
    rw [hsget v hv, ← hvval, List.getD_eq_getElem _ _ (by omega)]
    exact List.indexOf_getElem hpnd pos (by omega)
  have hbuild := buildMapping_getD_key s n hslen hsnd v hv (by rw [hkey]; exact hposn)
  rw [hkey] at hbuild
  calc (buildMapping s n)[pos] = (buildMapping s n).getD pos 0 :=
        (List.getD_eq_getElem _ 0 hpos1).symm
    _ = (v : Int) := hbuild
    _ = p.getD pos 0 := hvval.symm
    _ = p[pos] := List.getD_eq_getElem p 0 hpos2

/-- C2: for every `N ≥ 2`, `generateRandomMapping` always returns a
permutation of `{0 … N-1}`, and the map from Fisher–Yates choice vectors
to permutations is a bijection: every permutation is produced by exactly
one of the `N!` equally likely choice vectors, so each permutation has
probability `1/N!` under uniform draws. -/
theorem generateRandomMapping_uniform (n : Nat) (hn : 2 ≤ n) :
    (∀ rand : Nat → Nat, (generateRandomMapping n rand).Perm (intRange n)) ∧
    (∀ p : List Int, p.Perm (intRange n) →
      ∃! cs, cs ∈ choiceVecs (n - 1) ∧ generateRandomMapping n (choiceFun n cs) = p) ∧
    (choiceVecs (n - 1)).card = Nat.factorial n := by
  have key : ∀ cs', cs' ∈ choiceVecs (n - 1) →
      generateRandomMapping n (choiceFun n cs') =
        buildMapping (shuffleVec cs' (List.range n)) n := by
    intro cs' hmem
    rw [generateRandomMapping, shuffleSteps_eq_shuffleVec]
    have hlen' : cs'.length = n - 1 := choiceVecs_length _ _ hmem
    have hrec : vecOf (choiceFun n cs') (n - 1) = cs' :=
      vecOf_recover (n - 1) cs' hlen'
    rw [hrec]
  refine ⟨?_, ?_, ?_⟩
  · intro rand
    apply buildMapping_perm
    rw [shuffleSteps_eq_shuffleVec]
    apply shuffleVec_perm
    rw [vecOf_length, List.length_range]
    omega
  · intro p hp
    obtain ⟨s, hsperm, hsval⟩ := buildMapping_surj p n hp
    have hslen : s.length = n := by rw [hsperm.length_eq, List.length_range]
    have hagree : ∀ k, n - 1 < k → s.getD k 0 = (List.range n).getD k 0 := by
      intro k hk
      rw [List.getD_eq_default _ _ (by omega),
        List.getD_eq_default _ _ (by rw [List.length_range]; omega)]
    obtain ⟨cs, ⟨hcsmem, hcsval⟩, hcsuniq⟩ :=
      shuffleVec_bijective (n - 1) (List.range n) s (List.nodup_range n) hsperm hagree
        (by rw [List.length_range]; omega)
    refine ⟨cs, ⟨hcsmem, ?_⟩, ?_⟩
    · rw [key cs hcsmem, hcsval, hsval]
    · rintro cs' ⟨hmem', hval'⟩
      apply hcsuniq
      refine ⟨hmem', ?_⟩
      have hperm' : (shuffleVec cs' (List.range n)).Perm (List.range n) :=
        shuffleVec_perm _ _ (by rw [choiceVecs_length _ _ hmem', List.length_range]; omega)
      have he2 : buildMapping (shuffleVec cs' (List.range n)) n = buildMapping s n :=
        (key cs' hmem').symm.trans (hval'.trans hsval.symm)
      exact buildMapping_inj _ s n hperm' hsperm he2
  · rw [choiceVecs_card]
    congr 1
    omega

/-- Witness for C2 at `n = 2`: the mapping produced from the identity
random source is a permutation of the two columns. -/
theorem generateRandomMapping_uniform_witness :
    (generateRandomMapping 2 (fun i => i)).Perm (intRange 2) :=
  (generateRandomMapping_uniform 2 (by decide)).1 (fun i => i)

theorem getD_map_toNat (m : List Int) (i : Nat) :
    (m.map Int.toNat).getD i 0 = (m.getD i 0).toNat := by
  by_cases h : i < m.length
  · rw [List.getD_eq_getElem _ _ (by rw [List.length_map]; exact h),
      List.getD_eq_getElem _ _ h, List.getElem_map]
  · rw [List.getD_eq_default _ _ (by rw [List.length_map]; omega),
      List.getD_eq_default _ _ (by omega)]
    rfl

theorem perm_intRange_nonneg (m : List Int) (n : Nat) (h : m.Perm (intRange n))
    (i : Nat) (hi : i < n) : 0 ≤ m.getD i 0 ∧ m.getD i 0 < (n : Int) := by
  have hlen : m.length = n := by rw [h.length_eq, intRange_length]
  obtain ⟨v, hv, he⟩ := perm_intRange_exists_val m n h i (by omega)
  rw [he]
  exact ⟨Int.ofNat_nonneg v, by exact_mod_cast hv⟩

theorem buildPosPerm_eq_buildMapping (m : List Int) (n : Nat)
    (hpos : ∀ i : Nat, i < n → 0 ≤ m.getD i 0) :
    buildPosPerm m n = buildMapping (m.map Int.toNat) n := by
  rw [buildPosPerm, buildMapping]
  apply List.foldl_ext
  intro a i hi
  rw [List.mem_range] at hi
  rw [setAtI, if_pos (hpos i hi), getD_map_toNat]

theorem map_toNat_perm_range (m : List Int) (n : Nat) (h : m.Perm (intRange n)) :
    (m.map Int.toNat).Perm (List.range n) := by
  have h1 : (m.map Int.toNat).Perm ((intRange n).map Int.toNat) := h.map Int.toNat
  have h2 : (intRange n).map Int.toNat = List.range n := by
    rw [intRange, List.map_map]
    have hid : (Int.toNat ∘ fun i : Nat => (i : Int)) = id := by
      funext i
      simp
    rw [hid, List.map_id]
  rw [h2] at h1
  exact h1

theorem buildPosPerm_perm (m : List Int) (n : Nat) (h : m.Perm (intRange n)) :
    (buildPosPerm m n).Perm (intRange n) := by
  rw [buildPosPerm_eq_buildMapping m n (fun i hi => (perm_intRange_nonneg m n h i hi).1)]
  exact buildMapping_perm _ n (map_toNat_perm_range m n h)

theorem buildPosPerm_invRel (m : List Int) (n : Nat) (h : m.Perm (intRange n)) :
    InvRel n m (buildPosPerm m n) := by
  intro p hp
  rw [buildPosPerm_eq_buildMapping m n (fun i hi => (perm_intRange_nonneg m n h i hi).1)]
  have hs := map_toNat_perm_range m n h
  have hslen : (m.map Int.toNat).length = n := by rw [hs.length_eq, List.length_range]
  have hsnd : (m.map Int.toNat).Nodup := hs.nodup_iff.mpr (List.nodup_range n)
  have hb := perm_intRange_nonneg m n h p hp
  have hkey := buildMapping_getD_key (m.map Int.toNat) n hslen hsnd p hp
    (by rw [getD_map_toNat]; omega)
  rw [getD_map_toNat] at hkey
  exact hkey

theorem invRel_unique_m (n : Nat) (m1 m2 w : List Int)
    (h1 : m1.Perm (intRange n)) (h2 : m2.Perm (intRange n)) (hw : w.Perm (intRange n))
    (r1 : InvRel n m1 w) (r2 : InvRel n m2 w) : m1 = m2 := by
  have hlen1 : m1.length = n := by rw [h1.length_eq, intRange_length]
  have hlen2 : m2.length = n := by rw [h2.length_eq, intRange_length]
  have hwlen : w.length = n := by rw [hw.length_eq, intRange_length]
  have hwnd : w.Nodup := hw.nodup_iff.mpr (intRange_nodup n)
  apply List.ext_getElem (by omega)
  intro p hp1 hp2
  have hb1 := perm_intRange_nonneg m1 n h1 p (by omega)
  have hb2 := perm_intRange_nonneg m2 n h2 p (by omega)
  have heq : (m1.getD p 0).toNat = (m2.getD p 0).toNat :=
    nodup_getD_inj 0 w hwnd (by omega) (by omega)
      ((r1 p (by omega)).trans (r2 p (by omega)).symm)
  have heq2 : m1.getD p 0 = m2.getD p 0 := by omega
  calc m1[p] = m1.getD p 0 := (List.getD_eq_getElem m1 0 hp1).symm
    _ = m2.getD p 0 := heq2
    _ = m2[p] := List.getD_eq_getElem m2 0 hp2

theorem invRel_unique_w (n : Nat) (m w1 w2 : List Int)
    (hm : m.Perm (intRange n)) (hl1 : w1.length = n) (hl2 : w2.length = n)
    (r1 : InvRel n m w1) (r2 : InvRel n m w2) : w1 = w2 := by
  apply List.ext_getElem (by omega)
  intro q hq1 hq2
  have hmem : (q : Int) ∈ m := hm.mem_iff.mpr ((mem_intRange _ n).mpr ⟨q, by omega, rfl⟩)
  obtain ⟨p, hplen, hpval⟩ := List.getElem_of_mem hmem
  have hmlen : m.length = n := by rw [hm.length_eq, intRange_length]
  have hgd : m.getD p 0 = (q : Int) := by
    rw [List.getD_eq_getElem m 0 hplen]
    exact hpval
  have e1 := r1 p (by omega)
  have e2 := r2 p (by omega)
  rw [hgd] at e1 e2
  have ht : ((q : Int)).toNat = q := by omega
  rw [ht] at e1 e2
  calc w1[q] = w1.getD q 0 := (List.getD_eq_getElem w1 0 hq1).symm
    _ = (p : Int) := e1
    _ = w2.getD q 0 := e2.symm
    _ = w2[q] := List.getD_eq_getElem w2 0 hq2

theorem applySwapVal_length (c : Nat) (m : List Int) :
    (applySwapVal c m).length = m.length := by
  rw [applySwapVal, List.length_map]

theorem applySwapsVal_cons (c : Nat) (ts : List Nat) (m : List Int) :
    applySwapsVal (c :: ts) m = applySwapsVal ts (applySwapVal c m) := rfl

theorem applySwapsEntry_cons (c : Nat) (ts : List Nat) (w : List Int) :
    applySwapsEntry (c :: ts) w = applySwapsEntry ts (swapEntries w c (c + 1)) := rfl

theorem applySwapsEntry_append (t1 t2 : List Nat) (w : List Int) :
    applySwapsEntry (t1 ++ t2) w = applySwapsEntry t2 (applySwapsEntry t1 w) := by
  rw [applySwapsEntry, applySwapsEntry, applySwapsEntry, List.foldl_append]

theorem applySwapVal_getD (c : Nat) (m : List Int) (p : Nat) (hp : p < m.length) :
    (applySwapVal c m).getD p 0 =
      (if m.getD p 0 = (c : Int) then (c : Int) + 1
       else if m.getD p 0 = (c : Int) + 1 then (c : Int) else m.getD p 0) := by
  rw [List.getD_eq_getElem _ _ (by rw [applySwapVal_length]; exact hp)]
  simp only [applySwapVal, List.getElem_map]
  rw [← List.getD_eq_getElem m 0 hp]

theorem applySwapVal_perm (c n : Nat) (m : List Int) (hc : c + 1 < n)
    (h : m.Perm (intRange n)) : (applySwapVal c m).Perm (intRange n) := by
  have h1 : (applySwapVal c m).Perm ((intRange n).map
      (fun v => if v = (c : Int) then (c : Int) + 1
        else if v = (c : Int) + 1 then (c : Int) else v)) := h.map _
  have hinj : Function.Injective
      (fun v : Int => if v = (c : Int) then (c : Int) + 1
        else if v = (c : Int) + 1 then (c : Int) else v) := by
    intro a b
    by_cases h1a : a = (c : Int) <;> by_cases h2a : a = (c : Int) + 1 <;>
      by_cases h1b : b = (c : Int) <;> by_cases h2b : b = (c : Int) + 1 <;>
      simp [h1a, h2a, h1b, h2b] <;> omega
  have h2 : ((intRange n).map
      (fun v => if v = (c : Int) then (c : Int) + 1
        else if v = (c : Int) + 1 then (c : Int) else v)).Perm (intRange n) := by
    have hnd : ((intRange n).map _).Nodup := (intRange_nodup n).map hinj
    have hsub : ((intRange n).map
        (fun v => if v = (c : Int) then (c : Int) + 1
          else if v = (c : Int) + 1 then (c : Int) else v)) ⊆ intRange n := by
      intro x hx
      rw [List.mem_map] at hx
      obtain ⟨v, hv, he⟩ := hx
      obtain ⟨u, hu, hue⟩ := (mem_intRange v n).mp hv
      subst hue
      rw [← he]
      by_cases e1 : (u : Int) = (c : Int)
      · rw [if_pos e1]
        exact (mem_intRange _ n).mpr ⟨c + 1, hc, by push_cast; ring⟩
      · by_cases e2 : (u : Int) = (c : Int) + 1
        · rw [if_neg e1, if_pos e2]
          exact (mem_intRange _ n).mpr ⟨c, by omega, rfl⟩
        · rw [if_neg e1, if_neg e2]
          exact (mem_intRange _ n).mpr ⟨u, hu, rfl⟩
    exact (List.subperm_of_subset hnd hsub).perm_of_length_le
      (by rw [intRange_length, List.length_map, intRange_length])
  exact h1.trans h2

theorem invRel_swap (n c : Nat) (m w : List Int) (hc : c + 1 < n)
    (hm : m.Perm (intRange n)) (hw : w.Perm (intRange n)) (hr : InvRel n m w) :
    InvRel n (applySwapVal c m) (swapEntries w c (c + 1)) := by
  intro p hp
  have hwlen : w.length = n := by rw [hw.length_eq, intRange_length]
  have hmlen : m.length = n := by rw [hm.length_eq, intRange_length]
  have hb := perm_intRange_nonneg m n hm p hp
  have hv := applySwapVal_getD c m p (by omega)
  have hrp := hr p hp
  by_cases h1 : m.getD p 0 = (c : Int)
  · rw [hv, if_pos h1]
    have ht : ((c : Int) + 1).toNat = c + 1 := by omega
    rw [ht, swapEntries, swap_getD_snd 0 w c (c + 1) (by omega)]
    rw [h1] at hrp
    have ht2 : ((c : Int)).toNat = c := by omega
    rw [ht2] at hrp
    exact hrp
  · by_cases h2 : m.getD p 0 = (c : Int) + 1
    · rw [hv, if_neg h1, if_pos h2]
      have ht : ((c : Int)).toNat = c := by omega
      rw [ht, swapEntries, swap_getD_fst 0 w c (c + 1) (by omega) (by omega)]
      rw [h2] at hrp
      have ht2 : ((c : Int) + 1).toNat = c + 1 := by omega
      rw [ht2] at hrp
      exact hrp
    · rw [hv, if_neg h1, if_neg h2]
      have hne1 : (m.getD p 0).toNat ≠ c := by omega
      have hne2 : (m.getD p 0).toNat ≠ c + 1 := by omega
      rw [swapEntries, swap_getD_other 0 w c (c + 1) _ hne1 hne2]
      exact hrp

theorem swapEntries_perm_intRange (n c : Nat) (w : List Int) (hc : c + 1 < n)
    (hw : w.Perm (intRange n)) : (swapEntries w c (c + 1)).Perm (intRange n) := by
  have hwlen : w.length = n := by rw [hw.length_eq, intRange_length]
  exact (swap_perm 0 w c (c + 1) (by omega) (by omega)).trans hw

theorem invRel_swaps (n : Nat) :
    ∀ (ts : List Nat) (m w : List Int), (∀ c ∈ ts, c + 1 < n) →
      m.Perm (intRange n) → w.Perm (intRange n) → InvRel n m w →
      (applySwapsVal ts m).Perm (intRange n) ∧
      (applySwapsEntry ts w).Perm (intRange n) ∧
      InvRel n (applySwapsVal ts m) (applySwapsEntry ts w) := by
  intro ts
  induction ts with
  | nil => intro m w _ hm hw hr; exact ⟨hm, hw, hr⟩
  | cons c rest ih =>
    intro m w hb hm hw hr
    rw [applySwapsVal_cons, applySwapsEntry_cons]
    have hc : c + 1 < n := hb c (List.mem_cons_self c rest)
    exact ih (applySwapVal c m) (swapEntries w c (c + 1))
      (fun x hx => hb x (List.mem_cons_of_mem c hx))
      (applySwapVal_perm c n m hc hm)
      (swapEntries_perm_intRange n c w hc hw)
      (invRel_swap n c m w hc hm hw hr)

theorem swapIdx_invol (c k : Nat) : swapIdx c (swapIdx c k) = k := by
  simp only [swapIdx]
  split_ifs <;> omega

theorem swapIdx_lt (c k len : Nat) (hc : c + 1 < len) (hk : k < len) : swapIdx c k < len := by
  simp only [swapIdx]
  split_ifs <;> omega

theorem swapIdx_mono (c i j : Nat) (hij : i < j) (hne : ¬(i = c ∧ j = c + 1)) :
    swapIdx c i < swapIdx c j := by
  simp only [swapIdx]
  split_ifs <;> omega

theorem swapEntries_getD_swapIdx (w : List Int) (c : Nat) (hc : c + 1 < w.length) (k : Nat) :
    (swapEntries w c (c + 1)).getD k 0 = w.getD (swapIdx c k) 0 := by
  by_cases h1 : k = c
  · subst h1
    rw [swapEntries, swap_getD_fst 0 w k (k + 1) (by omega) hc]
    simp [swapIdx]
  · by_cases h2 : k = c + 1
    · subst h2
      rw [swapEntries, swap_getD_snd 0 w c (c + 1) hc]
      simp [swapIdx]
    · rw [swapEntries, swap_getD_other 0 w c (c + 1) k h1 h2]
      simp [swapIdx, h1, h2]

theorem swapEntries_length (w : List Int) (i j : Nat) :
    (swapEntries w i j).length = w.length := by
  simp [swapEntries]

theorem mem_disorder_set (ref w : List Int) (ij : Nat × Nat) :
    (ij ∈ (Finset.range w.length ×ˢ Finset.range w.length).filter
      (fun ij => ij.1 < ij.2 ∧ refIdx ref (w.getD ij.2 0) < refIdx ref (w.getD ij.1 0))) ↔
    (ij.1 < w.length ∧ ij.2 < w.length ∧ ij.1 < ij.2 ∧
      refIdx ref (w.getD ij.2 0) < refIdx ref (w.getD ij.1 0)) := by
  rw [Finset.mem_filter, Finset.mem_product, Finset.mem_range, Finset.mem_range]
  tauto

theorem disorder_swap (ref w : List Int) (c : Nat) (hc : c + 1 < w.length)
    (hne : refIdx ref (w.getD c 0) ≠ refIdx ref (w.getD (c + 1) 0)) :
    if refIdx ref (w.getD (c + 1) 0) < refIdx ref (w.getD c 0)
      then disorder ref (swapEntries w c (c + 1)) + 1 = disorder ref w
      else disorder ref w + 1 = disorder ref (swapEntries w c (c + 1)) := by
  have hlen : (swapEntries w c (c + 1)).length = w.length := swapEntries_length w c (c + 1)
  have hget : ∀ k, (swapEntries w c (c + 1)).getD k 0 = w.getD (swapIdx c k) 0 :=
    swapEntries_getD_swapIdx w c hc
  have hgc : (swapEntries w c (c + 1)).getD c 0 = w.getD (c + 1) 0 := by
    rw [hget c]
    simp [swapIdx]
  have hgc1 : (swapEntries w c (c + 1)).getD (c + 1) 0 = w.getD c 0 := by
    rw [hget (c + 1)]
    simp [swapIdx]
  have hmemS : ∀ ij : Nat × Nat,
      (ij ∈ (Finset.range w.length ×ˢ Finset.range w.length).filter
        (fun ij => ij.1 < ij.2 ∧ refIdx ref (w.getD ij.2 0) < refIdx ref (w.getD ij.1 0))) ↔
      (ij.1 < w.length ∧ ij.2 < w.length ∧ ij.1 < ij.2 ∧
        refIdx ref (w.getD ij.2 0) < refIdx ref (w.getD ij.1 0)) := mem_disorder_set ref w
  have hmemS' : ∀ ij : Nat × Nat,
      (ij ∈ (Finset.range (swapEntries w c (c + 1)).length ×ˢ
          Finset.range (swapEntries w c (c + 1)).length).filter
        (fun ij => ij.1 < ij.2 ∧
          refIdx ref ((swapEntries w c (c + 1)).getD ij.2 0) <
            refIdx ref ((swapEntries w c (c + 1)).getD ij.1 0))) ↔
      (ij.1 < w.length ∧ ij.2 < w.length ∧ ij.1 < ij.2 ∧
        refIdx ref (w.getD (swapIdx c ij.2) 0) < refIdx ref (w.getD (swapIdx c ij.1) 0)) := by
    intro ij
    rw [mem_disorder_set, hlen, hget, hget]
  have hcard :
      (((Finset.range w.length ×ˢ Finset.range w.length).filter
        (fun ij => ij.1 < ij.2 ∧
          refIdx ref (w.getD ij.2 0) < refIdx ref (w.getD ij.1 0))).erase (c, c + 1)).card =
      (((Finset.range (swapEntries w c (c + 1)).length ×ˢ
          Finset.range (swapEntries w c (c + 1)).length).filter
        (fun ij => ij.1 < ij.2 ∧
          refIdx ref ((swapEntries w c (c + 1)).getD ij.2 0) <
            refIdx ref ((swapEntries w c (c + 1)).getD ij.1 0))).erase (c, c + 1)).card := by
    apply Finset.card_nbij' (fun ij => (swapIdx c ij.1, swapIdx c ij.2))
      (fun ij => (swapIdx c ij.1, swapIdx c ij.2))
    · intro a ha
      rw [Finset.mem_erase] at ha
      obtain ⟨hane, haS⟩ := ha
      rw [hmemS a] at haS
      obtain ⟨hb1, hb2, hb3, hb4⟩ := haS
      rw [Finset.mem_erase]
      constructor
      · intro he
        rw [Prod.ext_iff] at he
        simp only at he
        have h1 : a.1 = c + 1 := by
          have := congrArg (swapIdx c) he.1
          rw [swapIdx_invol] at this
          simp [swapIdx] at this
          omega
        have h2 : a.2 = c := by
          have := congrArg (swapIdx c) he.2
          rw [swapIdx_invol] at this
          simp [swapIdx] at this
          omega
        omega
      · rw [hmemS' _]
        refine ⟨swapIdx_lt c a.1 w.length hc hb1, swapIdx_lt c a.2 w.length hc hb2, ?_, ?_⟩
        · apply swapIdx_mono c a.1 a.2 hb3
          intro hcc
          exact hane (Prod.ext hcc.1 hcc.2)
        · rw [swapIdx_invol, swapIdx_invol]
          exact hb4
    · intro a ha
      rw [Finset.mem_erase] at ha
      obtain ⟨hane, haS⟩ := ha
      rw [hmemS' a] at haS
      obtain ⟨hb1, hb2, hb3, hb4⟩ := haS
      rw [Finset.mem_erase]
      constructor
      · intro he
        rw [Prod.ext_iff] at he
        simp only at he
        have h1 : a.1 = c + 1 := by
          have := congrArg (swapIdx c) he.1
          rw [swapIdx_invol] at this
          simp [swapIdx] at this
          omega
        have h2 : a.2 = c := by
          have := congrArg (swapIdx c) he.2
          rw [swapIdx_invol] at this
          simp [swapIdx] at this
          omega
        omega
      · rw [hmemS _]
        refine ⟨swapIdx_lt c a.1 w.length hc hb1, swapIdx_lt c a.2 w.length hc hb2, ?_, hb4⟩
        apply swapIdx_mono c a.1 a.2 hb3
        intro hcc
        exact hane (Prod.ext hcc.1 hcc.2)
    · intro a _
      rw [Prod.ext_iff]
      exact ⟨swapIdx_invol c a.1, swapIdx_invol c a.2⟩
    · intro a _
      rw [Prod.ext_iff]
      exact ⟨swapIdx_invol c a.1, swapIdx_invol c a.2⟩
  have hp0S : ((c, c + 1) ∈ (Finset.range w.length ×ˢ Finset.range w.length).filter
      (fun ij => ij.1 < ij.2 ∧ refIdx ref (w.getD ij.2 0) < refIdx ref (w.getD ij.1 0))) ↔
      refIdx ref (w.getD (c + 1) 0) < refIdx ref (w.getD c 0) := by
    rw [hmemS _]
    constructor
    · intro h
      exact h.2.2.2
    · intro h
      exact ⟨by omega, hc, by omega, h⟩
  have hp0S' : ((c, c + 1) ∈ (Finset.range (swapEntries w c (c + 1)).length ×ˢ
      Finset.range (swapEntries w c (c + 1)).length).filter
        (fun ij => ij.1 < ij.2 ∧
          refIdx ref ((swapEntries w c (c + 1)).getD ij.2 0) <
            refIdx ref ((swapEntries w c (c + 1)).getD ij.1 0))) ↔
      refIdx ref (w.getD c 0) < refIdx ref (w.getD (c + 1) 0) := by
    have hsf : swapIdx c c = c + 1 := by
      rw [swapIdx, if_pos rfl]
    have hss : swapIdx c (c + 1) = c := by
      rw [swapIdx, if_neg (by omega), if_pos rfl]
    rw [hmemS' _, hss, hsf]
    constructor
    · intro h
      exact h.2.2.2
    · intro h
      exact ⟨by omega, hc, by omega, h⟩
  by_cases hinv : refIdx ref (w.getD (c + 1) 0) < refIdx ref (w.getD c 0)
  · rw [if_pos hinv]
    have h1 := hp0S.mpr hinv
    have h2 : ¬((c, c + 1) ∈ (Finset.range (swapEntries w c (c + 1)).length ×ˢ
        Finset.range (swapEntries w c (c + 1)).length).filter
          (fun ij => ij.1 < ij.2 ∧
            refIdx ref ((swapEntries w c (c + 1)).getD ij.2 0) <
              refIdx ref ((swapEntries w c (c + 1)).getD ij.1 0))) := by
      rw [hp0S']
      omega
    have e1 := Finset.card_erase_add_one h1
    have e2 := Finset.erase_eq_of_not_mem h2
    rw [disorder, disorder]
    rw [← e1, hcard, e2]
  · rw [if_neg hinv]
    have hinv' : refIdx ref (w.getD c 0) < refIdx ref (w.getD (c + 1) 0) := by omega
    have h1 : ¬((c, c + 1) ∈ (Finset.range w.length ×ˢ Finset.range w.length).filter
        (fun ij => ij.1 < ij.2 ∧ refIdx ref (w.getD ij.2 0) < refIdx ref (w.getD ij.1 0))) := by
      rw [hp0S]
      omega
    have h2 := hp0S'.mpr hinv'
    have e1 := Finset.card_erase_add_one h2
    have e2 := Finset.erase_eq_of_not_mem h1
    rw [disorder, disorder]
    rw [← e1, ← hcard, e2]

theorem disorder_self (ref : List Int) (hnd : ref.Nodup) : disorder ref ref = 0 := by
  rw [disorder, Finset.card_eq_zero, Finset.filter_eq_empty_iff]
  intro ij hij
  rw [Finset.mem_product, Finset.mem_range, Finset.mem_range] at hij
  rintro ⟨h1, h2⟩
  have ha : refIdx ref (ref.getD ij.1 0) = ij.1 := by
    rw [refIdx, List.getD_eq_getElem _ _ hij.1]
    exact List.indexOf_getElem hnd ij.1 hij.1
  have hb : refIdx ref (ref.getD ij.2 0) = ij.2 := by
    rw [refIdx, List.getD_eq_getElem _ _ hij.2]
    exact List.indexOf_getElem hnd ij.2 hij.2
  rw [ha, hb] at h2
  omega

theorem refIdx_inj_mem (ref : List Int) (x y : Int) (hx : x ∈ ref) (hy : y ∈ ref)
    (he : refIdx ref x = refIdx ref y) : x = y := by
  have hx' := List.indexOf_lt_length.mpr hx
  have hy' := List.indexOf_lt_length.mpr hy
  have ex : ref[ref.indexOf x] = x := List.getElem_indexOf hx'
  have ey : ref[ref.indexOf y] = y := List.getElem_indexOf hy'
  rw [refIdx, refIdx] at he
  rw [← ex, ← ey]
  congr 1

theorem swapIdx_self (c : Nat) : swapIdx c c = c + 1 := by
  rw [swapIdx, if_pos rfl]

theorem swapIdx_succ (c : Nat) : swapIdx c (c + 1) = c := by
  rw [swapIdx, if_neg (by omega), if_pos rfl]

theorem applySwapsEntry_perm_intRange (n : Nat) :
    ∀ (ts : List Nat) (w : List Int), (∀ c ∈ ts, c + 1 < n) → w.Perm (intRange n) →
      (applySwapsEntry ts w).Perm (intRange n) := by
  intro ts
  induction ts with
  | nil => intro w _ hw; exact hw
  | cons c rest ih =>
    intro w hb hw
    rw [applySwapsEntry_cons]
    exact ih _ (fun x hx => hb x (List.mem_cons_of_mem c hx))
      (swapEntries_perm_intRange n c w (hb c (List.mem_cons_self c rest)) hw)

theorem bubbleFrom_spec (tp : List Int) (n : Nat) :
    ∀ (cur : Nat) (w : List Int) (pos : Nat), pos ≤ cur → cur < w.length → w.length = n →
      w.Perm (intRange n) →
      refIdx tp (w.getD cur 0) = pos →
      (∀ i, pos ≤ i → i < cur → pos < refIdx tp (w.getD i 0)) →
      (bubbleFrom pos cur w).2 = applySwapsEntry (bubbleFrom pos cur w).1 w ∧
      (∀ c ∈ (bubbleFrom pos cur w).1, pos ≤ c ∧ c + 1 ≤ cur) ∧
      (∀ k, k < pos → (bubbleFrom pos cur w).2.getD k 0 = w.getD k 0) ∧
      (bubbleFrom pos cur w).2.getD pos 0 = w.getD cur 0 ∧
      disorder tp (bubbleFrom pos cur w).2 + (bubbleFrom pos cur w).1.length = disorder tp w := by
  intro cur
  induction cur with
  | zero =>
    intro w pos hpc _ _ _ _ _
    have hp0 : pos = 0 := by omega
    subst hp0
    exact ⟨rfl, fun c hc => absurd hc (by simp [bubbleFrom]), fun k hk => by omega, rfl, rfl⟩
  | succ k ih =>
    intro w pos hpc hcl hwn hwp hrx hmid
    by_cases hpk : pos ≤ k
    · have hred : bubbleFrom pos (k + 1) w =
          ((k :: (bubbleFrom pos k (swapEntries w k (k + 1))).1),
            (bubbleFrom pos k (swapEntries w k (k + 1))).2) := by
        rw [bubbleFrom, if_pos hpk]
      set w' := swapEntries w k (k + 1) with hw'
      have hw'len : w'.length = w.length := swapEntries_length w k (k + 1)
      have hkc : k + 1 < n := by omega
      have hw'perm : w'.Perm (intRange n) := swapEntries_perm_intRange n k w hkc hwp
      have hget := swapEntries_getD_swapIdx w k (by omega)
      have hg1 : w'.getD k 0 = w.getD (k + 1) 0 := by
        rw [hw', hget k, swapIdx_self]
      have hg2 : w'.getD (k + 1) 0 = w.getD k 0 := by
        rw [hw', hget (k + 1), swapIdx_succ]
      have hgother : ∀ i, i ≠ k → i ≠ k + 1 → w'.getD i 0 = w.getD i 0 := by
        intro i h1 h2
        rw [hw', hget i, swapIdx, if_neg h1, if_neg h2]
      have hrx' : refIdx tp (w'.getD k 0) = pos := by
        rw [hg1]
        exact hrx
      have hmid' : ∀ i, pos ≤ i → i < k → pos < refIdx tp (w'.getD i 0) := by
        intro i ha hb
        rw [hgother i (by omega) (by omega)]
        exact hmid i ha (by omega)
      obtain ⟨s1, s2, s3, s4, s5⟩ := ih w' pos hpk (by omega) (by rw [hw'len]; exact hwn)
        hw'perm hrx' hmid'
      have hy : pos < refIdx tp (w.getD k 0) := hmid k hpk (by omega)
      have hds := disorder_swap tp w k (by omega) (by rw [hrx]; omega)
      rw [if_pos (by rw [hrx]; exact hy)] at hds
      rw [hred]
      refine ⟨?_, ?_, ?_, ?_, ?_⟩
      · simp only
        rw [applySwapsEntry_cons, ← hw']
        exact s1
      · intro c hc
        simp only [List.mem_cons] at hc
        rcases hc with he | hm
        · subst he
          exact ⟨hpk, Nat.le_refl (c + 1)⟩
        · exact ⟨(s2 c hm).1, by have := (s2 c hm).2; omega⟩
      · intro j hj
        simp only
        rw [s3 j hj, hgother j (by omega) (by omega)]
      · simp only
        rw [s4, hg1]
      · simp only [List.length_cons]
        rw [← hw'] at hds
        omega
    · have hpe : pos = k + 1 := by omega
      have hred : bubbleFrom pos (k + 1) w = ([], w) := by
        rw [bubbleFrom, if_neg hpk]
      rw [hred]
      subst hpe
      exact ⟨rfl, fun c hc => absurd hc (by simp), fun j hj => rfl, rfl, rfl⟩

theorem adjustLoop_spec (n : Nat) (tp cp : List Int) (htp : tp.Perm (intRange n)) :
    ∀ (m k : Nat) (st : List Nat × List Int), k + m = n →
      st.2.Perm (intRange n) →
      (∀ i, i < k → st.2.getD i 0 = tp.getD i 0) →
      st.2 = applySwapsEntry st.1 cp →
      (∀ c ∈ st.1, c + 1 < n) →
      disorder tp st.2 + st.1.length = disorder tp cp →
      ((List.range' k m).foldl
        (fun (st : List Nat × List Int) pos =>
          match st.2.findIdx? (fun y => y == tp.getD pos 0) with
          | none => st
          | some currentPos =>
            let r := bubbleFrom pos currentPos st.2
            (st.1 ++ r.1, r.2)) st).2 = tp ∧
      ((List.range' k m).foldl
        (fun (st : List Nat × List Int) pos =>
          match st.2.findIdx? (fun y => y == tp.getD pos 0) with
          | none => st
          | some currentPos =>
            let r := bubbleFrom pos currentPos st.2
            (st.1 ++ r.1, r.2)) st).2 =
        applySwapsEntry ((List.range' k m).foldl
        (fun (st : List Nat × List Int) pos =>
          match st.2.findIdx? (fun y => y == tp.getD pos 0) with
          | none => st
          | some currentPos =>
            let r := bubbleFrom pos currentPos st.2
            (st.1 ++ r.1, r.2)) st).1 cp ∧
      (∀ c ∈ ((List.range' k m).foldl
        (fun (st : List Nat × List Int) pos =>
          match st.2.findIdx? (fun y => y == tp.getD pos 0) with
          | none => st
          | some currentPos =>
            let r := bubbleFrom pos currentPos st.2
            (st.1 ++ r.1, r.2)) st).1, c + 1 < n) ∧
      ((List.range' k m).foldl
        (fun (st : List Nat × List Int) pos =>
          match st.2.findIdx? (fun y => y == tp.getD pos 0) with
          | none => st
          | some currentPos =>
            let r := bubbleFrom pos currentPos st.2
            (st.1 ++ r.1, r.2)) st).1.length = disorder tp cp := by
  have htplen : tp.length = n := by rw [htp.length_eq, intRange_length]
  have htpnd : tp.Nodup := htp.nodup_iff.mpr (intRange_nodup n)
  intro m
  induction m with
  | zero =>
    intro k st hkm hperm hpre happ hbd hdis
    have hk : k = n := by omega
    have hstlen : st.2.length = n := by rw [hperm.length_eq, intRange_length]
    have hfin : st.2 = tp := by
      apply List.ext_getElem (by omega)
      intro i h1 h2
      calc st.2[i] = st.2.getD i 0 := (List.getD_eq_getElem st.2 0 h1).symm
        _ = tp.getD i 0 := hpre i (by omega)
        _ = tp[i] := List.getD_eq_getElem tp 0 h2
    refine ⟨hfin, happ, hbd, ?_⟩
    rw [hfin, disorder_self tp htpnd] at hdis
    show st.1.length = disorder tp cp
    omega
  | succ m ih =>
    intro k st hkm hperm hpre happ hbd hdis
    rw [List.range'_succ, List.foldl_cons]
    have hk : k < n := by omega
    have hstlen : st.2.length = n := by rw [hperm.length_eq, intRange_length]
    have hstnd : st.2.Nodup := hperm.nodup_iff.mpr (intRange_nodup n)
    have hxtp : tp.getD k 0 ∈ tp := by
      rw [List.getD_eq_getElem tp 0 (by omega)]
      exact List.getElem_mem _
    have hxst : tp.getD k 0 ∈ st.2 := hperm.mem_iff.mpr (htp.mem_iff.mp hxtp)
    obtain ⟨cur, hcur⟩ : ∃ cur, st.2.findIdx? (fun y => y == tp.getD k 0) = some cur := by
      cases hfi : st.2.findIdx? (fun y => y == tp.getD k 0) with
      | none =>
        rw [List.findIdx?_eq_none_iff] at hfi
        have := hfi _ hxst
        simp at this
      | some cur => exact ⟨cur, rfl⟩
    obtain ⟨hcurlt, hcurval, hfirst⟩ := List.findIdx?_eq_some_iff_getElem.mp hcur
    have hst2curval : st.2.getD cur 0 = tp.getD k 0 := by
      rw [List.getD_eq_getElem st.2 0 hcurlt]
      exact eq_of_beq hcurval
    have hrefx : refIdx tp (tp.getD k 0) = k := by
      rw [refIdx, List.getD_eq_getElem tp 0 (by omega)]
      exact List.indexOf_getElem htpnd k (by omega)
    have hcurge : k ≤ cur := by
      by_contra hlt
      push_neg at hlt
      have h1 : st.2.getD cur 0 = tp.getD cur 0 := hpre cur hlt
      have h2 : tp.getD cur 0 = tp.getD k 0 := by rw [← h1, hst2curval]
      have := nodup_getD_inj 0 tp htpnd (by omega) (by omega) h2
      omega
    have hmid : ∀ i, k ≤ i → i < cur → k < refIdx tp (st.2.getD i 0) := by
      intro i h1 h2
      have hilen : i < st.2.length := by omega
      have hvst : st.2.getD i 0 ∈ st.2 := by
        rw [List.getD_eq_getElem st.2 0 hilen]
        exact List.getElem_mem _
      have hvtp : st.2.getD i 0 ∈ tp := htp.mem_iff.mpr (hperm.mem_iff.mp hvst)
      have hidxlt : refIdx tp (st.2.getD i 0) < n := by
        have := List.indexOf_lt_length.mpr hvtp
        rw [refIdx]
        omega
      have htpval : tp.getD (refIdx tp (st.2.getD i 0)) 0 = st.2.getD i 0 := by
        rw [refIdx, List.getD_eq_getElem tp 0 (by
          have := List.indexOf_lt_length.mpr hvtp
          omega)]
        exact List.getElem_indexOf (List.indexOf_lt_length.mpr hvtp)
      by_contra hle
      push_neg at hle
      rcases Nat.lt_or_ge (refIdx tp (st.2.getD i 0)) k with hlt | hge
      · have h3 : st.2.getD (refIdx tp (st.2.getD i 0)) 0 = st.2.getD i 0 := by
          rw [hpre _ hlt, htpval]
        have := nodup_getD_inj 0 st.2 hstnd (by omega) hilen h3
        omega
      · have heqk : refIdx tp (st.2.getD i 0) = k := by omega
        rw [heqk] at htpval
        have hix : st.2[i] = tp.getD k 0 := by
          rw [← List.getD_eq_getElem st.2 0 hilen, ← htpval]
        have := hfirst i h2
        rw [hix] at this
        simp at this
    obtain ⟨b1, b2, b3, b4, b5⟩ := bubbleFrom_spec tp n cur st.2 k hcurge hcurlt hstlen
      hperm (by rw [hst2curval]; exact hrefx) hmid
    simp only [hcur]
    have hnewbd : ∀ c ∈ st.1 ++ (bubbleFrom k cur st.2).1, c + 1 < n := by
      intro c hc
      rcases List.mem_append.mp hc with h | h
      · exact hbd c h
      · have := b2 c h
        omega
    have hnewperm : (bubbleFrom k cur st.2).2.Perm (intRange n) := by
      rw [b1]
      exact applySwapsEntry_perm_intRange n _ _ (fun c hc => by have := b2 c hc; omega) hperm
    apply ih (k + 1) (st.1 ++ (bubbleFrom k cur st.2).1, (bubbleFrom k cur st.2).2)
      (by omega) hnewperm
    · intro i hi
      rcases Nat.lt_or_ge i k with h | h
      · rw [b3 i h]
        exact hpre i h
      · have hik : i = k := by omega
        subst hik
        rw [b4, hst2curval]
    · simp only
      rw [b1, happ, ← applySwapsEntry_append]
    · exact hnewbd
    · simp only [List.length_append]
      omega

theorem swaps_ge_disorder (tp : List Int) (n : Nat) (htp : tp.Perm (intRange n)) :
    ∀ (ws : List Nat) (w : List Int), (∀ c ∈ ws, c + 1 < n) → w.Perm (intRange n) →
      applySwapsEntry ws w = tp → disorder tp w ≤ ws.length := by
  intro ws
  induction ws with
  | nil =>
    intro w _ hw happ
    have hwt : w = tp := happ
    rw [hwt, disorder_self tp (htp.nodup_iff.mpr (intRange_nodup n))]
    exact Nat.zero_le _
  | cons c rest ih =>
    intro w hb hw happ
    rw [applySwapsEntry_cons] at happ
    have hc : c + 1 < n := hb c (List.mem_cons_self c rest)
    have hwlen : w.length = n := by rw [hw.length_eq, intRange_length]
    have hwnd : w.Nodup := hw.nodup_iff.mpr (intRange_nodup n)
    have hvals : w.getD c 0 ≠ w.getD (c + 1) 0 := by
      intro he
      have := nodup_getD_inj 0 w hwnd (by omega) (by omega) he
      omega
    have hmemc : w.getD c 0 ∈ tp := by
      have : w.getD c 0 ∈ w := by
        rw [List.getD_eq_getElem w 0 (by omega)]
        exact List.getElem_mem _
      exact htp.mem_iff.mpr (hw.mem_iff.mp this)
    have hmemc1 : w.getD (c + 1) 0 ∈ tp := by
      have : w.getD (c + 1) 0 ∈ w := by
        rw [List.getD_eq_getElem w 0 (by omega)]
        exact List.getElem_mem _
      exact htp.mem_iff.mpr (hw.mem_iff.mp this)
    have hne : refIdx tp (w.getD c 0) ≠ refIdx tp (w.getD (c + 1) 0) :=
      fun he => hvals (refIdx_inj_mem tp _ _ hmemc hmemc1 he)
    have hds := disorder_swap tp w c (by omega) hne
    have hrec := ih (swapEntries w c (c + 1))
      (fun x hx => hb x (List.mem_cons_of_mem c hx))
      (swapEntries_perm_intRange n c w hc hw) happ
    rw [List.length_cons]
    by_cases hinv : refIdx tp (w.getD (c + 1) 0) < refIdx tp (w.getD c 0)
    · rw [if_pos hinv] at hds
      omega
    · rw [if_neg hinv] at hds
      omega

theorem calculateAdjustmentTranspositions_spec (actual target : List Int) (n : Nat)
    (ha : actual.Perm (intRange n)) (ht : target.Perm (intRange n)) :
    applySwapsEntry (calculateAdjustmentTranspositions actual target n)
      (buildPosPerm actual n) = buildPosPerm target n ∧
    (∀ c ∈ calculateAdjustmentTranspositions actual target n, c + 1 < n) ∧
    (calculateAdjustmentTranspositions actual target n).length =
      disorder (buildPosPerm target n) (buildPosPerm actual n) := by
  have hcp : (buildPosPerm actual n).Perm (intRange n) := buildPosPerm_perm actual n ha
  have htp : (buildPosPerm target n).Perm (intRange n) := buildPosPerm_perm target n ht
  have h := adjustLoop_spec n (buildPosPerm target n) (buildPosPerm actual n) htp n 0
    ([], buildPosPerm actual n) (by omega) hcp (fun i hi => absurd hi (by omega))
    rfl (fun c hc => absurd hc (List.not_mem_nil c)) rfl
  rw [calculateAdjustmentTranspositions, List.range_eq_range']
  exact ⟨h.2.1.symm.trans h.1, h.2.2.1, h.2.2.2⟩

theorem applySwapsVal_adjustment (n : Nat) (actual target : List Int)
    (ha : actual.Perm (intRange n)) (ht : target.Perm (intRange n)) :
    applySwapsVal (calculateAdjustmentTranspositions actual target n) actual = target := by
  obtain ⟨hmain, hbd, _⟩ := calculateAdjustmentTranspositions_spec actual target n ha ht
  have hcpperm := buildPosPerm_perm actual n ha
  have htpperm := buildPosPerm_perm target n ht
  have hcprel := buildPosPerm_invRel actual n ha
  have htprel := buildPosPerm_invRel target n ht
  obtain ⟨p1, p2, p3⟩ := invRel_swaps n (calculateAdjustmentTranspositions actual target n)
    actual (buildPosPerm actual n) hbd ha hcpperm hcprel
  rw [hmain] at p3
  exact invRel_unique_m n _ target _ p1 ht htpperm p3 htprel

/-- C3: the transposition list computed by
`calculateAdjustmentTranspositions`, read as adjacent column swaps applied
in emission order, turns the actual mapping into the target mapping; no
shorter list of adjacent swaps does so; and its length is bounded by
`N²`. -/
theorem calculateAdjustmentTranspositions_correct (n : Nat) (actual target : List Int)
    (ha : actual.Perm (intRange n)) (ht : target.Perm (intRange n)) :
    applySwapsVal (calculateAdjustmentTranspositions actual target n) actual = target ∧
    (∀ ws : List Nat, (∀ c ∈ ws, c + 1 < n) → applySwapsVal ws actual = target →
      (calculateAdjustmentTranspositions actual target n).length ≤ ws.length) ∧
    (calculateAdjustmentTranspositions actual target n).length ≤ n * n := by
  obtain ⟨hmain, hbd, hlen⟩ := calculateAdjustmentTranspositions_spec actual target n ha ht
  have hcpperm := buildPosPerm_perm actual n ha
  have htpperm := buildPosPerm_perm target n ht
  have hcprel := buildPosPerm_invRel actual n ha
  have htprel := buildPosPerm_invRel target n ht
  refine ⟨?_, ?_, ?_⟩
  · exact applySwapsVal_adjustment n actual target ha ht
  · intro ws hwbd hwv
    obtain ⟨q1, q2, q3⟩ := invRel_swaps n ws actual (buildPosPerm actual n) hwbd ha
      hcpperm hcprel
    rw [hwv] at q3
    have hW : applySwapsEntry ws (buildPosPerm actual n) = buildPosPerm target n :=
      invRel_unique_w n target _ _ ht (by rw [q2.length_eq, intRange_length])
        (by rw [htpperm.length_eq, intRange_length]) q3 htprel
    have := swaps_ge_disorder (buildPosPerm target n) n htpperm ws
      (buildPosPerm actual n) hwbd hcpperm hW
    omega
  · rw [hlen]
    have h1 := Finset.card_filter_le
      (Finset.range (buildPosPerm actual n).length ×ˢ
        Finset.range (buildPosPerm actual n).length)
      (fun ij => ij.1 < ij.2 ∧
        refIdx (buildPosPerm target n) ((buildPosPerm actual n).getD ij.2 0) <
          refIdx (buildPosPerm target n) ((buildPosPerm actual n).getD ij.1 0))
    rw [Finset.card_product, Finset.card_range] at h1
    have h2 : (buildPosPerm actual n).length = n := by
      rw [hcpperm.length_eq, intRange_length]
    rw [disorder]
    calc _ ≤ (buildPosPerm actual n).length * (buildPosPerm actual n).length := h1
      _ = n * n := by rw [h2]

/-- Witness for C3 at a concrete input: swapping two columns turns the
identity mapping into the reversed one. -/
theorem calculateAdjustmentTranspositions_correct_witness :
    applySwapsVal (calculateAdjustmentTranspositions [0, 1] [1, 0] 2) [0, 1] = [1, 0] :=
  (calculateAdjustmentTranspositions_correct 2 [0, 1] [1, 0] (by decide) (by decide)).1

instance hitsRow_decidable (L : List HLine) (c : Int) : Decidable (hitsRow L c) := by
  unfold hitsRow
  infer_instance

theorem hitsRow_cons_of_no_match (l : HLine) (L : List HLine) (c : Int)
    (h1 : l.fromColumn ≠ c) (h2 : l.fromColumn ≠ c - 1) :
    hitsRow (l :: L) c ↔ hitsRow L c := by
  constructor
  · rintro ⟨x, hx, hor⟩
    rcases List.mem_cons.mp hx with he | hm
    · subst he
      rcases hor with h | h
      · exact absurd h h1
      · exact absurd h h2
    · exact ⟨x, hm, hor⟩
  · rintro ⟨x, hx, hor⟩
    exact ⟨x, List.mem_cons_of_mem l hx, hor⟩

theorem stepRow_append (L1 L2 : List HLine) (c : Int) :
    stepRow (L1 ++ L2) c = if hitsRow L1 c then stepRow L1 c else stepRow L2 c := by
  induction L1 with
  | nil =>
    have hno : ¬hitsRow [] c := by rintro ⟨x, hx, _⟩; exact absurd hx (List.not_mem_nil x)
    rw [List.nil_append, if_neg hno]
  | cons l L1' ih =>
    rw [List.cons_append, stepRow]
    by_cases h1 : l.fromColumn = c
    · have hh : hitsRow (l :: L1') c := ⟨l, List.mem_cons_self l L1', Or.inl h1⟩
      rw [if_pos h1, if_pos hh, stepRow, if_pos h1]
    · by_cases h2 : l.fromColumn = c - 1
      · have hh : hitsRow (l :: L1') c := ⟨l, List.mem_cons_self l L1', Or.inr h2⟩
        rw [if_neg h1, if_pos h2, if_pos hh, stepRow, if_neg h1, if_pos h2]
      · rw [if_neg h1, if_neg h2, ih]
        by_cases hh : hitsRow L1' c
        · have hh' : hitsRow (l :: L1') c := (hitsRow_cons_of_no_match l L1' c h1 h2).mpr hh
          rw [if_pos hh, if_pos hh', stepRow, if_neg h1, if_neg h2]
        · have hh' : ¬hitsRow (l :: L1') c :=
            fun hx => hh ((hitsRow_cons_of_no_match l L1' c h1 h2).mp hx)
          rw [if_neg hh, if_neg hh']

theorem stepRow_no_hit (L : List HLine) (c : Int) (h : ¬hitsRow L c) : stepRow L c = c := by
  induction L with
  | nil => rfl
  | cons l L' ih =>
    have h1 : l.fromColumn ≠ c := fun he => h ⟨l, List.mem_cons_self l L', Or.inl he⟩
    have h2 : l.fromColumn ≠ c - 1 := fun he => h ⟨l, List.mem_cons_self l L', Or.inr he⟩
    rw [stepRow, if_neg h1, if_neg h2]
    exact ih (fun hx => h ((hitsRow_cons_of_no_match l L' c h1 h2).mpr hx))

theorem mem_allTouched_foldl (c : Int) :
    ∀ (L : List HLine) (acc : Finset Int),
      (c ∈ L.foldl (fun s l => insert l.fromColumn (insert (l.fromColumn + 1) s)) acc ↔
        c ∈ acc ∨ ∃ l ∈ L, c = l.fromColumn ∨ c = l.fromColumn + 1) := by
  intro L
  induction L with
  | nil => intro acc; simp
  | cons l L' ih =>
    intro acc
    rw [List.foldl_cons, ih]
    simp only [Finset.mem_insert, List.mem_cons]
    constructor
    · rintro (h | h)
      · rcases h with h | h | h
        · exact Or.inr ⟨l, Or.inl rfl, Or.inl h⟩
        · exact Or.inr ⟨l, Or.inl rfl, Or.inr h⟩
        · exact Or.inl h
      · obtain ⟨x, hx, hor⟩ := h
        exact Or.inr ⟨x, Or.inr hx, hor⟩
    · rintro (h | h)
      · exact Or.inl (Or.inr (Or.inr h))
      · obtain ⟨x, hx, hor⟩ := h
        rcases hx with he | hm
        · subst he
          rcases hor with h | h
          · exact Or.inl (Or.inl h)
          · exact Or.inl (Or.inr (Or.inl h))
        · exact Or.inr ⟨x, hm, hor⟩

theorem mem_allTouched (L : List HLine) (c : Int) :
    c ∈ allTouched L ↔ ∃ l ∈ L, c = l.fromColumn ∨ c = l.fromColumn + 1 := by
  rw [allTouched, mem_allTouched_foldl]
  simp

theorem hitsRow_iff_mem (L : List HLine) (c : Int) :
    hitsRow L c ↔ c ∈ allTouched L := by
  rw [mem_allTouched, hitsRow]
  constructor
  · rintro ⟨l, hl, hor⟩
    refine ⟨l, hl, ?_⟩
    rcases hor with h | h
    · exact Or.inl h.symm
    · right
      omega
  · rintro ⟨l, hl, hor⟩
    refine ⟨l, hl, ?_⟩
    rcases hor with h | h
    · exact Or.inl h.symm
    · right
      omega

theorem stepRow_mem_touched (L : List HLine) (c : Int) (h : hitsRow L c) :
    stepRow L c ∈ allTouched L := by
  induction L with
  | nil => obtain ⟨x, hx, _⟩ := h; exact absurd hx (List.not_mem_nil x)
  | cons l L' ih =>
    rw [stepRow]
    by_cases h1 : l.fromColumn = c
    · rw [if_pos h1]
      rw [mem_allTouched]
      exact ⟨l, List.mem_cons_self l L', Or.inr (by omega)⟩
    · by_cases h2 : l.fromColumn = c - 1
      · rw [if_neg h1, if_pos h2]
        rw [mem_allTouched]
        exact ⟨l, List.mem_cons_self l L', Or.inl (by omega)⟩
      · rw [if_neg h1, if_neg h2]
        have hh : hitsRow L' c := (hitsRow_cons_of_no_match l L' c h1 h2).mp h
        have := ih hh
        rw [mem_allTouched] at this ⊢
        obtain ⟨x, hx, hor⟩ := this
        exact ⟨x, List.mem_cons_of_mem l hx, hor⟩

theorem stepRow_single_applyTrans (t : Nat) (r : Int) (c : Int) :
    stepRow [⟨(t : Int), r⟩] c = applyTrans t c := by
  simp only [stepRow, applyTrans]
  split_ifs <;> omega

theorem applyTrans_eq_self_of_not_touched (t : Nat) (c : Int)
    (h1 : c ≠ (t : Int)) (h2 : c ≠ (t : Int) + 1) : applyTrans t c = c := by
  rw [applyTrans, if_neg h1, if_neg h2]

theorem stepRow_append_single (L : List HLine) (t : Nat) (r : Int) (c : Int)
    (hdisj : (t : Int) ∉ allTouched L ∧ ((t : Int) + 1) ∉ allTouched L) :
    stepRow (L ++ [⟨(t : Int), r⟩]) c = applyTrans t (stepRow L c) := by
  rw [stepRow_append]
  by_cases hh : hitsRow L c
  · rw [if_pos hh]
    have hm := stepRow_mem_touched L c hh
    apply (applyTrans_eq_self_of_not_touched t _ ?_ ?_).symm
    · intro he
      rw [he] at hm
      exact hdisj.1 hm
    · intro he
      rw [he] at hm
      exact hdisj.2 hm
  · rw [if_neg hh, stepRow_no_hit L c hh, stepRow_single_applyTrans]

theorem traceRows_zero (lines : List HLine) (s : Nat) (c : Int) :
    traceRows lines s 0 c = c := rfl

theorem traceRows_succ (lines : List HLine) (s k : Nat) (c : Int) :
    traceRows lines s (k + 1) c =
      stepRow (rowLines lines ((s + k : Nat) : Int)) (traceRows lines s k c) := by
  rw [traceRows, traceRows, List.range_succ, List.foldl_append]
  rfl

theorem rowLines_append (L1 L2 : List HLine) (r : Int) :
    rowLines (L1 ++ L2) r = rowLines L1 r ++ rowLines L2 r := by
  rw [rowLines, rowLines, rowLines, List.filter_append]

theorem rowLines_single (l : HLine) (r : Int) :
    rowLines [l] r = if l.row = r then [l] else [] := by
  rw [rowLines]
  by_cases h : l.row = r
  · simp [h]
  · simp [h]

theorem mem_usedAt_foldl (r : Int) (c : Int) :
    ∀ (L : List HLine) (acc : Finset Int),
      (c ∈ L.foldl
        (fun s l => if l.row = r then insert l.fromColumn (insert (l.fromColumn + 1) s) else s)
        acc ↔
        c ∈ acc ∨ ∃ l ∈ L, l.row = r ∧ (c = l.fromColumn ∨ c = l.fromColumn + 1)) := by
  intro L
  induction L with
  | nil => intro acc; simp
  | cons l L' ih =>
    intro acc
    rw [List.foldl_cons]
    by_cases h : l.row = r
    · rw [if_pos h, ih]
      simp only [Finset.mem_insert, List.mem_cons]
      constructor
      · rintro (⟨h1 | h1 | h1⟩ | h1)
        · exact Or.inr ⟨l, Or.inl rfl, h, Or.inl h1⟩
        · exact Or.inr ⟨l, Or.inl rfl, h, Or.inr h1⟩
        · exact Or.inl h1
        · obtain ⟨x, hx, hor⟩ := h1
          exact Or.inr ⟨x, Or.inr hx, hor⟩
      · rintro (h1 | h1)
        · exact Or.inl (Or.inr (Or.inr h1))
        · obtain ⟨x, hx, hrr, hor⟩ := h1
          rcases hx with he | hm
          · subst he
            rcases hor with h1 | h1
            · exact Or.inl (Or.inl h1)
            · exact Or.inl (Or.inr (Or.inl h1))
          · exact Or.inr ⟨x, hm, hrr, hor⟩
    · rw [if_neg h, ih]
      constructor
      · rintro (h1 | h1)
        · exact Or.inl h1
        · obtain ⟨x, hx, hor⟩ := h1
          exact Or.inr ⟨x, List.mem_cons_of_mem l hx, hor⟩
      · rintro (h1 | h1)
        · exact Or.inl h1
        · obtain ⟨x, hx, hrr, hor⟩ := h1
          rcases List.mem_cons.mp hx with he | hm
          · subst he
            exact absurd hrr h
          · exact Or.inr ⟨x, hm, hrr, hor⟩

theorem mem_usedAt (lines : List HLine) (r : Int) (c : Int) :
    c ∈ usedAt lines r ↔
      ∃ l ∈ lines, l.row = r ∧ (c = l.fromColumn ∨ c = l.fromColumn + 1) := by
  rw [usedAt, mem_usedAt_foldl]
  simp

theorem usedAt_eq_allTouched (lines : List HLine) (r : Int) :
    usedAt lines r = allTouched (rowLines lines r) := by
  apply Finset.ext
  intro c
  rw [mem_usedAt, mem_allTouched]
  constructor
  · rintro ⟨l, hl, hr, hor⟩
    refine ⟨l, ?_, hor⟩
    rw [rowLines, List.mem_filter]
    exact ⟨hl, by simp [hr]⟩
  · rintro ⟨l, hl, hor⟩
    rw [rowLines, List.mem_filter] at hl
    refine ⟨l, hl.1, by simpa using hl.2, hor⟩

theorem usedAt_append_single (L : List HLine) (l : HLine) (r : Int) :
    usedAt (L ++ [l]) r =
      if l.row = r then insert l.fromColumn (insert (l.fromColumn + 1) (usedAt L r))
      else usedAt L r := by
  rw [usedAt, List.foldl_append]
  rfl

theorem getD_set_self' {α : Type} (d : α) (l : List α) (i : Nat) (v : α) (h : i < l.length) :
    (l.set i v).getD i d = v := by
  rw [List.getD_eq_getElem?_getD, List.getElem?_set_self h]
  rfl

theorem getD_set_other {α : Type} (d : α) (l : List α) (i j : Nat) (v : α) (h : i ≠ j) :
    (l.set i v).getD j d = l.getD j d := by
  rw [List.getD_eq_getElem?_getD, List.getElem?_set_ne h, ← List.getD_eq_getElem?_getD]

theorem getD_append_left {α : Type} (d : α) (l1 l2 : List α) (i : Nat) (h : i < l1.length) :
    (l1 ++ l2).getD i d = l1.getD i d := by
  rw [List.getD_eq_getElem?_getD, List.getElem?_append_left h, ← List.getD_eq_getElem?_getD]

theorem usedAt_of_no_row (placed : List HLine) (r : Int) (h : ∀ l ∈ placed, l.row ≠ r) :
    usedAt placed r = ∅ := by
  apply Finset.ext
  intro c
  rw [mem_usedAt]
  simp only [Finset.not_mem_empty, iff_false]
  rintro ⟨l, hl, hr, _⟩
  exact h l hl hr

theorem rowLines_of_no_row (placed : List HLine) (r : Int) (h : ∀ l ∈ placed, l.row ≠ r) :
    rowLines placed r = [] := by
  rw [rowLines, List.filter_eq_nil_iff]
  intro l hl
  simp only [decide_eq_true_eq]
  exact h l hl

theorem touches_subset_usedAt (placed : List HLine) (l : HLine) (hl : l ∈ placed) :
    touches l ⊆ usedAt placed l.row := by
  intro c hc
  rw [touches, Finset.mem_insert, Finset.mem_singleton] at hc
  rw [mem_usedAt]
  exact ⟨l, hl, rfl, hc⟩

theorem traceRows_congr (L1 L2 : List HLine) (s : Nat) :
    ∀ (k : Nat),
      (∀ i, i < k → rowLines L1 ((s + i : Nat) : Int) = rowLines L2 ((s + i : Nat) : Int)) →
      ∀ c, traceRows L1 s k c = traceRows L2 s k c := by
  intro k
  induction k with
  | zero => intro _ c; rfl
  | succ k' ih =>
    intro h c
    rw [traceRows_succ, traceRows_succ, ih (fun i hi => h i (by omega)) c,
      h k' (by omega)]

theorem traceRows_place_last (placed : List HLine) (startRow len t : Nat) (hlen : 1 ≤ len)
    (hd1 : (t : Int) ∉ usedAt placed ((startRow + (len - 1) : Nat) : Int))
    (hd2 : (t : Int) + 1 ∉ usedAt placed ((startRow + (len - 1) : Nat) : Int)) :
    ∀ c, traceRows (placed ++ [⟨(t : Int), ((startRow + (len - 1) : Nat) : Int)⟩])
        startRow len c = applyTrans t (traceRows placed startRow len c) := by
  intro c
  obtain ⟨k, hk⟩ : ∃ k, len = k + 1 := ⟨len - 1, by omega⟩
  subst hk
  have hk1 : k + 1 - 1 = k := by omega
  rw [hk1] at hd1 hd2 ⊢
  rw [traceRows_succ, traceRows_succ]
  have hpre : ∀ i, i < k →
      rowLines (placed ++ [⟨(t : Int), ((startRow + k : Nat) : Int)⟩])
        ((startRow + i : Nat) : Int) = rowLines placed ((startRow + i : Nat) : Int) := by
    intro i hi
    rw [rowLines_append, rowLines_single]
    rw [if_neg (by simp only; omega), List.append_nil]
  rw [traceRows_congr _ placed startRow k hpre c]
  rw [rowLines_append, rowLines_single, if_pos rfl]
  apply stepRow_append_single
  rw [← usedAt_eq_allTouched]
  exact ⟨hd1, hd2⟩

theorem traceRows_place_new (placed : List HLine) (startRow len t : Nat)
    (hrows : ∀ l ∈ placed, ∃ i, i < len ∧ l.row = ((startRow + i : Nat) : Int)) :
    ∀ c, traceRows (placed ++ [⟨(t : Int), ((startRow + len : Nat) : Int)⟩])
        startRow (len + 1) c = applyTrans t (traceRows placed startRow len c) := by
  intro c
  rw [traceRows_succ]
  have hpre : ∀ i, i < len →
      rowLines (placed ++ [⟨(t : Int), ((startRow + len : Nat) : Int)⟩])
        ((startRow + i : Nat) : Int) = rowLines placed ((startRow + i : Nat) : Int) := by
    intro i hi
    rw [rowLines_append, rowLines_single]
    rw [if_neg (by simp only; omega), List.append_nil]
  rw [traceRows_congr _ placed startRow len hpre c]
  rw [rowLines_append, rowLines_single, if_pos rfl]
  have hempty : rowLines placed ((startRow + len : Nat) : Int) = [] := by
    apply rowLines_of_no_row
    intro l hl
    obtain ⟨i, hi, hr⟩ := hrows l hl
    rw [hr]
    intro he
    have : i = len := by omega
    omega
  rw [hempty, List.nil_append, stepRow_single_applyTrans]

theorem applyTransList_cons (t : Nat) (ts : List Nat) (c : Int) :
    applyTransList (t :: ts) c = applyTransList ts (applyTrans t c) := rfl

theorem range_drop_pred (len : Nat) (h : 1 ≤ len) :
    (List.range len).drop (len - 1) = [len - 1] := by
  obtain ⟨m, rfl⟩ : ∃ m, len = m + 1 := ⟨len - 1, by omega⟩
  rw [List.range_succ]
  have hm : m + 1 - 1 = m := by omega
  rw [hm]
  exact List.drop_left' (by rw [List.length_range])

theorem placeTransposition_cases (startRow : Nat) (st : AdjState) (col : Nat)
    (hmr : st.minRowIdx = st.rows.length - 1 ∨ (st.rows = [] ∧ st.minRowIdx = 0)) :
    (1 ≤ st.rows.length ∧
      (col : Int) ∉ st.rows.getD (st.rows.length - 1) ∅ ∧
      (col : Int) + 1 ∉ st.rows.getD (st.rows.length - 1) ∅ ∧
      placeTransposition startRow st col =
        { result := st.result ++ [⟨(col : Int), ((startRow + (st.rows.length - 1) : Nat) : Int)⟩]
          rows := st.rows.set (st.rows.length - 1)
            (insert (col : Int) (insert ((col : Int) + 1) (st.rows.getD (st.rows.length - 1) ∅)))
          minRowIdx := st.rows.length - 1 }) ∨
    (placeTransposition startRow st col =
        { result := st.result ++ [⟨(col : Int), ((startRow + st.rows.length : Nat) : Int)⟩]
          rows := st.rows ++ [({(col : Int), (col : Int) + 1} : Finset Int)]
          minRowIdx := st.rows.length }) := by
  by_cases hempty : st.rows = []
  · right
    have hmr0 : st.minRowIdx = 0 := by
      rcases hmr with h | h
      · rw [h, hempty]
        rfl
      · exact h.2
    rw [placeTransposition]
    have hfind : ((List.range st.rows.length).drop st.minRowIdx).find?
        (fun i => decide ((col : Int) ∉ st.rows.getD i ∅ ∧
          ((col : Int) + 1) ∉ st.rows.getD i ∅)) = none := by
      rw [hempty, hmr0]
      rfl
    rw [hfind]
  · have hlen : 1 ≤ st.rows.length := List.length_pos.mpr hempty
    have hmr' : st.minRowIdx = st.rows.length - 1 := by
      rcases hmr with h | h
      · exact h
      · exact absurd h.1 hempty
    have hdrop : (List.range st.rows.length).drop st.minRowIdx = [st.rows.length - 1] := by
      rw [hmr']
      exact range_drop_pred _ hlen
    by_cases hpred : (col : Int) ∉ st.rows.getD (st.rows.length - 1) ∅ ∧
        ((col : Int) + 1) ∉ st.rows.getD (st.rows.length - 1) ∅
    · left
      refine ⟨hlen, hpred.1, hpred.2, ?_⟩
      rw [placeTransposition, hdrop, List.find?_singleton]
      rw [if_pos (by exact decide_eq_true hpred)]
    · right
      rw [placeTransposition, hdrop, List.find?_singleton]
      rw [if_neg (by
        intro hcon
        exact hpred (of_decide_eq_true hcon))]

theorem getD_append_last {α : Type} (d : α) (l : List α) (x : α) :
    (l ++ [x]).getD l.length d = x := by
  rw [List.getD_eq_getElem?_getD, List.getElem?_append_right (Nat.le_refl _), Nat.sub_self]
  rfl

theorem placer_inv (startRow : Nat) :
    ∀ (ts : List Nat) (st : AdjState) (placed : List HLine),
      (st.minRowIdx = st.rows.length - 1 ∨ (st.rows = [] ∧ st.minRowIdx = 0)) →
      (∀ i, i < st.rows.length →
        st.rows.getD i ∅ = usedAt placed ((startRow + i : Nat) : Int)) →
      (∀ l ∈ placed, ∃ i, i < st.rows.length ∧ l.row = ((startRow + i : Nat) : Int)) →
      (∀ r : Int, (rowLines placed r).Pairwise (fun a b => Disjoint (touches a) (touches b))) →
      ((placed.map HLine.row).Pairwise (· ≤ ·)) →
      (∀ l ∈ placed, l.row ≤ ((startRow + st.minRowIdx : Nat) : Int)) →
      ∃ q : List HLine,
        (ts.foldl (placeTransposition startRow) st).result = st.result ++ q ∧
        q.map HLine.fromColumn = ts.map (fun t : Nat => (t : Int)) ∧
        (((placed ++ q).map HLine.row).Pairwise (· ≤ ·)) ∧
        (∀ r : Int, (rowLines (placed ++ q) r).Pairwise
          (fun a b => Disjoint (touches a) (touches b))) ∧
        (∀ l ∈ placed ++ q, ∃ i,
          i < (ts.foldl (placeTransposition startRow) st).rows.length ∧
          l.row = ((startRow + i : Nat) : Int)) ∧
        st.rows.length ≤ (ts.foldl (placeTransposition startRow) st).rows.length ∧
        (∀ c : Int, traceRows (placed ++ q) startRow
            (ts.foldl (placeTransposition startRow) st).rows.length c =
          applyTransList ts (traceRows placed startRow st.rows.length c)) := by
  intro ts
  induction ts with
  | nil =>
    intro st placed h1 h2 h3 h4 h5 h6
    refine ⟨[], (List.append_nil st.result).symm, rfl, ?_, ?_, ?_, Nat.le_refl _, ?_⟩
    · rw [List.append_nil]
      exact h5
    · intro r
      rw [List.append_nil]
      exact h4 r
    · intro l hl
      rw [List.append_nil] at hl
      exact h3 l hl
    · intro c
      rw [List.append_nil]
      rfl
  | cons col rest ih =>
    intro st placed h1 h2 h3 h4 h5 h6
    rw [List.foldl_cons]
    rcases placeTransposition_cases startRow st col h1 with
      ⟨hlen, hp1, hp2, heq⟩ | heq
    · -- placed into the existing last row
      set len := st.rows.length with hlendef
      set nl : HLine := ⟨(col : Int), ((startRow + (len - 1) : Nat) : Int)⟩ with hnl
      have hnlrow : nl.row = ((startRow + (len - 1) : Nat) : Int) := rfl
      have hused : usedAt placed ((startRow + (len - 1) : Nat) : Int) =
          st.rows.getD (len - 1) ∅ := (h2 (len - 1) (by omega)).symm
      have hminle : st.minRowIdx ≤ len - 1 := by
        rcases h1 with h | h
        · omega
        · omega
      -- invariant for the next state
      have h1' : (placeTransposition startRow st col).minRowIdx =
          (placeTransposition startRow st col).rows.length - 1 ∨
          ((placeTransposition startRow st col).rows = [] ∧
            (placeTransposition startRow st col).minRowIdx = 0) := by
        left
        rw [heq]
        simp only [List.length_set]
      have hrows' : (placeTransposition startRow st col).rows.length = len := by
        rw [heq]
        simp only [List.length_set]
      have h2' : ∀ i, i < (placeTransposition startRow st col).rows.length →
          (placeTransposition startRow st col).rows.getD i ∅ =
            usedAt (placed ++ [nl]) ((startRow + i : Nat) : Int) := by
        intro i hi
        rw [hrows'] at hi
        rw [heq]
        simp only
        by_cases hieq : i = len - 1
        · subst hieq
          rw [getD_set_self' ∅ _ _ _ (by omega), usedAt_append_single,
            if_pos hnlrow, ← hused]
        · rw [getD_set_other ∅ _ _ _ _ (fun he => hieq he.symm), usedAt_append_single,
            if_neg (by rw [hnlrow]; omega)]
          exact h2 i hi
      have h3' : ∀ l ∈ placed ++ [nl], ∃ i,
          i < (placeTransposition startRow st col).rows.length ∧
          l.row = ((startRow + i : Nat) : Int) := by
        intro l hl
        rw [hrows']
        rcases List.mem_append.mp hl with h | h
        · exact h3 l h
        · rw [List.mem_singleton] at h
          subst h
          exact ⟨len - 1, by omega, rfl⟩
      have h4' : ∀ r : Int, (rowLines (placed ++ [nl]) r).Pairwise
          (fun a b => Disjoint (touches a) (touches b)) := by
        intro r
        rw [rowLines_append, rowLines_single]
        by_cases hr : nl.row = r
        · rw [if_pos hr, List.pairwise_append]
          refine ⟨h4 r, List.pairwise_singleton _ _, ?_⟩
          intro a ha b hb
          rw [List.mem_singleton] at hb
          subst hb
          rw [rowLines, List.mem_filter] at ha
          have har : a.row = r := by simpa using ha.2
          have hsub : touches a ⊆ usedAt placed ((startRow + (len - 1) : Nat) : Int) := by
            have := touches_subset_usedAt placed a ha.1
            rw [har, ← hr, hnlrow] at this
            exact this
          rw [Finset.disjoint_right]
          intro x hx hxa
          have hxu := hsub hxa
          rw [hused] at hxu
          rw [touches, Finset.mem_insert, Finset.mem_singleton] at hx
          rcases hx with h | h
          · rw [h] at hxu
            exact hp1 hxu
          · rw [h] at hxu
            exact hp2 hxu
        · rw [if_neg hr, List.append_nil]
          exact h4 r
      have h5' : ((placed ++ [nl]).map HLine.row).Pairwise (· ≤ ·) := by
        rw [List.map_append, List.pairwise_append]
        refine ⟨h5, List.pairwise_singleton _ _, ?_⟩
        intro a ha b hb
        rw [List.map_singleton, List.mem_singleton] at hb
        subst hb
        rw [List.mem_map] at ha
        obtain ⟨l, hl, he⟩ := ha
        rw [← he, hnlrow]
        have := h6 l hl
        have hcast : ((startRow + st.minRowIdx : Nat) : Int) ≤
            ((startRow + (len - 1) : Nat) : Int) := by omega
        exact le_trans this hcast
      have h6' : ∀ l ∈ placed ++ [nl],
          l.row ≤ ((startRow + (placeTransposition startRow st col).minRowIdx : Nat) : Int) := by
        intro l hl
        rw [heq]
        simp only
        rcases List.mem_append.mp hl with h | h
        · have := h6 l h
          have hcast : ((startRow + st.minRowIdx : Nat) : Int) ≤
              ((startRow + (len - 1) : Nat) : Int) := by omega
          exact le_trans this hcast
        · rw [List.mem_singleton] at h
          subst h
          rw [hnlrow]
      obtain ⟨q', e1, e2, e3, e4, e5, e6, e7⟩ :=
        ih (placeTransposition startRow st col) (placed ++ [nl]) h1' h2' h3' h4' h5' h6'
      have hpq : placed ++ nl :: q' = (placed ++ [nl]) ++ q' :=
        (List.append_assoc placed [nl] q').symm
      refine ⟨nl :: q', ?_, ?_, ?_, ?_, ?_, ?_, ?_⟩
      · rw [e1, heq]
        simp only
        rw [List.append_assoc]
        rfl
      · rw [List.map_cons, e2, List.map_cons]
      · rw [hpq]
        exact e3
      · intro r
        rw [hpq]
        exact e4 r
      · intro l hl
        rw [hpq] at hl
        exact e5 l hl
      · rw [← hrows']
        exact e6
      · intro c
        rw [hpq, e7 c, hrows', applyTransList_cons]
        congr 1
        exact traceRows_place_last placed startRow len col hlen
          (by rw [hused]; exact hp1) (by rw [hused]; exact hp2) c
    · -- new adjustment row opened
      set len := st.rows.length with hlendef
      set nl : HLine := ⟨(col : Int), ((startRow + len : Nat) : Int)⟩ with hnl
      have hnlrow : nl.row = ((startRow + len : Nat) : Int) := rfl
      have hminle : st.minRowIdx ≤ len := by
        rcases h1 with h | h
        · omega
        · omega
      have h1' : (placeTransposition startRow st col).minRowIdx =
          (placeTransposition startRow st col).rows.length - 1 ∨
          ((placeTransposition startRow st col).rows = [] ∧
            (placeTransposition startRow st col).minRowIdx = 0) := by
        left
        rw [heq]
        simp only [List.length_append, List.length_singleton]
        omega
      have hrows' : (placeTransposition startRow st col).rows.length = len + 1 := by
        rw [heq]
        simp only [List.length_append, List.length_singleton]
      have husedempty : usedAt placed ((startRow + len : Nat) : Int) = ∅ := by
        apply usedAt_of_no_row
        intro l hl
        obtain ⟨i, hi, hr⟩ := h3 l hl
        rw [hr]
        omega
      have h2' : ∀ i, i < (placeTransposition startRow st col).rows.length →
          (placeTransposition startRow st col).rows.getD i ∅ =
            usedAt (placed ++ [nl]) ((startRow + i : Nat) : Int) := by
        intro i hi
        rw [hrows'] at hi
        rw [heq]
        simp only
        by_cases hieq : i = len
        · subst hieq
          rw [getD_append_last, usedAt_append_single, if_pos hnlrow, husedempty]
          ext x
          simp
        · rw [getD_append_left ∅ _ _ _ (by omega), usedAt_append_single,
            if_neg (by rw [hnlrow]; omega)]
          exact h2 i (by omega)
      have h3' : ∀ l ∈ placed ++ [nl], ∃ i,
          i < (placeTransposition startRow st col).rows.length ∧
          l.row = ((startRow + i : Nat) : Int) := by
        intro l hl
        rw [hrows']
        rcases List.mem_append.mp hl with h | h
        · obtain ⟨i, hi, hr⟩ := h3 l h
          exact ⟨i, by omega, hr⟩
        · rw [List.mem_singleton] at h
          subst h
          exact ⟨len, by omega, rfl⟩
      have h4' : ∀ r : Int, (rowLines (placed ++ [nl]) r).Pairwise
          (fun a b => Disjoint (touches a) (touches b)) := by
        intro r
        rw [rowLines_append, rowLines_single]
        by_cases hr : nl.row = r
        · rw [if_pos hr]
          have hempty : rowLines placed r = [] := by
            apply rowLines_of_no_row
            intro l hl
            obtain ⟨i, hi, hrl⟩ := h3 l hl
            rw [hrl, ← hr, hnlrow]
            omega
          rw [hempty, List.nil_append]
          exact List.pairwise_singleton _ _
        · rw [if_neg hr, List.append_nil]
          exact h4 r
      have h5' : ((placed ++ [nl]).map HLine.row).Pairwise (· ≤ ·) := by
        rw [List.map_append, List.pairwise_append]
        refine ⟨h5, List.pairwise_singleton _ _, ?_⟩
        intro a ha b hb
        rw [List.map_singleton, List.mem_singleton] at hb
        subst hb
        rw [List.mem_map] at ha
        obtain ⟨l, hl, he⟩ := ha
        rw [← he, hnlrow]
        have := h6 l hl
        have hcast : ((startRow + st.minRowIdx : Nat) : Int) ≤
            ((startRow + len : Nat) : Int) := by omega
        exact le_trans this hcast
      have h6' : ∀ l ∈ placed ++ [nl],
          l.row ≤ ((startRow + (placeTransposition startRow st col).minRowIdx : Nat) : Int) := by
        intro l hl
        rw [heq]
        simp only
        rcases List.mem_append.mp hl with h | h
        · have := h6 l h
          have hcast : ((startRow + st.minRowIdx : Nat) : Int) ≤
              ((startRow + len : Nat) : Int) := by omega
          exact le_trans this hcast
        · rw [List.mem_singleton] at h
          subst h
          rw [hnlrow]
      obtain ⟨q', e1, e2, e3, e4, e5, e6, e7⟩ :=
        ih (placeTransposition startRow st col) (placed ++ [nl]) h1' h2' h3' h4' h5' h6'
      have hpq : placed ++ nl :: q' = (placed ++ [nl]) ++ q' :=
        (List.append_assoc placed [nl] q').symm
      refine ⟨nl :: q', ?_, ?_, ?_, ?_, ?_, ?_, ?_⟩
      · rw [e1, heq]
        simp only
        rw [List.append_assoc]
        rfl
      · rw [List.map_cons, e2, List.map_cons]
      · rw [hpq]
        exact e3
      · intro r
        rw [hpq]
        exact e4 r
      · intro l hl
        rw [hpq] at hl
        exact e5 l hl
      · rw [hrows'] at e6
        omega
      · intro c
        rw [hpq, e7 c, hrows', applyTransList_cons]
        congr 1
        exact traceRows_place_new placed startRow len col h3 c

theorem addAdjustmentLines_spec (lines : List HLine) (ts : List Nat)
    (startRow numColumns : Nat) :
    ∃ (q : List HLine) (count : Nat),
      (addAdjustmentLines lines ts startRow numColumns).1 = lines ++ q ∧
      q.map HLine.fromColumn = ts.map (fun t : Nat => (t : Int)) ∧
      ((q.map HLine.row).Pairwise (· ≤ ·)) ∧
      (∀ r : Int, (rowLines q r).Pairwise (fun a b => Disjoint (touches a) (touches b))) ∧
      (∀ l ∈ q, ∃ i, i < count ∧ l.row = ((startRow + i : Nat) : Int)) ∧
      (addAdjustmentLines lines ts startRow numColumns).2 = startRow + max 1 count ∧
      (∀ c : Int, traceRows q startRow count c = applyTransList ts c) := by
  obtain ⟨q, e1, e2, e3, e4, e5, e6, e7⟩ :=
    placer_inv startRow ts ⟨lines, [], 0⟩ []
      (Or.inr ⟨rfl, rfl⟩)
      (fun i hi => absurd hi (by simp))
      (fun l hl => absurd hl (List.not_mem_nil l))
      (fun r => List.Pairwise.nil)
      List.Pairwise.nil
      (fun l hl => absurd hl (List.not_mem_nil l))
  refine ⟨q, (ts.foldl (placeTransposition startRow) ⟨lines, [], 0⟩).rows.length,
    e1, e2, ?_, ?_, ?_, rfl, ?_⟩
  · have h := e3
    rw [List.nil_append] at h
    exact h
  · intro r
    have h := e4 r
    rw [List.nil_append] at h
    exact h
  · intro l hl
    have h := e5 l (by rw [List.nil_append]; exact hl)
    exact h
  · intro c
    have h := e7 c
    rw [List.nil_append] at h
    exact h

/-- C6: for every rung list, transposition list, starting row and column
count, `addAdjustmentLines` appends exactly one rung per transposition, in
emission order (the k-th appended rung realises the k-th transposition), and
the appended rungs have non-decreasing row indices: a later transposition is
never placed in an earlier row than an earlier one. -/
theorem addAdjustmentLines_row_order (lines : List HLine) (ts : List Nat)
    (startRow numColumns : Nat) :
    ∃ q : List HLine,
      (addAdjustmentLines lines ts startRow numColumns).1 = lines ++ q ∧
      q.map HLine.fromColumn = ts.map (fun t : Nat => (t : Int)) ∧
      ∀ i j (hi : i < q.length) (hj : j < q.length), i < j → q[i].row ≤ q[j].row := by
  obtain ⟨q, count, a1, a2, a3, a4, a5, a6, a7⟩ :=
    addAdjustmentLines_spec lines ts startRow numColumns
  refine ⟨q, a1, a2, ?_⟩
  intro i j hi hj hij
  have h := List.pairwise_map.mp a3
  exact List.pairwise_iff_getElem.mp h i j hi hj hij

theorem applyTrans_applyTrans (t : Nat) (c : Int) :
    applyTrans t (applyTrans t c) = c := by
  simp only [applyTrans]
  split_ifs <;> omega

theorem usedAt_append (A B : List HLine) (r : Int) :
    usedAt (A ++ B) r = usedAt A r ∪ usedAt B r := by
  apply Finset.ext
  intro c
  rw [Finset.mem_union, mem_usedAt, mem_usedAt, mem_usedAt]
  constructor
  · rintro ⟨l, hl, hr, hor⟩
    rcases List.mem_append.mp hl with h | h
    · exact Or.inl ⟨l, h, hr, hor⟩
    · exact Or.inr ⟨l, h, hr, hor⟩
  · rintro (⟨l, hl, hr, hor⟩ | ⟨l, hl, hr, hor⟩)
    · exact ⟨l, List.mem_append_left B hl, hr, hor⟩
    · exact ⟨l, List.mem_append_right A hl, hr, hor⟩

theorem decorPairs_row_mem (row : Nat) (cols : List Nat) (l : HLine)
    (hl : l ∈ decorPairs row cols) :
    l.row = ((row : Nat) : Int) ∨ l.row = ((row + 1 : Nat) : Int) := by
  rw [decorPairs, List.mem_flatMap] at hl
  obtain ⟨t, ht, hm⟩ := hl
  rcases List.mem_cons.mp hm with he | hm'
  · subst he
    exact Or.inl rfl
  · rw [List.mem_singleton] at hm'
    subst hm'
    exact Or.inr rfl

theorem rowLines_cons (l : HLine) (L : List HLine) (r : Int) :
    rowLines (l :: L) r = if l.row = r then l :: rowLines L r else rowLines L r := by
  by_cases h : l.row = r
  · simp [rowLines, List.filter_cons, h]
  · simp [rowLines, List.filter_cons, h]

theorem rowLines_decorPairs_fst (row : Nat) :
    ∀ cols, rowLines (decorPairs row cols) ((row : Nat) : Int) =
      colRungs ((row : Nat) : Int) cols := by
  intro cols
  induction cols with
  | nil => rfl
  | cons t cs ih =>
    show rowLines ((⟨(t : Int), ((row : Nat) : Int)⟩ : HLine)
        :: (⟨(t : Int), ((row + 1 : Nat) : Int)⟩ : HLine) :: decorPairs row cs) _ = _
    rw [rowLines_cons, rowLines_cons, ih]
    rw [if_pos rfl, if_neg (by show ¬(((row + 1 : Nat) : Int) = ((row : Nat) : Int)); omega)]
    rfl

theorem rowLines_decorPairs_snd (row : Nat) :
    ∀ cols, rowLines (decorPairs row cols) ((row + 1 : Nat) : Int) =
      colRungs ((row + 1 : Nat) : Int) cols := by
  intro cols
  induction cols with
  | nil => rfl
  | cons t cs ih =>
    show rowLines ((⟨(t : Int), ((row : Nat) : Int)⟩ : HLine)
        :: (⟨(t : Int), ((row + 1 : Nat) : Int)⟩ : HLine) :: decorPairs row cs) _ = _
    rw [rowLines_cons, rowLines_cons, ih]
    rw [if_neg (by show ¬(((row : Nat) : Int) = ((row + 1 : Nat) : Int)); omega), if_pos rfl]
    rfl

theorem rowLines_decorPairs_other (row : Nat) (cols : List Nat) (r : Int)
    (h1 : r ≠ ((row : Nat) : Int)) (h2 : r ≠ ((row + 1 : Nat) : Int)) :
    rowLines (decorPairs row cols) r = [] := by
  apply rowLines_of_no_row
  intro l hl
  rcases decorPairs_row_mem row cols l hl with h | h <;> rw [h]
  · exact fun he => h1 he.symm
  · exact fun he => h2 he.symm

theorem hitsRow_colRungs (r : Int) (cols : List Nat) (c : Int) :
    hitsRow (colRungs r cols) c ↔
      ∃ t : Nat, t ∈ cols ∧ (c = (t : Int) ∨ c = (t : Int) + 1) := by
  rw [hitsRow]
  constructor
  · rintro ⟨l, hl, hor⟩
    rw [colRungs, List.mem_map] at hl
    obtain ⟨t, ht, he⟩ := hl
    subst he
    refine ⟨t, ht, ?_⟩
    simp only at hor
    rcases hor with h | h
    · exact Or.inl h.symm
    · right
      omega
  · rintro ⟨t, ht, hor⟩
    refine ⟨⟨(t : Int), r⟩, ?_, ?_⟩
    · rw [colRungs, List.mem_map]
      exact ⟨t, ht, rfl⟩
    · simp only
      rcases hor with h | h
      · exact Or.inl h.symm
      · right
        omega

theorem stepRow_colRungs (r : Int) :
    ∀ (cols : List Nat) (c : Int) (t0 : Nat), cols.Pairwise decorApart → t0 ∈ cols →
      (c = (t0 : Int) ∨ c = (t0 : Int) + 1) →
      stepRow (colRungs r cols) c = applyTrans t0 c := by
  intro cols
  induction cols with
  | nil =>
    intro c t0 _ ht0 _
    exact absurd ht0 (List.not_mem_nil t0)
  | cons a cs ih =>
    intro c t0 hpw ht0 hc
    have hstep : stepRow (colRungs r (a :: cs)) c =
        if (a : Int) = c then c + 1
        else if (a : Int) = c - 1 then c - 1
        else stepRow (colRungs r cs) c := rfl
    rcases List.mem_cons.mp ht0 with he | hm
    · subst he
      rw [hstep, applyTrans]
      split_ifs <;> omega
    · have hap : t0 ≠ a ∧ t0 ≠ a + 1 ∧ t0 + 1 ≠ a :=
        (List.pairwise_cons.mp hpw).1 t0 hm
      have g1 : ¬((a : Int) = c) := by omega
      have g2 : ¬((a : Int) = c - 1) := by omega
      rw [hstep, if_neg g1, if_neg g2]
      exact ih c t0 (List.pairwise_cons.mp hpw).2 hm hc

theorem two_row_neutral (A B : List HLine) (r r' : Int) (cols : List Nat)
    (hpw : cols.Pairwise decorApart)
    (hA : ∀ t ∈ cols, (t : Int) ∉ allTouched A ∧ (t : Int) + 1 ∉ allTouched A)
    (hB : ∀ t ∈ cols, (t : Int) ∉ allTouched B ∧ (t : Int) + 1 ∉ allTouched B) :
    ∀ c, stepRow (B ++ colRungs r' cols) (stepRow (A ++ colRungs r cols) c) =
      stepRow B (stepRow A c) := by
  intro c
  rw [stepRow_append, stepRow_append]
  by_cases hAc : hitsRow A c
  · rw [if_pos hAc]
    have hc1m : stepRow A c ∈ allTouched A := stepRow_mem_touched A c hAc
    by_cases hBc : hitsRow B (stepRow A c)
    · rw [if_pos hBc]
    · rw [if_neg hBc, stepRow_no_hit B _ hBc]
      apply stepRow_no_hit
      rw [hitsRow_colRungs]
      rintro ⟨t, ht, hor⟩
      rcases hor with h | h
      · rw [h] at hc1m
        exact (hA t ht).1 hc1m
      · rw [h] at hc1m
        exact (hA t ht).2 hc1m
  · rw [if_neg hAc, stepRow_no_hit A c hAc]
    by_cases hD : hitsRow (colRungs r cols) c
    · obtain ⟨t0, ht0, hor⟩ := (hitsRow_colRungs r cols c).mp hD
      rw [stepRow_colRungs r cols c t0 hpw ht0 hor]
      have hc2 : applyTrans t0 c = (t0 : Int) ∨ applyTrans t0 c = (t0 : Int) + 1 := by
        rw [applyTrans]
        split_ifs <;> omega
      have hBnot : ¬hitsRow B (applyTrans t0 c) := by
        rw [hitsRow_iff_mem]
        rcases hc2 with h | h <;> rw [h]
        · exact (hB t0 ht0).1
        · exact (hB t0 ht0).2
      rw [if_neg hBnot, stepRow_colRungs r' cols _ t0 hpw ht0 hc2, applyTrans_applyTrans]
      have hBc : ¬hitsRow B c := by
        rw [hitsRow_iff_mem]
        rcases hor with h | h <;> rw [h]
        · exact (hB t0 ht0).1
        · exact (hB t0 ht0).2
      rw [stepRow_no_hit B c hBc]
    · rw [stepRow_no_hit _ c hD]
      by_cases hBc : hitsRow B c
      · rw [if_pos hBc]
      · rw [if_neg hBc, stepRow_no_hit B c hBc]
        apply stepRow_no_hit
        rw [hitsRow_colRungs]
        rintro ⟨t, ht, hor⟩
        exact hD ((hitsRow_colRungs r cols c).mpr ⟨t, ht, hor⟩)

theorem traceRows_add (L : List HLine) (s a : Nat) :
    ∀ (b : Nat) (c : Int),
      traceRows L s (a + b) c = traceRows L (s + a) b (traceRows L s a c) := by
  intro b
  induction b with
  | zero => intro c; rfl
  | succ k ih =>
    intro c
    have h1 : a + (k + 1) = (a + k) + 1 := rfl
    rw [h1, traceRows_succ, traceRows_succ, ih]
    have h2 : s + (a + k) = s + a + k := by omega
    rw [h2]

theorem fillBlock_fold (rand : Nat → Nat → Bool) (row : Nat) :
    ∀ (cs : List Nat) (acc : List HLine) (s1 s2 : Finset Int),
      ∃ cols : List Nat,
        (cs.foldl (fillStep rand row) (acc, s1, s2)).1 = acc ++ decorPairs row cols ∧
        (∀ t ∈ cols, (t : Int) ∉ s1 ∧ (t : Int) + 1 ∉ s1 ∧
          (t : Int) ∉ s2 ∧ (t : Int) + 1 ∉ s2) ∧
        cols.Pairwise decorApart := by
  intro cs
  induction cs with
  | nil =>
    intro acc s1 s2
    exact ⟨[], (List.append_nil acc).symm,
      fun t ht => absurd ht (List.not_mem_nil t), List.Pairwise.nil⟩
  | cons col cs' ih =>
    intro acc s1 s2
    rw [List.foldl_cons]
    have hstep : fillStep rand row (acc, s1, s2) col =
        if (col : Int) ∈ s1 ∨ ((col : Int) + 1) ∈ s1 then (acc, s1, s2)
        else if (col : Int) ∈ s2 ∨ ((col : Int) + 1) ∈ s2 then (acc, s1, s2)
        else if rand row col then
          (acc ++ [⟨(col : Int), (row : Int)⟩, ⟨(col : Int), ((row : Nat) + 1 : Nat)⟩],
           insert (col : Int) (insert ((col : Int) + 1) s1),
           insert (col : Int) (insert ((col : Int) + 1) s2))
        else (acc, s1, s2) := rfl
    rw [hstep]
    by_cases g1 : (col : Int) ∈ s1 ∨ ((col : Int) + 1) ∈ s1
    · rw [if_pos g1]
      exact ih acc s1 s2
    · rw [if_neg g1]
      by_cases g2 : (col : Int) ∈ s2 ∨ ((col : Int) + 1) ∈ s2
      · rw [if_pos g2]
        exact ih acc s1 s2
      · rw [if_neg g2]
        by_cases g3 : rand row col
        · rw [if_pos g3]
          obtain ⟨cols', e1, e2, e3⟩ :=
            ih (acc ++ [⟨(col : Int), (row : Int)⟩, ⟨(col : Int), ((row : Nat) + 1 : Nat)⟩])
              (insert (col : Int) (insert ((col : Int) + 1) s1))
              (insert (col : Int) (insert ((col : Int) + 1) s2))
          refine ⟨col :: cols', ?_, ?_, ?_⟩
          · rw [e1, List.append_assoc]
            rfl
          · intro t ht
            rcases List.mem_cons.mp ht with he | hm
            · subst he
              exact ⟨fun h => g1 (Or.inl h), fun h => g1 (Or.inr h),
                fun h => g2 (Or.inl h), fun h => g2 (Or.inr h)⟩
            · obtain ⟨f1, f2, f3, f4⟩ := e2 t hm
              refine ⟨?_, ?_, ?_, ?_⟩
              · exact fun h => f1 (Finset.mem_insert_of_mem (Finset.mem_insert_of_mem h))
              · exact fun h => f2 (Finset.mem_insert_of_mem (Finset.mem_insert_of_mem h))
              · exact fun h => f3 (Finset.mem_insert_of_mem (Finset.mem_insert_of_mem h))
              · exact fun h => f4 (Finset.mem_insert_of_mem (Finset.mem_insert_of_mem h))
          · rw [List.pairwise_cons]
            refine ⟨?_, e3⟩
            intro b hb
            obtain ⟨f1, f2, f3, f4⟩ := e2 b hb
            rw [Finset.mem_insert, Finset.mem_insert] at f1 f2
            have n1 : (b : Int) ≠ (col : Int) := fun h => f1 (Or.inl h)
            have n2 : (b : Int) ≠ (col : Int) + 1 := fun h => f1 (Or.inr (Or.inl h))
            have n3 : (b : Int) + 1 ≠ (col : Int) := fun h => f2 (Or.inl h)
            show b ≠ col ∧ b ≠ col + 1 ∧ b + 1 ≠ col
            refine ⟨?_, ?_, ?_⟩ <;> omega
        · rw [if_neg g3]
          exact ih acc s1 s2

theorem fillBlock_spec (rand : Nat → Nat → Bool) (row numColumns : Nat)
    (u1 u2 : Finset Int) :
    ∃ cols : List Nat,
      fillBlock rand row numColumns u1 u2 = decorPairs row cols ∧
      (∀ t ∈ cols, (t : Int) ∉ u1 ∧ (t : Int) + 1 ∉ u1 ∧
        (t : Int) ∉ u2 ∧ (t : Int) + 1 ∉ u2) ∧
      cols.Pairwise decorApart := by
  obtain ⟨cols, e1, e2, e3⟩ :=
    fillBlock_fold rand row (List.range (numColumns - 1)) [] u1 u2
  refine ⟨cols, ?_, e2, e3⟩
  rw [fillBlock, e1, List.nil_append]

theorem single_block_neutral (M : List HLine) (numRows row : Nat) (cols : List Nat)
    (hrow : row + 1 < numRows)
    (hpw : cols.Pairwise decorApart)
    (havoid : ∀ t ∈ cols,
      (t : Int) ∉ usedAt M ((row : Nat) : Int) ∧
      (t : Int) + 1 ∉ usedAt M ((row : Nat) : Int) ∧
      (t : Int) ∉ usedAt M ((row + 1 : Nat) : Int) ∧
      (t : Int) + 1 ∉ usedAt M ((row + 1 : Nat) : Int)) :
    ∀ c, traceRows (M ++ decorPairs row cols) 0 numRows c = traceRows M 0 numRows c := by
  intro c
  obtain ⟨k, hk⟩ : ∃ k, numRows = row + (2 + k) := ⟨numRows - row - 2, by omega⟩
  rw [hk]
  rw [traceRows_add (M ++ decorPairs row cols) 0 row (2 + k) c,
    traceRows_add M 0 row (2 + k) c]
  have hz : 0 + row = row := by omega
  rw [hz]
  have hpre : traceRows (M ++ decorPairs row cols) 0 row c = traceRows M 0 row c := by
    apply traceRows_congr
    intro i hi
    rw [rowLines_append,
      rowLines_decorPairs_other row cols _ (by omega) (by omega), List.append_nil]
  rw [hpre]
  rw [traceRows_add (M ++ decorPairs row cols) row 2 k (traceRows M 0 row c),
    traceRows_add M row 2 k (traceRows M 0 row c)]
  have e1 : ∀ (N : List HLine) (x : Int), traceRows N row 2 x =
      stepRow (rowLines N ((row + 1 : Nat) : Int))
        (stepRow (rowLines N ((row : Nat) : Int)) x) := by
    intro N x
    rw [traceRows_succ, traceRows_succ, traceRows_zero]
    have hz2 : row + 0 = row := rfl
    rw [hz2]
  have hmid : traceRows (M ++ decorPairs row cols) row 2 (traceRows M 0 row c) =
      traceRows M row 2 (traceRows M 0 row c) := by
    rw [e1, e1, rowLines_append, rowLines_append,
      rowLines_decorPairs_fst, rowLines_decorPairs_snd]
    have hA : ∀ t ∈ cols,
        (t : Int) ∉ allTouched (rowLines M ((row : Nat) : Int)) ∧
        (t : Int) + 1 ∉ allTouched (rowLines M ((row : Nat) : Int)) := by
      intro t ht
      rw [← usedAt_eq_allTouched]
      exact ⟨(havoid t ht).1, (havoid t ht).2.1⟩
    have hB : ∀ t ∈ cols,
        (t : Int) ∉ allTouched (rowLines M ((row + 1 : Nat) : Int)) ∧
        (t : Int) + 1 ∉ allTouched (rowLines M ((row + 1 : Nat) : Int)) := by
      intro t ht
      rw [← usedAt_eq_allTouched]
      exact ⟨(havoid t ht).2.2.1, (havoid t ht).2.2.2⟩
    exact two_row_neutral (rowLines M ((row : Nat) : Int))
      (rowLines M ((row + 1 : Nat) : Int)) ((row : Nat) : Int) ((row + 1 : Nat) : Int)
      cols hpw hA hB (traceRows M 0 row c)
  rw [hmid]
  apply traceRows_congr
  intro i hi
  rw [rowLines_append,
    rowLines_decorPairs_other row cols _ (by omega) (by omega), List.append_nil]

theorem neutral_blocks (numRows : Nat) (G : Nat → List HLine) :
    ∀ (rs : List Nat) (lines : List HLine),
      rs.Pairwise (fun a b => a + 2 ≤ b) →
      (∀ r ∈ rs, r + 1 < numRows) →
      (∀ r ∈ rs, ∃ cols : List Nat,
        G r = decorPairs r cols ∧
        cols.Pairwise decorApart ∧
        (∀ t ∈ cols,
          (t : Int) ∉ usedAt lines ((r : Nat) : Int) ∧
          (t : Int) + 1 ∉ usedAt lines ((r : Nat) : Int) ∧
          (t : Int) ∉ usedAt lines ((r + 1 : Nat) : Int) ∧
          (t : Int) + 1 ∉ usedAt lines ((r + 1 : Nat) : Int))) →
      ∀ c, traceRows (lines ++ rs.flatMap G) 0 numRows c = traceRows lines 0 numRows c := by
  intro rs
  induction rs with
  | nil =>
    intro lines _ _ _ c
    simp
  | cons r rs' ih =>
    intro lines hpw hlt hblocks c
    obtain ⟨cols, hG, hcpw, hav⟩ := hblocks r (List.mem_cons_self r rs')
    rw [List.flatMap_cons, hG, ← List.append_assoc]
    have hblocks' : ∀ r' ∈ rs', ∃ cols' : List Nat,
        G r' = decorPairs r' cols' ∧
        cols'.Pairwise decorApart ∧
        (∀ t ∈ cols',
          (t : Int) ∉ usedAt (lines ++ decorPairs r cols) ((r' : Nat) : Int) ∧
          (t : Int) + 1 ∉ usedAt (lines ++ decorPairs r cols) ((r' : Nat) : Int) ∧
          (t : Int) ∉ usedAt (lines ++ decorPairs r cols) ((r' + 1 : Nat) : Int) ∧
          (t : Int) + 1 ∉ usedAt (lines ++ decorPairs r cols) ((r' + 1 : Nat) : Int)) := by
      intro r' hr'
      obtain ⟨cols', hG', hcpw', hav'⟩ := hblocks r' (List.mem_cons_of_mem r hr')
      have hge : r + 2 ≤ r' := (List.pairwise_cons.mp hpw).1 r' hr'
      have hd1 : usedAt (decorPairs r cols) ((r' : Nat) : Int) = ∅ := by
        apply usedAt_of_no_row
        intro l hl
        rcases decorPairs_row_mem r cols l hl with h | h <;> rw [h] <;> omega
      have hd2 : usedAt (decorPairs r cols) ((r' + 1 : Nat) : Int) = ∅ := by
        apply usedAt_of_no_row
        intro l hl
        rcases decorPairs_row_mem r cols l hl with h | h <;> rw [h] <;> omega
      refine ⟨cols', hG', hcpw', ?_⟩
      intro t ht
      rw [usedAt_append, usedAt_append, hd1, hd2, Finset.union_empty, Finset.union_empty]
      exact hav' t ht
    rw [ih (lines ++ decorPairs r cols) (List.pairwise_cons.mp hpw).2
      (fun r' hr' => hlt r' (List.mem_cons_of_mem r hr')) hblocks' c]
    exact single_block_neutral lines numRows r cols (hlt r (List.mem_cons_self r rs'))
      hcpw hav c

theorem traceFrom_eq_traceRows (L : List HLine) (n : Nat) (x : Int) :
    traceFrom L n x = traceRows L 0 n x := by
  rw [traceFrom, traceRows]
  apply List.foldl_ext
  intro a b _
  have hz : 0 + b = b := by omega
  rw [hz]

theorem fill_mapping_eq (lines : List HLine) (numRows numColumns : Nat)
    (rand : Nat → Nat → Bool) :
    calculateMapping numColumns numRows (fillWithDecorativePairs lines numRows numColumns rand) =
      calculateMapping numColumns numRows lines := by
  rw [calculateMapping, calculateMapping]
  apply List.map_congr_left
  intro s _
  rw [traceFrom_eq_traceRows, traceFrom_eq_traceRows, fillWithDecorativePairs]
  have hsub : List.Sublist (decorRows numRows) (List.range numRows) := by
    rw [decorRows]
    exact List.filter_sublist _
  have hsorted : (decorRows numRows).Pairwise (fun a b => a + 2 ≤ b) := by
    have h1 : (List.range numRows).Pairwise (· < ·) := List.pairwise_lt_range numRows
    have h2 : (decorRows numRows).Pairwise (· < ·) := h1.sublist hsub
    apply List.Pairwise.imp_of_mem ?_ h2
    intro a b ha hb hlt
    rw [decorRows, List.mem_filter] at ha hb
    have ha2 : a % 2 = 1 := by
      have := ha.2
      simp only [Bool.and_eq_true, decide_eq_true_eq] at this
      exact this.1
    have hb2 : b % 2 = 1 := by
      have := hb.2
      simp only [Bool.and_eq_true, decide_eq_true_eq] at this
      exact this.1
    omega
  have hless : ∀ r ∈ decorRows numRows, r + 1 < numRows := by
    intro r hr
    rw [decorRows, List.mem_filter] at hr
    have := hr.2
    simp only [Bool.and_eq_true, decide_eq_true_eq] at this
    exact this.2
  apply neutral_blocks numRows _ (decorRows numRows) lines hsorted hless
  intro r _
  obtain ⟨cols, e1, e2, e3⟩ :=
    fillBlock_spec rand r numColumns (usedAt lines ((r : Nat) : Int))
      (usedAt lines ((r + 1 : Nat) : Int))
  exact ⟨cols, e1, e3, e2⟩

/-- C4: for every rung list, every `numRows` and every `numColumns`, the
mapping computed by `calculateMapping` after `fillWithDecorativePairs` equals
the mapping computed on the rung list before filling: the canceling pairs
placed by the decorative fill never alter the traced permutation. -/
theorem fillWithDecorativePairs_neutral (lines : List HLine) (numRows numColumns : Nat)
    (rand : Nat → Nat → Bool) :
    calculateMapping numColumns numRows (fillWithDecorativePairs lines numRows numColumns rand) =
      calculateMapping numColumns numRows lines :=
  fill_mapping_eq lines numRows numColumns rand

theorem TDisj_symm : Symmetric TDisj := by
  intro a b h hr
  exact (h hr.symm).symm

theorem touches_disjoint_of_apart (x y : HLine)
    (h1 : x.fromColumn ≠ y.fromColumn) (h2 : x.fromColumn ≠ y.fromColumn + 1)
    (h3 : x.fromColumn + 1 ≠ y.fromColumn) :
    Disjoint (touches x) (touches y) := by
  rw [Finset.disjoint_left]
  intro a ha hb
  rw [touches, Finset.mem_insert, Finset.mem_singleton] at ha hb
  rcases ha with h | h <;> rcases hb with h' | h' <;> omega

theorem disjoint_touches_of_avoid (m d : HLine) (s : Finset Int)
    (hm : touches m ⊆ s) (h1 : d.fromColumn ∉ s) (h2 : d.fromColumn + 1 ∉ s) :
    Disjoint (touches m) (touches d) := by
  rw [Finset.disjoint_right]
  intro a ha hb
  have has := hm hb
  rw [touches, Finset.mem_insert, Finset.mem_singleton] at ha
  rcases ha with h | h
  · rw [h] at has
    exact h1 has
  · rw [h] at has
    exact h2 has

theorem pairwise_TDisj_of_rowLines (L : List HLine)
    (h : ∀ r : Int, (rowLines L r).Pairwise (fun a b => Disjoint (touches a) (touches b))) :
    L.Pairwise TDisj := by
  induction L with
  | nil => exact List.Pairwise.nil
  | cons l L' ih =>
    rw [List.pairwise_cons]
    constructor
    · intro b hb
      intro hr
      have hl := h l.row
      rw [rowLines_cons, if_pos rfl] at hl
      have hbmem : b ∈ rowLines L' l.row := by
        rw [rowLines, List.mem_filter]
        exact ⟨hb, by simp [hr.symm]⟩
      exact (List.pairwise_cons.mp hl).1 b hbmem
    · apply ih
      intro r
      have hr := h r
      rw [rowLines_cons] at hr
      by_cases hc : l.row = r
      · rw [if_pos hc] at hr
        exact (List.pairwise_cons.mp hr).2
      · rw [if_neg hc] at hr
        exact hr

theorem decorPairs_mem (row : Nat) (cols : List Nat) (l : HLine)
    (hl : l ∈ decorPairs row cols) :
    ∃ t : Nat, t ∈ cols ∧ l.fromColumn = (t : Int) ∧
      (l.row = ((row : Nat) : Int) ∨ l.row = ((row + 1 : Nat) : Int)) := by
  rw [decorPairs, List.mem_flatMap] at hl
  obtain ⟨t, ht, hm⟩ := hl
  rcases List.mem_cons.mp hm with he | hm'
  · subst he
    exact ⟨t, ht, rfl, Or.inl rfl⟩
  · rw [List.mem_singleton] at hm'
    subst hm'
    exact ⟨t, ht, rfl, Or.inr rfl⟩

theorem decorPairs_TDisj (row : Nat) :
    ∀ cols : List Nat, cols.Pairwise decorApart → RowsNonOverlap (decorPairs row cols) := by
  intro cols
  induction cols with
  | nil =>
    intro _
    exact List.Pairwise.nil
  | cons t cs ih =>
    intro hpw
    have hcross : ∀ b ∈ decorPairs row cs, ∀ r : Int,
        TDisj (⟨(t : Int), r⟩ : HLine) b := by
      intro b hb r
      obtain ⟨t', ht', hfc, _⟩ := decorPairs_mem row cs b hb
      have hap : t' ≠ t ∧ t' ≠ t + 1 ∧ t' + 1 ≠ t :=
        (List.pairwise_cons.mp hpw).1 t' ht'
      intro _
      apply touches_disjoint_of_apart
      · show ((⟨(t : Int), r⟩ : HLine)).fromColumn ≠ b.fromColumn
        rw [hfc]
        show (t : Int) ≠ (t' : Int)
        omega
      · rw [hfc]
        show (t : Int) ≠ (t' : Int) + 1
        omega
      · rw [hfc]
        show (t : Int) + 1 ≠ (t' : Int)
        omega
    show List.Pairwise TDisj
      ((⟨(t : Int), ((row : Nat) : Int)⟩ : HLine)
        :: (⟨(t : Int), ((row + 1 : Nat) : Int)⟩ : HLine) :: decorPairs row cs)
    rw [List.pairwise_cons, List.pairwise_cons]
    refine ⟨?_, ?_, ih (List.pairwise_cons.mp hpw).2⟩
    · intro b hb
      rcases List.mem_cons.mp hb with he | hm
      · subst he
        intro hr
        exact absurd hr (by show ¬(((row : Nat) : Int) = ((row + 1 : Nat) : Int)); omega)
      · exact hcross b hm _
    · intro b hb
      exact hcross b hb _

theorem nonoverlap_decor_flatmap (G : Nat → List HLine) :
    ∀ (rs : List Nat) (lines : List HLine),
      rs.Pairwise (fun a b => a + 2 ≤ b) →
      (∀ r ∈ rs, ∃ cols : List Nat,
        G r = decorPairs r cols ∧
        cols.Pairwise decorApart ∧
        (∀ t ∈ cols,
          (t : Int) ∉ usedAt lines ((r : Nat) : Int) ∧
          (t : Int) + 1 ∉ usedAt lines ((r : Nat) : Int) ∧
          (t : Int) ∉ usedAt lines ((r + 1 : Nat) : Int) ∧
          (t : Int) + 1 ∉ usedAt lines ((r + 1 : Nat) : Int))) →
      RowsNonOverlap lines →
      RowsNonOverlap (lines ++ rs.flatMap G) := by
  intro rs
  induction rs with
  | nil =>
    intro lines _ _ h
    simpa using h
  | cons r rs' ih =>
    intro lines hpw hblocks h
    obtain ⟨cols, hG, hcpw, hav⟩ := hblocks r (List.mem_cons_self r rs')
    rw [List.flatMap_cons, hG, ← List.append_assoc]
    have hblocks' : ∀ r' ∈ rs', ∃ cols' : List Nat,
        G r' = decorPairs r' cols' ∧
        cols'.Pairwise decorApart ∧
        (∀ t ∈ cols',
          (t : Int) ∉ usedAt (lines ++ decorPairs r cols) ((r' : Nat) : Int) ∧
          (t : Int) + 1 ∉ usedAt (lines ++ decorPairs r cols) ((r' : Nat) : Int) ∧
          (t : Int) ∉ usedAt (lines ++ decorPairs r cols) ((r' + 1 : Nat) : Int) ∧
          (t : Int) + 1 ∉ usedAt (lines ++ decorPairs r cols) ((r' + 1 : Nat) : Int)) := by
      intro r' hr'
      obtain ⟨cols', hG', hcpw', hav'⟩ := hblocks r' (List.mem_cons_of_mem r hr')
      have hge : r + 2 ≤ r' := (List.pairwise_cons.mp hpw).1 r' hr'
      have hd1 : usedAt (decorPairs r cols) ((r' : Nat) : Int) = ∅ := by
        apply usedAt_of_no_row
        intro l hl
        rcases decorPairs_row_mem r cols l hl with hx | hx <;> rw [hx] <;> omega
      have hd2 : usedAt (decorPairs r cols) ((r' + 1 : Nat) : Int) = ∅ := by
        apply usedAt_of_no_row
        intro l hl
        rcases decorPairs_row_mem r cols l hl with hx | hx <;> rw [hx] <;> omega
      refine ⟨cols', hG', hcpw', ?_⟩
      intro t ht
      rw [usedAt_append, usedAt_append, hd1, hd2, Finset.union_empty, Finset.union_empty]
      exact hav' t ht
    apply ih (lines ++ decorPairs r cols) (List.pairwise_cons.mp hpw).2 hblocks'
    rw [RowsNonOverlap, List.pairwise_append]
    refine ⟨h, decorPairs_TDisj r cols hcpw, ?_⟩
    intro m hm d hd
    obtain ⟨t, ht, hfc, hrow⟩ := decorPairs_mem r cols d hd
    intro hr
    have hsub : touches m ⊆ usedAt lines d.row := by
      have := touches_subset_usedAt lines m hm
      rw [hr] at this
      exact this
    obtain ⟨f1, f2, f3, f4⟩ := hav t ht
    rcases hrow with hx | hx
    · apply disjoint_touches_of_avoid m d (usedAt lines d.row) hsub
      · rw [hfc, hx]
        exact f1
      · rw [hfc, hx]
        exact f2
    · apply disjoint_touches_of_avoid m d (usedAt lines d.row) hsub
      · rw [hfc, hx]
        exact f3
      · rw [hfc, hx]
        exact f4

theorem fillWithDecorativePairs_nonoverlap (M : List HLine) (numRows numColumns : Nat)
    (rand : Nat → Nat → Bool) (h : RowsNonOverlap M) :
    RowsNonOverlap (fillWithDecorativePairs M numRows numColumns rand) := by
  rw [fillWithDecorativePairs]
  have hsub : List.Sublist (decorRows numRows) (List.range numRows) := by
    rw [decorRows]
    exact List.filter_sublist _
  have hsorted : (decorRows numRows).Pairwise (fun a b => a + 2 ≤ b) := by
    have h1 : (List.range numRows).Pairwise (· < ·) := List.pairwise_lt_range numRows
    have h2 : (decorRows numRows).Pairwise (· < ·) := h1.sublist hsub
    apply List.Pairwise.imp_of_mem ?_ h2
    intro a b ha hb hlt
    rw [decorRows, List.mem_filter] at ha hb
    have ha2 : a % 2 = 1 := by
      have := ha.2
      simp only [Bool.and_eq_true, decide_eq_true_eq] at this
      exact this.1
    have hb2 : b % 2 = 1 := by
      have := hb.2
      simp only [Bool.and_eq_true, decide_eq_true_eq] at this
      exact this.1
    omega
  apply nonoverlap_decor_flatmap _ (decorRows numRows) M hsorted ?_ h
  intro r _
  obtain ⟨cols, e1, e2, e3⟩ :=
    fillBlock_spec rand r numColumns (usedAt M ((r : Nat) : Int))
      (usedAt M ((r + 1 : Nat) : Int))
  exact ⟨cols, e1, e3, e2⟩

theorem nonoverlap_flatmap_rows (F : Nat → List HLine)
    (hF : ∀ r, (F r).Pairwise (fun a b => Disjoint (touches a) (touches b)))
    (hrow : ∀ r, ∀ l ∈ F r, l.row = (r : Int)) :
    ∀ rs : List Nat, rs.Pairwise (· ≠ ·) → RowsNonOverlap (rs.flatMap F) := by
  intro rs
  induction rs with
  | nil =>
    intro _
    exact List.Pairwise.nil
  | cons r rs' ih =>
    intro hpw
    rw [List.flatMap_cons, RowsNonOverlap, List.pairwise_append]
    refine ⟨?_, ih (List.pairwise_cons.mp hpw).2, ?_⟩
    · apply List.Pairwise.imp ?_ (hF r)
      intro a b hd
      intro _
      exact hd
    · intro a ha b hb
      rw [List.mem_flatMap] at hb
      obtain ⟨r', hr', hb'⟩ := hb
      intro hr
      exfalso
      have h1 : a.row = (r : Int) := hrow r a ha
      have h2 : b.row = (r' : Int) := hrow r' b hb'
      have hne : r ≠ r' := (List.pairwise_cons.mp hpw).1 r' hr'
      rw [h1, h2] at hr
      omega

theorem generateRandomLines_nonoverlap (numColumns numRows : Nat)
    (rand : Nat → Nat → Bool) :
    RowsNonOverlap (generateRandomLines numColumns numRows rand) := by
  rw [generateRandomLines]
  apply nonoverlap_flatmap_rows
  · intro r
    exact (naturalRow_spec rand r numColumns).2
  · intro r l hl
    exact ((naturalRow_spec rand r numColumns).1 l hl).1
  · exact List.nodup_range' _ _

theorem addAdjustmentLines_nonoverlap (lines : List HLine) (ts : List Nat)
    (startRow numColumns : Nat) (h : RowsNonOverlap lines)
    (hrows : ∀ l ∈ lines, l.row < (startRow : Int)) :
    RowsNonOverlap (addAdjustmentLines lines ts startRow numColumns).1 := by
  obtain ⟨q, count, a1, a2, a3, a4, a5, a6, a7⟩ :=
    addAdjustmentLines_spec lines ts startRow numColumns
  rw [a1, RowsNonOverlap, List.pairwise_append]
  refine ⟨h, pairwise_TDisj_of_rowLines q a4, ?_⟩
  intro a ha b hb
  intro hr
  exfalso
  obtain ⟨i, _, hbr⟩ := a5 b hb
  have := hrows a ha
  rw [hr, hbr] at this
  omega

theorem sortLines_nonoverlap (L : List HLine) (h : RowsNonOverlap L) :
    RowsNonOverlap (sortLines L) := by
  rw [sortLines]
  have hp : List.Perm (L.mergeSort
      (fun a b => decide (a.row < b.row ∨ (a.row = b.row ∧ a.fromColumn ≤ b.fromColumn)))) L :=
    List.mergeSort_perm L _
  exact (hp.pairwise_iff (fun hab => TDisj_symm hab)).mpr h

/-- C5: every rung list returned by `generate` (natural, adjustment and
decorative rungs combined, in the sorted `horizontalLines` field) satisfies
row non-overlap: two distinct rungs that share a row touch disjoint column
pairs `\x7bfromColumn, fromColumn + 1\x7d`. -/
theorem generate_rows_nonoverlap (participants results : List String)
    (randFy : Nat → Nat) (randLines randFill : Nat → Nat → Bool) :
    RowsNonOverlap (generate participants results randFy randLines randFill).horizontalLines := by
  apply sortLines_nonoverlap
  apply fillWithDecorativePairs_nonoverlap
  apply addAdjustmentLines_nonoverlap
  · exact generateRandomLines_nonoverlap _ _ _
  · intro l hl
    obtain ⟨row, h1, h2, hmem⟩ := mem_generateRandomLines _ _ _ l hl
    have hr : l.row = (row : Int) := ((naturalRow_spec randLines row _).1 l hmem).1
    rw [hr]
    omega

theorem sortLines_perm (L : List HLine) : (sortLines L).Perm L := by
  rw [sortLines]
  exact List.mergeSort_perm L _

theorem rowLines_pairwise_disjoint (L : List HLine) (h : RowsNonOverlap L) (r : Int) :
    (rowLines L r).Pairwise (fun a b => Disjoint (touches a) (touches b)) := by
  have hsub : List.Sublist (rowLines L r) L := by
    rw [rowLines]
    exact List.filter_sublist L
  have hs : (rowLines L r).Pairwise TDisj := h.sublist hsub
  apply List.Pairwise.imp_of_mem ?_ hs
  intro a b ha hb hab
  apply hab
  rw [rowLines, List.mem_filter] at ha hb
  have hra : a.row = r := by simpa using ha.2
  have hrb : b.row = r := by simpa using hb.2
  rw [hra, hrb]

theorem stepRow_eq_of_mem :
    ∀ (F : List HLine) (l : HLine) (c : Int),
      F.Pairwise (fun a b => Disjoint (touches a) (touches b)) → l ∈ F →
      (l.fromColumn = c ∨ l.fromColumn = c - 1) →
      stepRow F c = if l.fromColumn = c then c + 1 else c - 1 := by
  intro F
  induction F with
  | nil =>
    intro l c _ hl _
    exact absurd hl (List.not_mem_nil l)
  | cons a F' ih =>
    intro l c hpw hl hor
    rcases List.mem_cons.mp hl with he | hm
    · subst he
      rw [stepRow]
      rcases hor with h | h
      · rw [if_pos h, if_pos h]
      · have hne : ¬(l.fromColumn = c) := by omega
        rw [if_neg hne, if_pos h, if_neg hne]
    · have hd : Disjoint (touches a) (touches l) := (List.pairwise_cons.mp hpw).1 l hm
      have hcl : c ∈ touches l := by
        rw [touches, Finset.mem_insert, Finset.mem_singleton]
        rcases hor with h | h
        · exact Or.inl h.symm
        · right
          omega
      have hca := (Finset.disjoint_right.mp hd) hcl
      rw [touches, Finset.mem_insert, Finset.mem_singleton] at hca
      have g1 : ¬(a.fromColumn = c) := fun h => hca (Or.inl h.symm)
      have g2 : ¬(a.fromColumn = c - 1) := fun h => hca (Or.inr (by omega))
      rw [stepRow, if_neg g1, if_neg g2]
      exact ih l c (List.pairwise_cons.mp hpw).2 hm hor

theorem stepRow_perm (F F' : List HLine) (hperm : F.Perm F')
    (hpw : F.Pairwise (fun a b => Disjoint (touches a) (touches b))) (c : Int) :
    stepRow F c = stepRow F' c := by
  have hpw' : F'.Pairwise (fun a b => Disjoint (touches a) (touches b)) :=
    (hperm.pairwise_iff (fun hab => hab.symm)).mp hpw
  by_cases hh : hitsRow F c
  · obtain ⟨l, hl, hor⟩ := hh
    rw [stepRow_eq_of_mem F l c hpw hl hor,
      stepRow_eq_of_mem F' l c hpw' (hperm.mem_iff.mp hl) hor]
  · have hh' : ¬hitsRow F' c := by
      intro hx
      obtain ⟨l, hl, hor⟩ := hx
      exact hh ⟨l, hperm.mem_iff.mpr hl, hor⟩
    rw [stepRow_no_hit F c hh, stepRow_no_hit F' c hh']

theorem stepRow_invol :
    ∀ (F : List HLine), F.Pairwise (fun a b => Disjoint (touches a) (touches b)) →
      ∀ c, stepRow F (stepRow F c) = c := by
  intro F
  induction F with
  | nil => intro _ c; rfl
  | cons a F' ih =>
    intro hpw c
    by_cases h1 : a.fromColumn = c
    · have hinner : stepRow (a :: F') c = c + 1 := by rw [stepRow, if_pos h1]
      rw [hinner, stepRow, if_neg (by omega), if_pos (by omega)]
      omega
    · by_cases h2 : a.fromColumn = c - 1
      · have hinner : stepRow (a :: F') c = c - 1 := by rw [stepRow, if_neg h1, if_pos h2]
        rw [hinner, stepRow, if_pos (by omega)]
        omega
      · have hinner : stepRow (a :: F') c = stepRow F' c := by
          rw [stepRow, if_neg h1, if_neg h2]
        rw [hinner]
        by_cases hh : hitsRow F' c
        · have hc' : stepRow F' c ∈ allTouched F' := stepRow_mem_touched F' c hh
          rw [mem_allTouched] at hc'
          obtain ⟨b, hb, hbor⟩ := hc'
          have hd : Disjoint (touches a) (touches b) := (List.pairwise_cons.mp hpw).1 b hb
          have hcb : stepRow F' c ∈ touches b := by
            rw [touches, Finset.mem_insert, Finset.mem_singleton]
            exact hbor
          have hca := (Finset.disjoint_right.mp hd) hcb
          rw [touches, Finset.mem_insert, Finset.mem_singleton] at hca
          have g1 : ¬(a.fromColumn = stepRow F' c) := fun h => hca (Or.inl h.symm)
          have g2 : ¬(a.fromColumn = stepRow F' c - 1) := fun h => hca (Or.inr (by omega))
          rw [stepRow, if_neg g1, if_neg g2]
          exact ih (List.pairwise_cons.mp hpw).2 c
        · rw [stepRow_no_hit F' c hh, stepRow, if_neg h1, if_neg h2,
            stepRow_no_hit F' c hh]

theorem stepRow_inj (F : List HLine)
    (hpw : F.Pairwise (fun a b => Disjoint (touches a) (touches b)))
    (x y : Int) (h : stepRow F x = stepRow F y) : x = y := by
  have hx := stepRow_invol F hpw x
  have hy := stepRow_invol F hpw y
  rw [← hx, h, hy]

theorem calculateMapping_congr_perm (L L' : List HLine) (hp : L.Perm L')
    (h : RowsNonOverlap L) (nc rows : Nat) :
    calculateMapping nc rows L = calculateMapping nc rows L' := by
  rw [calculateMapping, calculateMapping]
  apply List.map_congr_left
  intro s _
  rw [traceFrom, traceFrom]
  apply List.foldl_ext
  intro a b _
  exact stepRow_perm (rowLines L (b : Int)) (rowLines L' (b : Int)) (hp.filter _)
    (rowLines_pairwise_disjoint L h (b : Int)) a

theorem traceRows_no_rows (L : List HLine) (s : Nat) :
    ∀ (k : Nat), (∀ i, i < k → rowLines L ((s + i : Nat) : Int) = []) →
      ∀ c, traceRows L s k c = c := by
  intro k
  induction k with
  | zero => intro _ c; rfl
  | succ k' ih =>
    intro h c
    rw [traceRows_succ, ih (fun i hi => h i (by omega)) c, h k' (by omega)]
    rfl

theorem trace_decompose (nat q : List HLine) (br count rows : Nat)
    (hnat : ∀ l ∈ nat, l.row < (br : Int))
    (hq : ∀ l ∈ q, ∃ i, i < count ∧ l.row = ((br + i : Nat) : Int))
    (hle : br + count ≤ rows) (c : Int) :
    traceRows (nat ++ q) 0 rows c = traceRows q br count (traceRows nat 0 br c) := by
  obtain ⟨k, hk⟩ : ∃ k, rows = br + (count + k) := ⟨rows - br - count, by omega⟩
  rw [hk, traceRows_add (nat ++ q) 0 br (count + k) c]
  have hz : 0 + br = br := by omega
  rw [hz]
  have hpre : traceRows (nat ++ q) 0 br c = traceRows nat 0 br c := by
    apply traceRows_congr
    intro i hi
    have hempty : rowLines q ((0 + i : Nat) : Int) = [] := by
      apply rowLines_of_no_row
      intro l hl
      obtain ⟨j, hj, hr⟩ := hq l hl
      rw [hr]
      intro he
      omega
    rw [rowLines_append, hempty, List.append_nil]
  rw [hpre, traceRows_add (nat ++ q) br count k]
  have hmid : traceRows (nat ++ q) br count (traceRows nat 0 br c) =
      traceRows q br count (traceRows nat 0 br c) := by
    apply traceRows_congr
    intro i hi
    have hempty : rowLines nat ((br + i : Nat) : Int) = [] := by
      apply rowLines_of_no_row
      intro l hl
      have := hnat l hl
      intro he
      rw [he] at this
      omega
    rw [rowLines_append, hempty, List.nil_append]
  rw [hmid]
  apply traceRows_no_rows
  intro i hi
  apply rowLines_of_no_row
  intro l hl
  rcases List.mem_append.mp hl with h | h
  · have := hnat l h
    intro he
    rw [he] at this
    omega
  · obtain ⟨j, hj, hr⟩ := hq l h
    rw [hr]
    intro he
    omega

theorem traceRows_inj (L : List HLine) (h : RowsNonOverlap L) (s : Nat) :
    ∀ (k : Nat) (x y : Int), traceRows L s k x = traceRows L s k y → x = y := by
  intro k
  induction k with
  | zero => intro x y hxy; exact hxy
  | succ k' ih =>
    intro x y hxy
    rw [traceRows_succ, traceRows_succ] at hxy
    exact ih x y (stepRow_inj (rowLines L ((s + k' : Nat) : Int))
      (rowLines_pairwise_disjoint L h _) _ _ hxy)

theorem traceRows_bound (L : List HLine) (nc : Nat)
    (hb : ∀ l ∈ L, 0 ≤ l.fromColumn ∧ l.fromColumn < (nc : Int) - 1) (s : Nat) :
    ∀ (k : Nat) (x : Int), 0 ≤ x → x < (nc : Int) →
      0 ≤ traceRows L s k x ∧ traceRows L s k x < (nc : Int) := by
  intro k
  induction k with
  | zero => intro x h1 h2; exact ⟨h1, h2⟩
  | succ k' ih =>
    intro x h1 h2
    rw [traceRows_succ]
    obtain ⟨g1, g2⟩ := ih x h1 h2
    by_cases hh : hitsRow (rowLines L ((s + k' : Nat) : Int)) (traceRows L s k' x)
    · have hm := stepRow_mem_touched _ _ hh
      rw [mem_allTouched] at hm
      obtain ⟨l, hl, hor⟩ := hm
      have hlL : l ∈ L := by
        rw [rowLines, List.mem_filter] at hl
        exact hl.1
      obtain ⟨b1, b2⟩ := hb l hlL
      rcases hor with h | h <;> rw [h] <;> constructor <;> omega
    · rw [stepRow_no_hit _ _ hh]
      exact ⟨g1, g2⟩

theorem calculateMapping_perm (nc rows : Nat) (L : List HLine) (h : RowsNonOverlap L)
    (hb : ∀ l ∈ L, 0 ≤ l.fromColumn ∧ l.fromColumn < (nc : Int) - 1) :
    (calculateMapping nc rows L).Perm (intRange nc) := by
  have hlen : (calculateMapping nc rows L).length = nc := by
    rw [calculateMapping, List.length_map, List.length_range]
  have hnd : (calculateMapping nc rows L).Nodup := by
    rw [calculateMapping]
    apply List.Nodup.map_on ?_ (List.nodup_range nc)
    intro x hx y hy hxy
    rw [traceFrom_eq_traceRows, traceFrom_eq_traceRows] at hxy
    have := traceRows_inj L h 0 rows _ _ hxy
    omega
  have hsub : ∀ v ∈ calculateMapping nc rows L, v ∈ intRange nc := by
    intro v hv
    rw [calculateMapping, List.mem_map] at hv
    obtain ⟨s, hs, he⟩ := hv
    rw [List.mem_range] at hs
    rw [← he, traceFrom_eq_traceRows]
    have hbd := traceRows_bound L nc hb 0 rows (s : Int) (by omega) (by omega)
    rw [mem_intRange]
    refine ⟨(traceRows L 0 rows (s : Int)).toNat, ?_, ?_⟩
    · omega
    · omega
  have hsp : (calculateMapping nc rows L).Subperm (intRange nc) :=
    List.subperm_of_subset hnd hsub
  exact hsp.perm_of_length_le (by rw [intRange_length, hlen])

theorem applySwapsVal_eq_map :
    ∀ (ts : List Nat) (m : List Int), applySwapsVal ts m = m.map (applyTransList ts) := by
  intro ts
  induction ts with
  | nil =>
    intro m
    exact (List.map_id' m).symm
  | cons t ts' ih =>
    intro m
    rw [applySwapsVal_cons, ih]
    have h1 : applySwapVal t m = m.map (applyTrans t) := rfl
    rw [h1, List.map_map]
    rfl

theorem generateRandomMapping_perm (n : Nat) (rand : Nat → Nat) :
    (generateRandomMapping n rand).Perm (intRange n) := by
  rw [generateRandomMapping]
  apply buildMapping_perm
  rw [shuffleSteps_eq_shuffleVec]
  rcases Nat.eq_zero_or_pos n with h0 | hp
  · subst h0
    exact List.Perm.refl _
  · apply shuffleVec_perm
    rw [vecOf_length, List.length_range]
    omega

theorem generateRandomLines_rows_lt (numColumns numRows : Nat)
    (rand : Nat → Nat → Bool) :
    ∀ l ∈ generateRandomLines numColumns numRows rand, l.row < (numRows : Int) := by
  intro l hl
  obtain ⟨row, h1, h2, hmem⟩ := mem_generateRandomLines numColumns numRows rand l hl
  have hr : l.row = (row : Int) := ((naturalRow_spec rand row numColumns).1 l hmem).1
  rw [hr]
  omega

theorem generateRandomLines_col_bounds (numColumns numRows : Nat)
    (rand : Nat → Nat → Bool) :
    ∀ l ∈ generateRandomLines numColumns numRows rand,
      0 ≤ l.fromColumn ∧ l.fromColumn < (numColumns : Int) - 1 := by
  intro l hl
  obtain ⟨row, _, _, hmem⟩ := mem_generateRandomLines numColumns numRows rand l hl
  exact ((naturalRow_spec rand row numColumns).1 l hmem).2

theorem pipeline_mapping_eq (nc br : Nat) (nat : List HLine) (tm : List Int)
    (hno : RowsNonOverlap nat)
    (hrows : ∀ l ∈ nat, l.row < (br : Int))
    (hbnd : ∀ l ∈ nat, 0 ≤ l.fromColumn ∧ l.fromColumn < (nc : Int) - 1)
    (htm : tm.Perm (intRange nc))
    (randFill : Nat → Nat → Bool) :
    calculateMapping nc
      ((addAdjustmentLines nat
        (calculateAdjustmentTranspositions (calculateMapping nc br nat) tm nc) br nc).2 + 1)
      (sortLines (fillWithDecorativePairs
        (addAdjustmentLines nat
          (calculateAdjustmentTranspositions (calculateMapping nc br nat) tm nc) br nc).1
        ((addAdjustmentLines nat
          (calculateAdjustmentTranspositions (calculateMapping nc br nat) tm nc) br nc).2 + 1)
        nc randFill))
    = tm := by
  obtain ⟨q, count, a1, a2, a3, a4, a5, a6, a7⟩ :=
    addAdjustmentLines_spec nat
      (calculateAdjustmentTranspositions (calculateMapping nc br nat) tm nc) br nc
  have h0 := addAdjustmentLines_nonoverlap nat
    (calculateAdjustmentTranspositions (calculateMapping nc br nat) tm nc) br nc hno hrows
  rw [a1] at h0
  rw [a1, a6]
  have hfillno : RowsNonOverlap (fillWithDecorativePairs (nat ++ q)
      (br + max 1 count + 1) nc randFill) :=
    fillWithDecorativePairs_nonoverlap _ _ _ _ h0
  rw [calculateMapping_congr_perm _ _ (sortLines_perm _) (sortLines_nonoverlap _ hfillno)
    nc (br + max 1 count + 1), fill_mapping_eq]
  have key : ∀ s : Nat, traceFrom (nat ++ q) (br + max 1 count + 1) (s : Int) =
      applyTransList (calculateAdjustmentTranspositions (calculateMapping nc br nat) tm nc)
        (traceFrom nat br (s : Int)) := by
    intro s
    rw [traceFrom_eq_traceRows, traceFrom_eq_traceRows,
      trace_decompose nat q br count (br + max 1 count + 1) hrows a5 (by omega), a7]
  have hmap : calculateMapping nc (br + max 1 count + 1) (nat ++ q) =
      (calculateMapping nc br nat).map
        (applyTransList
          (calculateAdjustmentTranspositions (calculateMapping nc br nat) tm nc)) := by
    rw [calculateMapping, calculateMapping, List.map_map]
    apply List.map_congr_left
    intro s _
    exact key s
  rw [hmap, ← applySwapsVal_eq_map]
  exact applySwapsVal_adjustment nc (calculateMapping nc br nat) tm
    (calculateMapping_perm nc br nat hno hbnd) htm

/-- C1: for every valid input (participant and result lists of equal length
`N` with `2 ≤ N ≤ 100`), the structure returned by `generate` is path-trace
consistent: re-tracing every start column through the returned
`horizontalLines` row by row from row `0` to `rows - 1` (right on a rung at
the current column, left on a rung at the column minus one, else straight)
reproduces the stored `mapping` exactly, and each single start column `s`
ends at `mapping[s]`. -/
theorem generate_path_trace (participants results : List String)
    (randFy : Nat → Nat) (randLines randFill : Nat → Nat → Bool)
    (hlen : participants.length = results.length)
    (h2 : 2 ≤ participants.length) (h100 : participants.length ≤ 100) :
    calculateMapping (generate participants results randFy randLines randFill).verticalLines
        (generate participants results randFy randLines randFill).rows
        (generate participants results randFy randLines randFill).horizontalLines =
      (generate participants results randFy randLines randFill).mapping ∧
    ∀ s : Nat, s < participants.length →
      traceFrom (generate participants results randFy randLines randFill).horizontalLines
          (generate participants results randFy randLines randFill).rows (s : Int) =
        (generate participants results randFy randLines randFill).mapping.getD s 0 := by
  have hmain := pipeline_mapping_eq participants.length
    (max MIN_ROWS (min MAX_ROWS (participants.length * ROWS_PER_PARTICIPANT)))
    (generateRandomLines participants.length
      (max MIN_ROWS (min MAX_ROWS (participants.length * ROWS_PER_PARTICIPANT))) randLines)
    (generateRandomMapping participants.length randFy)
    (generateRandomLines_nonoverlap _ _ _)
    (generateRandomLines_rows_lt _ _ _)
    (generateRandomLines_col_bounds _ _ _)
    (generateRandomMapping_perm _ _)
    randFill
  have hmain' : calculateMapping
      (generate participants results randFy randLines randFill).verticalLines
      (generate participants results randFy randLines randFill).rows
      (generate participants results randFy randLines randFill).horizontalLines =
      (generate participants results randFy randLines randFill).mapping := hmain
  refine ⟨hmain', ?_⟩
  intro s hs
  have h1 : (calculateMapping
      (generate participants results randFy randLines randFill).verticalLines
      (generate participants results randFy randLines randFill).rows
      (generate participants results randFy randLines randFill).horizontalLines).getD s 0 =
      traceFrom (generate participants results randFy randLines randFill).horizontalLines
        (generate participants results randFy randLines randFill).rows (s : Int) := by
    have hlt : s < (List.range
        (generate participants results randFy randLines randFill).verticalLines).length := by
      rw [List.length_range]
      exact hs
    rw [calculateMapping, List.getD_eq_getElem _ 0 (by rw [List.length_map]; exact hlt),
      List.getElem_map, List.getElem_range]
  rw [hmain'] at h1
  exact h1.symm

/-- Witness for C1 at a concrete valid input. -/
theorem generate_path_trace_witness :
    (["A", "B"] : List String).length = (["X", "Y"] : List String).length ∧
    2 ≤ (["A", "B"] : List String).length ∧
    (["A", "B"] : List String).length ≤ 100 ∧
    calculateMapping
        (generate ["A", "B"] ["X", "Y"] (fun i => i)
          (fun _ _ => false) (fun _ _ => false)).verticalLines
        (generate ["A", "B"] ["X", "Y"] (fun i => i)
          (fun _ _ => false) (fun _ _ => false)).rows
        (generate ["A", "B"] ["X", "Y"] (fun i => i)
          (fun _ _ => false) (fun _ _ => false)).horizontalLines =
      (generate ["A", "B"] ["X", "Y"] (fun i => i)
        (fun _ _ => false) (fun _ _ => false)).mapping :=
  ⟨rfl, by decide, by decide,
    (generate_path_trace ["A", "B"] ["X", "Y"] (fun i => i)
      (fun _ _ => false) (fun _ _ => false) rfl (by decide) (by decide)).1⟩

/-- C8: the shareable-URL round-trip FAILS on the ladder data with
participants `["A~"]` and results `["B"]`.  `generateShareableURL` returns
a URL whose base64 payload contains `+` (the byte `~` sits at an input
position producing a plain-`+` sextet), the query-string parsing inside
`parseShareableURL` decodes that `+` as a space, forgiving-base64 then
strips it, leaving 75 characters whose trailing `=` is no longer padding,
so `atob` throws and `parseShareableURL` returns `null` instead of the
original participants and results. -/
theorem shareURL_roundtrip_fails :
    generateShareableURL "https://example.com" "/" shareBugLadder =
      some ("https://example.com/?data=" ++
        "JTdCJTIycCUyMiUzQSU1QiUyMkF+JTIyJTVEJTJDJTIyciUyMiUzQSU1QiUyMkIlMjIlNUQlN0Q=") ∧
    parseShareableURL ("https://example.com/?data=" ++
        "JTdCJTIycCUyMiUzQSU1QiUyMkF+JTIyJTVEJTJDJTIyciUyMiUzQSU1QiUyMkIlMjIlNUQlN0Q=") =
      none := by
  constructor
  · rfl
  · rfl

/-- C9: for every `numColumns ≥ 2` and `numRows ≥ 1`, every line returned
by `generateRandomLines` has a row index `r` with `1 ≤ r ≤ numRows - 1`:
natural rung generation starts at the second row, so row 0 never receives
a natural rung. -/
theorem generateRandomLines_row_range (numColumns numRows : Nat)
    (hc : 2 ≤ numColumns) (hr : 1 ≤ numRows) (rand : Nat → Nat → Bool) :
    ∀ l ∈ generateRandomLines numColumns numRows rand,
      1 ≤ l.row ∧ l.row ≤ (numRows : Int) - 1 := by
  intro l hl
  obtain ⟨row, h1, h2, hmem⟩ := mem_generateRandomLines numColumns numRows rand l hl
  have hrow : l.row = (row : Int) := ((naturalRow_spec rand row numColumns).1 l hmem).1
  rw [hrow]
  omega

/-- Witness for C9 at a concrete input: the single line generated for two
columns and two rows with an always-true random source sits in row 1. -/
theorem generateRandomLines_row_range_witness :
    (1 : Int) ≤ (⟨0, 1⟩ : HLine).row ∧ (⟨0, 1⟩ : HLine).row ≤ (2 : Int) - 1 :=
  generateRandomLines_row_range 2 2 (by decide) (by decide) (fun _ _ => true)
    ⟨0, 1⟩ (by decide)

/-- C7: `validateInputs` returns a non-null message exactly on the invalid
inputs (fewer than 2 participants, fewer than 2 results, mismatched
lengths, more than 100 participants, or duplicate participant names), and
the start handler calls `Ladder.generate` only when validation returns
null, propagating the error otherwise. -/
theorem validateInputs_spec (p r : List String) (randFy : Nat → Nat)
    (randLines randFill : Nat → Nat → Bool) :
    ((validateInputs p r).isSome ↔
      (p.length < 2 ∨ r.length < 2 ∨ p.length ≠ r.length ∨ 100 < p.length ∨ ¬p.Nodup)) ∧
    (validateInputs p r = none →
      handleStart p r randFy randLines randFill =
        Except.ok (generate p r randFy randLines randFill)) ∧
    (∀ e, validateInputs p r = some e →
      handleStart p r randFy randLines randFill = Except.error e) := by
  refine ⟨?_, ?_, ?_⟩
  · rw [validateInputs]
    split_ifs with h1 h2 h3 h4 h5
    · simp [h1]
    · simp [h2]
    · simp [h3]
    · simp [h4]
    · simp only [Option.isSome_some, true_iff]
      have : ¬p.Nodup := fun hn => h5 (by rw [List.dedup_eq_self.mpr hn])
      tauto
    · have hnd : p.Nodup := by
        have hlen : p.dedup.length = p.length := by omega
        have hs : p.dedup = p := p.dedup_sublist.eq_of_length hlen
        exact hs ▸ p.nodup_dedup
      simp [h1, h2, h3, h4, hnd]
  · intro h
    rw [handleStart, h]
  · intro e h
    rw [handleStart, h]

/-- Witness for C7: the single participant list `["A"]` is rejected with
the too-few-participants message and `generate` is never reached. -/
theorem validateInputs_spec_witness :
    handleStart ["A"] ["B"] (fun i => i) (fun _ _ => true) (fun _ _ => true) =
      Except.error "참여자를 최소 2명 이상 입력해주세요." :=
  (validateInputs_spec ["A"] ["B"] (fun i => i) (fun _ _ => true) (fun _ _ => true)).2.2
    _ rfl

/-- C10: for ladder data whose mapping is a well-formed assignment on
`{0 … N-1}`, `getResultForParticipant` returns `results[mapping[i]]` for
an in-range participant index and the empty string for any out-of-range
index. -/
theorem getResultForParticipant_spec (d : LadderData)
    (hlen : d.participants.length = d.results.length)
    (hmap : d.mapping.length = d.participants.length)
    (hvals : ∀ v ∈ d.mapping, 0 ≤ v ∧ v < (d.participants.length : Int)) (i : Int) :
    ((0 ≤ i ∧ i < (d.participants.length : Int)) →
      getResultForParticipant d i =
        d.results.getD (d.mapping.getD i.toNat 0).toNat "") ∧
    (¬(0 ≤ i ∧ i < (d.participants.length : Int)) →
      getResultForParticipant d i = "") := by
  constructor
  · rintro ⟨h0, hN⟩
    rw [getResultForParticipant]
    have hidx : i.toNat < d.mapping.length := by omega
    have hgetD : d.mapping.getD i.toNat 0 = d.mapping[i.toNat] :=
      List.getD_eq_getElem d.mapping 0 hidx
    have hv := hvals d.mapping[i.toNat] (List.getElem_mem hidx)
    simp only [if_pos h0, List.getElem?_eq_getElem hidx, if_pos hv.1, hgetD,
      List.getD_eq_getElem?_getD]
  · intro h
    rw [getResultForParticipant]
    by_cases h0 : 0 ≤ i
    · have hN : ¬i < (d.participants.length : Int) := fun hlt => h ⟨h0, hlt⟩
      have hlen2 : d.mapping.length ≤ i.toNat := by omega
      simp [if_pos h0, List.getElem?_eq_none hlen2]
    · simp [if_neg h0]

/-- Witness for C10: at the sample ladder, participant 0 lands on result
"Y" (via mapping entry 1) and the out-of-range index 5 yields "". -/
theorem getResultForParticipant_spec_witness :
    getResultForParticipant sampleLadder 0 =
        sampleLadder.results.getD ((sampleLadder.mapping.getD (Int.toNat 0) 0).toNat) "" ∧
    getResultForParticipant sampleLadder 5 = "" :=
  ⟨(getResultForParticipant_spec sampleLadder rfl rfl (by decide) 0).1 (by decide),
   (getResultForParticipant_spec sampleLadder rfl rfl (by decide) 5).2 (by decide)⟩

end LadderDraw
